import Mathlib

/-! sendmail-shim: address lists, argument interpretation, message reading and rendering.

A shallow embedding of `shim.go`.  A Go `string` is modelled by the list of its characters
(`Str`); a panic is modelled by `none`.  The two regular expressions of the program are
embedded by matchers that follow Go's `regexp` semantics for these patterns (leftmost match,
greedy repetition, the preferred alternative first), and the `FindAll` family by the loop of
`regexp.(*Regexp).allMatches`.
-/

namespace Shim

/-- A Go string, as its sequence of characters. -/
abbrev Str := List Char

/-! ## Helpers from the Go standard library -/

/-- The class `\s` of Go regular expressions: tab, line feed, form feed, carriage return, space. -/
def isSpace (c : Char) : Bool :=
  c == '\t' || c == '\n' || c == '\x0c' || c == '\r' || c == ' '

/-- The cutset of `strings.Trim(s, " ")`: the space character only. -/
def isBlank (c : Char) : Bool := c == ' '

/-- Removes from both ends of `s` the characters satisfying `p` (`strings.Trim` for a cutset). -/
def trimBy (p : Char → Bool) (s : Str) : Str :=
  (s.dropWhile p).rdropWhile p

/-- The call `strings.Trim(s, " ")`. -/
def Trim (s : Str) : Str := trimBy isBlank s

/-- The call `strings.Join(args, " ")`. -/
def Join : List Str → Str
  | [] => []
  | [a] => a
  | a :: b :: rest => a ++ ' ' :: Join (b :: rest)

/-- Splits `s` around the first occurrence of the non-empty separator `sep`
(`strings.Cut`; `strings.SplitN(s, sep, 2)` has two parts exactly when this is `some`). -/
def Cut (sep : Str) : Str → Option (Str × Str)
  | [] => if sep = [] then some ([], []) else none
  | c :: t =>
    if sep.isPrefixOf (c :: t) then some ([], (c :: t).drop sep.length)
    else match Cut sep t with
      | some (a, b) => some (c :: a, b)
      | none => none

/-- The loop of `strings.Split(s, sep)`: cut at the first separator, go on with what follows. -/
def SplitAux (sep : Str) : Nat → Str → List Str
  | 0, s => [s]
  | n + 1, s =>
    match Cut sep s with
    | some (a, b) => a :: SplitAux sep n b
    | none => [s]

/-- The call `strings.Split(s, sep)` for a non-empty separator: every cut consumes at least
one character, so `s.length` rounds are enough. -/
def Split (sep s : Str) : List Str := SplitAux sep s.length s

/-- The call `strings.Contains(s, sub)`. -/
def Contains (s sub : Str) : Bool :=
  match s with
  | [] => sub.isPrefixOf []
  | c :: t => sub.isPrefixOf (c :: t) || Contains t sub

/-- The call `strings.ReplaceAll(s, "\n", "\r\n")`. -/
def ReplaceLF : Str → Str
  | [] => []
  | c :: t => if c = '\n' then '\r' :: '\n' :: ReplaceLF t else c :: ReplaceLF t

/-- Lower-cases one character as `unicode.ToLower` does, for every character whose image is an
ASCII letter: `A`..`Z`, the Kelvin sign U+212A and the dotted capital I U+0130.  Other characters
are left as they are; Go maps further non-ASCII letters to non-ASCII letters, which no
comparison with an ASCII header name can tell apart. -/
def lowerRune (c : Char) : Char :=
  if c.val = 0x212A then 'k'
  else if c.val = 0x0130 then 'i'
  else c.toLower

/-- The call `strings.ToLower(s)`, as far as comparisons with ASCII names go. -/
def ToLower (s : Str) : Str := s.map lowerRune

/-! ## Addresses -/

/-- The struct `EmailAddress`. -/
structure EmailAddress where
  Name : Str
  Address : Str
  deriving DecidableEq, Repr

/-- The method `(*EmailAddress).StringFormat`. -/
def EmailAddress.StringFormat (a : EmailAddress) : Str :=
  if a.Name ≠ [] then a.Name ++ " <".toList ++ a.Address ++ ">".toList
  else a.Address

/-- The loop body of `FormatAddresses`, index `i`, accumulator `x`. -/
def formatStep (x : Str) (i : Nat) (v : EmailAddress) : Str :=
  (if i ≠ 0 then x ++ [','] else x) ++ v.StringFormat

/-- The loop of `FormatAddresses` from index `i` on. -/
def formatLoop : Nat → Str → List EmailAddress → Str
  | _, x, [] => x
  | i, x, v :: rest => formatLoop (i + 1) (formatStep x i v) rest

/-- The function `FormatAddresses`. -/
def FormatAddresses (as : List EmailAddress) : Str := formatLoop 0 [] as

/-- The class `[^<>,]`. -/
def notSep (c : Char) : Bool := !(c == '<' || c == '>' || c == ',')

/-- The group `(?:\s*<\s*(?P<address>[^<>,]+)>)` anchored at the head of `s`: the captured
address and what follows the match.  After `<` the run of `[^<>,]` must reach a `>`; `\s*` is
greedy and gives back one character when it would leave nothing for `[^<>,]+`. -/
def matchBracket (s : Str) : Option (Str × Str) :=
  match s.dropWhile isSpace with
  | '<' :: t =>
    let run := t.takeWhile notSep
    match t.dropWhile notSep with
    | '>' :: rest =>
      if run = [] then none
      else some (run.drop (min (run.takeWhile isSpace).length (run.length - 1)), rest)
    | _ => none
  | _ => none

/-- The group `(?:,\s*)?` anchored at the head of `s`: what follows the match. -/
def matchComma : Str → Str
  | ',' :: t => t.dropWhile isSpace
  | s => s

/-- The pattern `(?P<name>[^<>,]+)?(?:\s*<\s*(?P<address>[^<>,]+)>)?(?:,\s*)?` anchored at the
head of `s`: the two captures and what follows the match.  Every part is optional and greedy,
so the name is the longest run of `[^<>,]`, then the bracket group is taken when it matches,
then the comma group. -/
def matchAddress (s : Str) : Str × Str × Str :=
  let name := s.takeWhile notSep
  let r1 := s.dropWhile notSep
  match matchBracket r1 with
  | some (addr, r2) => (name, addr, matchComma r2)
  | none => (name, [], matchComma r1)

/-- The loop of `allMatches` behind `FindAllStringSubmatch(addrs, -1)`.  The pattern matches
the empty string, so the leftmost match at a position starts there.  `prevHere` says that the
previous match ended at the current position: an empty match is then dropped.  After an empty
match the scan moves one character on, or stops at the end of the text. -/
def allMatchesAux : Nat → Bool → Str → List (Str × Str)
  | 0, _, _ => []
  | fuel + 1, prevHere, s =>
    let m := matchAddress s
    if m.2.2.length = s.length then
      let out : List (Str × Str) := if prevHere then [] else [(m.1, m.2.1)]
      match s with
      | [] => out
      | _ :: t => out ++ allMatchesAux fuel false t
    else (m.1, m.2.1) :: allMatchesAux fuel true m.2.2

/-- The call `re.FindAllStringSubmatch(addrs, -1)`, reduced to the two captures of each match.
Every round consumes a character or is the last, so `addrs.length + 1` rounds are enough. -/
def FindAllStringSubmatch (addrs : Str) : List (Str × Str) :=
  allMatchesAux (addrs.length + 1) false addrs

/-- The loop body of `ParseAddresses` for one match. -/
def toAddress (m : Str × Str) : EmailAddress :=
  let a : EmailAddress := { Name := Trim m.1, Address := Trim m.2 }
  if a.Address = [] then { Name := [], Address := a.Name } else a

/-- The function `ParseAddresses`. -/
def ParseAddresses (addrs : Str) : List EmailAddress :=
  (FindAllStringSubmatch addrs).map toAddress

/-! ## The message -/

/-- The struct `Email`; the time stamp is kept as a number. -/
structure Email where
  Timestamp : Nat
  From : Option EmailAddress
  ReplyTo : List EmailAddress
  To : List EmailAddress
  CC : List EmailAddress
  BCC : List EmailAddress
  Subject : Str
  ExtraHeaders : Str
  Body : Str
  deriving DecidableEq, Repr

/-- The value `Email{Timestamp: time.Now()}` of `main`: every other field has its zero value. -/
def fresh (ts : Nat) : Email :=
  { Timestamp := ts, From := none, ReplyTo := [], To := [], CC := [], BCC := [],
    Subject := [], ExtraHeaders := [], Body := [] }

/-! ## Argument interpretation -/

/-- The class `[^@\s]`. -/
def notAtSpace (c : Char) : Bool := !(c == '@' || isSpace c)

/-- The pattern `[^@\s]+@[^@\s]+` anchored at the head of `s`: the matched text and what
follows it.  Both runs are greedy; the first must stop at an `@`. -/
def matchEmail (s : Str) : Option (Str × Str) :=
  let u := s.takeWhile notAtSpace
  match s.dropWhile notAtSpace with
  | '@' :: t =>
    let d := t.takeWhile notAtSpace
    if u = [] ∨ d = [] then none else some (u ++ '@' :: d, t.dropWhile notAtSpace)
  | _ => none

/-- The pattern `(?:-[fr])([^@\s]+@[^@\s]+)` anchored at the head of `s`: the matched text
(the two flag characters included) and what follows it. -/
def matchSender : Str → Option (Str × Str)
  | '-' :: c :: t =>
    if c = 'f' ∨ c = 'r' then
      match matchEmail t with
      | some (m, rest) => some ('-' :: c :: m, rest)
      | none => none
    else none
  | _ => none

/-- The loop behind `captureSender.FindAll(argString, -1)`: the leftmost match from the current
position on, then the scan goes on after that match. -/
def findAllSenderAux : Nat → Str → List Str
  | 0, _ => []
  | _, [] => []
  | fuel + 1, c :: t =>
    match matchSender (c :: t) with
    | some (m, rest) => m :: findAllSenderAux fuel rest
    | none => findAllSenderAux fuel t

/-- The call `captureSender.FindAll(argString, -1)`; a match is never empty, so
`argString.length` rounds are enough. -/
def FindAllSender (argString : Str) : List Str :=
  findAllSenderAux argString.length argString

/-- The call `emailRegex.Match([]byte(v))` for the pattern `([^@\s]+@[^@\s]+)`: a match
somewhere in `v`. -/
def emailRegexMatch : Str → Bool
  | [] => false
  | c :: t => (matchEmail (c :: t)).isSome || emailRegexMatch t

/-- The body of the recipient loop of `PopulateFromArgs` for the token `v`. -/
def recipientStep (tos : List EmailAddress) (v : Str) : List EmailAddress :=
  if v.length ≠ 0 ∧ v.head? ≠ some '-' ∧ emailRegexMatch v = true then
    tos ++ [{ Name := [], Address := v }]
  else tos

/-- The method `(*Email).PopulateFromArgs`. -/
def PopulateFromArgs (e : Email) (args : List Str) : Email :=
  let maybeSender := FindAllSender (Join args)
  let e1 : Email :=
    match maybeSender.getLast? with
    | some m => { e with From := some { Name := [], Address := m.drop 2 } }
    | none => e
  if args.any (fun v => decide (v = "-t".toList)) then e1
  else { e1 with To := args.foldl recipientStep e1.To }

/-! ## Reading the message -/

/-- The `switch` of `PopulateFromStdin` for the header line `v` with name `name` and trimmed
value `val`; `none` is the panic of the `from` case. -/
def headerStep (e : Email) (v name val : Str) : Option Email :=
  let n := ToLower name
  if n = "from".toList then
    match e.From with
    | some _ => some e
    | none =>
      match ParseAddresses val with
      | [a] => some { e with From := some a }
      | _ => none
  else if n = "sender".toList then some e
  else if n = "reply-to".toList then
    some (if e.ReplyTo.length = 0 then { e with ReplyTo := ParseAddresses val } else e)
  else if n = "to".toList then
    some (if e.To.length = 0 then { e with To := ParseAddresses val } else e)
  else if n = "cc".toList then
    some (if e.CC.length = 0 then { e with CC := ParseAddresses val } else e)
  else if n = "bcc".toList then
    some (if e.BCC.length = 0 then { e with BCC := ParseAddresses val } else e)
  else if n = "subject".toList then some { e with Subject := val }
  else some { e with ExtraHeaders := e.ExtraHeaders ++ v ++ "\r\n".toList }

/-- The loop over the header rows of `PopulateFromStdin`, from row index `i` on; `none` is a
panic, a row without colon at index 0 ends the loop with the whole content as body. -/
def rowsLoop (content : Str) : Nat → Email → List Str → Option Email
  | _, e, [] => some e
  | i, e, v :: rest =>
    match Cut ":".toList v with
    | none => if i ≠ 0 then none else some { e with Body := content }
    | some (name, raw) =>
      match headerStep e v name (Trim raw) with
      | some e1 => rowsLoop content (i + 1) e1 rest
      | none => none

/-- The method `(*Email).PopulateFromStdin`, given the text `b` read from standard input. -/
def PopulateFromStdin (e : Email) (b : Str) : Option Email :=
  let content := if !Contains b "\r\n".toList then ReplaceLF b else b
  match Cut "\r\n\r\n".toList content with
  | none => some { e with Body := content }
  | some (headers, body) =>
    rowsLoop content 0 { e with Body := body } (Split "\r\n".toList headers)

/-! ## Rendering and dispatch -/

/-- The method `(*Email).GetMessage`; `none` is one of its two panics. -/
def GetMessage (e : Email) : Option Str :=
  match e.From with
  | none => none
  | some f =>
    if f.Address = [] then none
    else
      let msg := "From: ".toList ++ f.StringFormat ++ "\r\n".toList
      let msg := msg ++ ("Sender: ".toList ++ f.StringFormat ++ "\r\n".toList)
      let msg :=
        if e.ReplyTo.length ≠ 0 then
          msg ++ ("Reply-To: ".toList ++ FormatAddresses e.ReplyTo ++ "\r\n".toList)
        else msg
      match e.To with
      | [] => none
      | t0 :: _ =>
        if t0.Address = [] then none
        else
          let msg := msg ++ ("To: ".toList ++ FormatAddresses e.To ++ "\r\n".toList)
          let msg :=
            if e.CC.length ≠ 0 then
              msg ++ ("CC: ".toList ++ FormatAddresses e.CC ++ "\r\n".toList)
            else msg
          let msg := msg ++ ("Subject: ".toList ++ e.Subject ++ "\r\n".toList)
          let msg := if e.ExtraHeaders ≠ [] then msg ++ e.ExtraHeaders else msg
          let msg := msg ++ "\r\n".toList
          some (msg ++ e.Body)

/-- The recipient list `allRecAddrs` that `SendMail` builds. -/
def allRecAddrs (e : Email) : List Str :=
  let x : List Str := []
  let x := e.To.foldl (fun acc v => acc ++ [v.Address]) x
  let x := e.CC.foldl (fun acc v => acc ++ [v.Address]) x
  e.BCC.foldl (fun acc v => acc ++ [v.Address]) x

/-- The arguments `SendMail` hands to `smtp.SendMail` after the server address and the
credentials: envelope sender, recipients, message text.  `serverOk` says whether the build-time
value `SMTP_SERVER` has the form host:port; `none` is the panic of `net.SplitHostPort` or of
`GetMessage`. -/
def SendMail (serverOk : Bool) (e : Email) : Option (Str × List Str × Str) :=
  if serverOk = false then none
  else
    let recs := allRecAddrs e
    match GetMessage e with
    | none => none
    | some msg =>
      match e.From with
      | some f => some (f.Address, recs, msg)
      | none => none

/-! ## The loose address shape, in the words of the specification -/

/-- The shape `nonspace+ "@" nonspace+` of the specification: one or more non-whitespace
characters, an `@`, one or more non-whitespace characters. -/
def specLooseShape (v : Str) : Prop :=
  ∃ x y : Str, x ≠ [] ∧ y ≠ [] ∧ (∀ c ∈ x, isSpace c = false) ∧ (∀ c ∈ y, isSpace c = false) ∧
    v = x ++ '@' :: y

/-! ## Sender flags, in the words of the specification -/

/-- An occurrence of a sender flag: `m` is `-f` or `-r` immediately followed by an
address-shaped fragment (one or more characters that are neither whitespace nor `@`, an `@`,
one or more such characters), the fragment reaching as far as such characters go, and `rest`
is the text after it. -/
def specSenderFlag (m rest : Str) : Prop :=
  ∃ (c : Char) (u d : Str), (c = 'f' ∨ c = 'r') ∧ u ≠ [] ∧ d ≠ [] ∧
    (∀ x ∈ u, notAtSpace x = true) ∧ (∀ x ∈ d, notAtSpace x = true) ∧
    m = '-' :: c :: (u ++ '@' :: d) ∧ (∀ x, rest.head? = some x → notAtSpace x = false)

/-- The scan for sender flags, in the words of the specification: `specScan s ms` says that
`ms` lists the occurrences found in the text `s` from left to right, where each occurrence
found is the first one, by its starting place, in the text that is left, and the text that
is left after an occurrence is what follows its end (flag and fragment). -/
inductive specScan : Str → List Str → Prop
  | done (s : Str)
      (h : ∀ pre m rest : Str, s = pre ++ (m ++ rest) → ¬ specSenderFlag m rest) :
      specScan s []
  | found (pre m rest : Str) (ms : List Str) (hm : specSenderFlag m rest)
      (hfirst : ∀ p1 p2 m2 r2 : Str, pre = p1 ++ p2 → p2 ≠ [] →
        p2 ++ (m ++ rest) = m2 ++ r2 → ¬ specSenderFlag m2 r2)
      (hrest : specScan rest ms) :
      specScan (pre ++ (m ++ rest)) (m :: ms)

/-! ## Equality up to surrounding whitespace -/

/-- An address with the whitespace around its name and around its address removed: two
addresses are the same up to surrounding whitespace when their images are equal. -/
def specTrimmed (a : EmailAddress) : EmailAddress :=
  { Name := trimBy isSpace a.Name, Address := trimBy isSpace a.Address }

/-! ## The rendered layout, in the words of the specification -/

/-- The `format` of the specification: `name <address>` when the name is non-empty, the address
alone otherwise. -/
def specFormat (a : EmailAddress) : Str :=
  if a.Name = [] then a.Address else a.Name ++ ' ' :: '<' :: a.Address ++ ['>']

/-- The `formatList` of the specification: the formats joined with `,` in input order. -/
def specFormatList (as : List EmailAddress) : Str :=
  List.intercalate [','] (as.map specFormat)

/-- The rendered text of the specification for a message whose sender is `f`: the header lines
in their fixed order, the extra headers, a blank line, the body. -/
def specLayout (e : Email) (f : EmailAddress) : Str :=
  "From: ".toList ++ specFormat f ++ "\r\n".toList
    ++ ("Sender: ".toList ++ specFormat f ++ "\r\n".toList)
    ++ (if e.ReplyTo = [] then []
        else "Reply-To: ".toList ++ specFormatList e.ReplyTo ++ "\r\n".toList)
    ++ ("To: ".toList ++ specFormatList e.To ++ "\r\n".toList)
    ++ (if e.CC = [] then [] else "CC: ".toList ++ specFormatList e.CC ++ "\r\n".toList)
    ++ ("Subject: ".toList ++ e.Subject ++ "\r\n".toList)
    ++ e.ExtraHeaders
    ++ "\r\n".toList
    ++ e.Body

/-! ## The header block, in the words of the specification -/

/-- The input after the normalisation of line endings: when it contains no CR-LF pair, every
line feed is read as a CR-LF pair. -/
def specNormalized (b : Str) : Str :=
  if Contains b "\r\n".toList = true then b else ReplaceLF b

/-- The first line of a header block: the text before its first CR-LF, or all of it. -/
def specFirstLine (headers : Str) : Str :=
  match Cut "\r\n".toList headers with
  | some (line, _) => line
  | none => headers

/-- The value (trimmed of spaces) of the first header line whose lower-cased name is `kind`. -/
def specFirstValue (kind : Str) : List Str → Option Str
  | [] => none
  | row :: rest =>
    match Cut ":".toList row with
    | some (name, raw) =>
      if ToLower name = kind then some (Trim raw) else specFirstValue kind rest
    | none => specFirstValue kind rest

/-- The recognized header names. -/
def specRecognized : List Str :=
  ["from".toList, "sender".toList, "reply-to".toList, "to".toList, "cc".toList,
    "bcc".toList, "subject".toList]

/-- A header line whose lower-cased name is none of the recognized names. -/
def specIsExtra (row : Str) : Bool :=
  match Cut ":".toList row with
  | some (name, _) => decide (ToLower name ∉ specRecognized)
  | none => false


/-- The first-writer-wins value of a list field: the old list when it is non-empty, else the
parse of the first header value of its kind, else still the old list. -/
def specFirstWriter (old : List EmailAddress) (v : Option Str) : List EmailAddress :=
  if old ≠ [] then old
  else
    match v with
    | some val => ParseAddresses val
    | none => old

/-- The first-writer-wins value of the sender: the old sender when it is set, else the single
address the first `From` header value parses to. -/
def specFirstWriterFrom (old : Option EmailAddress) (v : Option Str) :
    Option EmailAddress :=
  match old with
  | some f => some f
  | none =>
    match v with
    | some val => (ParseAddresses val).head?
    | none => none

/-! ## Texts without line break -/

/-- The text contains no CR-LF pair. -/
def NoCRLF (s : Str) : Prop := ∀ p q : Str, s ≠ p ++ '\r' :: '\n' :: q

/-- Neither the name nor the address contains a CR-LF pair. -/
def CleanAddress (a : EmailAddress) : Prop := NoCRLF a.Name ∧ NoCRLF a.Address

/-- The fields that `GetMessage` renders hold no CR-LF pair, and the extra headers are
non-empty lines without CR-LF pair, each followed by CR-LF. -/
def CleanHeaders (e : Email) : Prop :=
  (∀ f, e.From = some f → CleanAddress f) ∧
  (∀ a ∈ e.ReplyTo, CleanAddress a) ∧ (∀ a ∈ e.To, CleanAddress a) ∧
  (∀ a ∈ e.CC, CleanAddress a) ∧ NoCRLF e.Subject ∧
  ∃ lines : List Str, e.ExtraHeaders = (lines.map (fun r => r ++ ['\r', '\n'])).flatten ∧
    ∀ r ∈ lines, r ≠ [] ∧ NoCRLF r

end Shim

namespace Shim

/-! ## The fuel of the scanning loops is enough -/

theorem Cut_length (sep s a b : Str) (hsep : sep ≠ []) (h : Cut sep s = some (a, b)) :
    b.length < s.length := by
  induction s generalizing a with
  | nil => simp [Cut, hsep] at h
  | cons c t ih =>
    unfold Cut at h
    by_cases hp : sep.isPrefixOf (c :: t) = true
    · rw [if_pos hp] at h
      simp only [Option.some.injEq, Prod.mk.injEq] at h
      rw [← h.2, List.length_drop]
      have hpos : 0 < sep.length := List.length_pos.2 hsep
      simp only [List.length_cons]
      omega
    · rw [if_neg hp] at h
      cases hc : Cut sep t with
      | none => simp [hc] at h
      | some ab =>
        obtain ⟨a2, b2⟩ := ab
        simp only [hc, Option.some.injEq, Prod.mk.injEq] at h
        have := ih a2 (by rw [hc, h.2])
        simp only [List.length_cons]
        omega

theorem SplitAux_fuel (sep : Str) (hsep : sep ≠ []) (f1 f2 : Nat) (s : Str)
    (h1 : s.length ≤ f1) (h2 : s.length ≤ f2) : SplitAux sep f1 s = SplitAux sep f2 s := by
  induction f1 generalizing f2 s with
  | zero =>
    have hs : s = [] := List.length_eq_zero.1 (Nat.le_zero.1 h1)
    subst hs
    cases f2 with
    | zero => rfl
    | succ j => simp [SplitAux, Cut, hsep]
  | succ k ih =>
    cases f2 with
    | zero =>
      have hs : s = [] := List.length_eq_zero.1 (Nat.le_zero.1 h2)
      subst hs
      simp [SplitAux, Cut, hsep]
    | succ j =>
      cases hc : Cut sep s with
      | none => simp [SplitAux, hc]
      | some ab =>
        obtain ⟨a, b⟩ := ab
        have hlt := Cut_length sep s a b hsep hc
        simp only [SplitAux, hc]
        rw [ih j b (by omega) (by omega)]

theorem matchComma_length_le (T : Str) : (matchComma T).length ≤ T.length := by
  unfold matchComma
  split
  · rename_i t
    have := (List.dropWhile_suffix isSpace (l := t)).length_le
    simp only [List.length_cons]
    omega
  · exact le_refl _

theorem matchBracket_length (s a r : Str) (h : matchBracket s = some (a, r)) :
    r.length < s.length := by
  unfold matchBracket at h
  split at h
  · rename_i t hd
    split at h
    · rename_i rest hr
      simp only at h
      split_ifs at h
      simp only [Option.some.injEq, Prod.mk.injEq] at h
      have e1 := (List.dropWhile_suffix isSpace (l := s)).length_le
      have e2 := (List.dropWhile_suffix notSep (l := t)).length_le
      rw [hd] at e1
      rw [hr] at e2
      rw [← h.2]
      simp only [List.length_cons] at e1 e2
      omega
    · simp at h
  · simp at h

theorem matchAddress_length_le (s : Str) : (matchAddress s).2.2.length ≤ s.length := by
  have e1 := (List.dropWhile_suffix notSep (l := s)).length_le
  unfold matchAddress
  cases hb : matchBracket (s.dropWhile notSep) with
  | none =>
    have := matchComma_length_le (s.dropWhile notSep)
    simp only [hb]
    omega
  | some ar =>
    obtain ⟨a, r⟩ := ar
    have e2 := matchBracket_length _ a r hb
    have := matchComma_length_le r
    simp only [hb]
    omega

theorem allMatchesAux_fuel (f1 f2 : Nat) (prev : Bool) (s : Str)
    (h1 : s.length < f1) (h2 : s.length < f2) :
    allMatchesAux f1 prev s = allMatchesAux f2 prev s := by
  induction f1 generalizing f2 prev s with
  | zero => omega
  | succ k ih =>
    cases f2 with
    | zero => omega
    | succ j =>
      have hle := matchAddress_length_le s
      by_cases hm : (matchAddress s).2.2.length = s.length
      · cases s with
        | nil => simp [allMatchesAux, hm]
        | cons c t =>
          simp only [List.length_cons] at h1 h2
          simp only [allMatchesAux, hm, if_true]
          rw [ih j false t (by omega) (by omega)]
      · simp only [allMatchesAux, hm, if_false]
        rw [ih j true _ (by omega) (by omega)]

/-! ## Trimming -/

theorem rdropWhile_append_of_pos (p : Char → Bool) (d w : Str)
    (hw : ∀ c ∈ w, p c = true) : (d ++ w).rdropWhile p = d.rdropWhile p := by
  unfold List.rdropWhile
  rw [List.reverse_append, List.dropWhile_append_of_pos]
  intro c hc
  exact hw c (List.mem_reverse.1 hc)

theorem dropWhile_append_of_exists (p : Char → Bool) (x y : Str)
    (hx : ∃ c ∈ x, p c = false) : (x ++ y).dropWhile p = x.dropWhile p ++ y := by
  induction x with
  | nil => simp at hx
  | cons a t ih =>
    by_cases ha : p a = true
    · obtain ⟨c, hc, hpc⟩ := hx
      have hct : ∃ c ∈ t, p c = false := by
        rcases List.mem_cons.1 hc with rfl | hc
        · rw [ha] at hpc
          exact absurd hpc (by simp)
        · exact ⟨c, hc, hpc⟩
      simp [List.dropWhile, ha, ih hct]
    · simp [List.dropWhile, ha]

theorem trimBy_append_left (p : Char → Bool) (w x : Str) (hw : ∀ c ∈ w, p c = true) :
    trimBy p (w ++ x) = trimBy p x := by
  unfold trimBy
  rw [List.dropWhile_append_of_pos hw]

theorem trimBy_append_right (p : Char → Bool) (x w : Str) (hw : ∀ c ∈ w, p c = true) :
    trimBy p (x ++ w) = trimBy p x := by
  unfold trimBy
  by_cases hx : ∀ c ∈ x, p c = true
  · have h1 : (x ++ w).dropWhile p = [] := by
      rw [List.dropWhile_eq_nil_iff]
      intro c hc
      rcases List.mem_append.1 hc with h | h
      · exact hx c h
      · exact hw c h
    have h2 : x.dropWhile p = [] := List.dropWhile_eq_nil_iff.2 hx
    rw [h1, h2]
  · push_neg at hx
    obtain ⟨c, hc, hpc⟩ := hx
    rw [dropWhile_append_of_exists p x w ⟨c, hc, by simpa using hpc⟩,
      rdropWhile_append_of_pos p _ w hw]

theorem trimBy_decomp (p : Char → Bool) (x : Str) :
    ∃ l r : Str, (∀ c ∈ l, p c = true) ∧ (∀ c ∈ r, p c = true) ∧
      x = l ++ (trimBy p x ++ r) := by
  refine ⟨x.takeWhile p, ((x.dropWhile p).reverse.takeWhile p).reverse,
    fun c hc => List.mem_takeWhile_imp hc,
    fun c hc => List.mem_takeWhile_imp (List.mem_reverse.1 hc), ?_⟩
  have h1 : trimBy p x ++ ((x.dropWhile p).reverse.takeWhile p).reverse = x.dropWhile p := by
    unfold trimBy List.rdropWhile
    rw [← List.reverse_append, List.takeWhile_append_dropWhile, List.reverse_reverse]
  rw [h1, List.takeWhile_append_dropWhile]

theorem trimBy_trimBy (p q : Char → Bool) (hpq : ∀ c, p c = true → q c = true) (x : Str) :
    trimBy q (trimBy p x) = trimBy q x := by
  obtain ⟨l, r, hl, hr, hx⟩ := trimBy_decomp p x
  conv_rhs => rw [hx]
  rw [trimBy_append_left q l _ (fun c hc => hpq c (hl c hc)),
    trimBy_append_right q _ r (fun c hc => hpq c (hr c hc))]

theorem trimBy_dropWhile (p : Char → Bool) (x : Str) :
    trimBy p (x.dropWhile p) = trimBy p x := by
  unfold trimBy
  rw [List.dropWhile_idempotent]

theorem trimBy_cons_ne_nil (p : Char → Bool) (c : Char) (t : Str) (hc : p c = false) :
    trimBy p (c :: t) ≠ [] := by
  unfold trimBy
  have h1 : (c :: t).dropWhile p = c :: t := by simp [List.dropWhile, hc]
  rw [h1, Ne, List.rdropWhile_eq_nil_iff]
  intro h
  have := h c (by simp)
  rw [hc] at this
  exact absurd this (by simp)

theorem isBlank_isSpace (c : Char) (h : isBlank c = true) : isSpace c = true := by
  simp only [isBlank, beq_iff_eq] at h
  subst h
  decide

theorem trimSpace_Trim (x : Str) : trimBy isSpace (Trim x) = trimBy isSpace x :=
  trimBy_trimBy isBlank isSpace isBlank_isSpace x

/-! ## Formatting -/

theorem formatLoop_succ (i : Nat) (x : Str) (l : List EmailAddress) :
    formatLoop (i + 1) x l = x ++ (l.map (fun a => ',' :: a.StringFormat)).flatten := by
  induction l generalizing i x with
  | nil => simp [formatLoop]
  | cons v rest ih =>
    simp [formatLoop, formatStep, ih, List.append_assoc]

theorem FormatAddresses_nil : FormatAddresses [] = [] := rfl

theorem FormatAddresses_cons (v : EmailAddress) (rest : List EmailAddress) :
    FormatAddresses (v :: rest)
      = v.StringFormat ++ (rest.map (fun a => ',' :: a.StringFormat)).flatten := by
  simp [FormatAddresses, formatLoop, formatStep, formatLoop_succ]

theorem FormatAddresses_singleton (v : EmailAddress) :
    FormatAddresses [v] = v.StringFormat := by
  simp [FormatAddresses_cons]

theorem FormatAddresses_cons_cons (v w : EmailAddress) (rest : List EmailAddress) :
    FormatAddresses (v :: w :: rest) = v.StringFormat ++ ',' :: FormatAddresses (w :: rest) := by
  simp [FormatAddresses_cons]

theorem StringFormat_eq_specFormat (a : EmailAddress) : a.StringFormat = specFormat a := by
  unfold EmailAddress.StringFormat specFormat
  by_cases h : a.Name = [] <;> simp [h]

theorem FormatAddresses_eq_specFormatList (l : List EmailAddress) :
    FormatAddresses l = specFormatList l := by
  induction l with
  | nil => rfl
  | cons v rest ih =>
    cases rest with
    | nil => simp [FormatAddresses_singleton, specFormatList, List.intercalate,
        StringFormat_eq_specFormat]
    | cons w rest =>
      rw [FormatAddresses_cons_cons, ih]
      simp [specFormatList, List.intercalate, StringFormat_eq_specFormat]

/-! ## Parsing what was formatted -/

theorem drop_length_takeWhile (p : Char → Bool) (l : Str) :
    l.drop (l.takeWhile p).length = l.dropWhile p := by
  induction l with
  | nil => rfl
  | cons a t ih =>
    by_cases ha : p a = true <;> simp [List.takeWhile, List.dropWhile, ha, ih]

theorem length_takeWhile_lt (p : Char → Bool) (l : Str) (h : ∃ c ∈ l, p c = false) :
    (l.takeWhile p).length < l.length := by
  induction l with
  | nil => simp at h
  | cons a t ih =>
    by_cases ha : p a = true
    · obtain ⟨c, hc, hpc⟩ := h
      have hct : ∃ c ∈ t, p c = false := by
        rcases List.mem_cons.1 hc with rfl | hc
        · rw [ha] at hpc
          exact absurd hpc (by simp)
        · exact ⟨c, hc, hpc⟩
      simp [List.takeWhile, ha, ih hct]
    · simp [List.takeWhile, ha]

theorem matchBracket_eq_none (T : Str) (hT : T = [] ∨ ∃ F, T = ',' :: F) :
    matchBracket T = none := by
  rcases hT with rfl | ⟨F, rfl⟩
  · rfl
  · have h : (',' :: F).dropWhile isSpace = ',' :: F := by
      simp [List.dropWhile, isSpace]
    unfold matchBracket
    rw [h]
    split
    · rename_i heq
      simp at heq
    · rfl

theorem takeWhile_notSep_append (u T : Str) (hu : ∀ c ∈ u, notSep c = true)
    (hT : ∀ x, T.head? = some x → notSep x = false) :
    (u ++ T).takeWhile notSep = u ∧ (u ++ T).dropWhile notSep = T := by
  rw [List.takeWhile_append_of_pos hu, List.dropWhile_append_of_pos hu]
  cases T with
  | nil => simp
  | cons y ys => simp [List.takeWhile, List.dropWhile, hT y rfl]

theorem matchAddress_bare (u T : Str) (hu : ∀ c ∈ u, notSep c = true)
    (hT : T = [] ∨ ∃ F, T = ',' :: F) :
    matchAddress (u ++ T) = (u, [], matchComma T) := by
  have hhead : ∀ x, T.head? = some x → notSep x = false := by
    rcases hT with rfl | ⟨F, rfl⟩
    · simp
    · intro x hx
      simp only [List.head?_cons, Option.some.injEq] at hx
      subst hx
      decide
  obtain ⟨h1, h2⟩ := takeWhile_notSep_append u T hu hhead
  unfold matchAddress
  simp only [h1, h2, matchBracket_eq_none T hT]

theorem matchBracket_angle (A T : Str) (hA : ∀ c ∈ A, notSep c = true)
    (hne : ∃ c ∈ A, isSpace c = false) :
    matchBracket ('<' :: (A ++ '>' :: T)) = some (A.dropWhile isSpace, T) := by
  have h0 : ('<' :: (A ++ '>' :: T)).dropWhile isSpace = '<' :: (A ++ '>' :: T) := by
    simp [List.dropWhile, isSpace]
  obtain ⟨h1, h2⟩ := takeWhile_notSep_append A ('>' :: T) hA (by
    intro x hx
    simp only [List.head?_cons, Option.some.injEq] at hx
    subst hx
    decide)
  have hAne : A ≠ [] := by
    obtain ⟨c, hc, _⟩ := hne
    exact List.ne_nil_of_mem hc
  have hlt := length_takeWhile_lt isSpace A hne
  have hmin : min (A.takeWhile isSpace).length (A.length - 1) = (A.takeWhile isSpace).length :=
    Nat.min_eq_left (by omega)
  unfold matchBracket
  rw [h0]
  simp only [h1, h2, hAne, if_false, hmin, drop_length_takeWhile]

theorem matchAddress_named (u A T : Str) (hu : ∀ c ∈ u, notSep c = true)
    (hA : ∀ c ∈ A, notSep c = true) (hne : ∃ c ∈ A, isSpace c = false) :
    matchAddress (u ++ '<' :: (A ++ '>' :: T)) = (u, A.dropWhile isSpace, matchComma T) := by
  obtain ⟨h1, h2⟩ := takeWhile_notSep_append u ('<' :: (A ++ '>' :: T)) hu (by
    intro x hx
    simp only [List.head?_cons, Option.some.injEq] at hx
    subst hx
    decide)
  unfold matchAddress
  simp only [h1, h2, matchBracket_angle A T hA hne]

theorem isSpace_notSep (c : Char) (h : isSpace c = true) : notSep c = true := by
  simp only [isSpace, Bool.or_eq_true, beq_iff_eq] at h
  rcases h with (((h | h) | h) | h) | h <;> subst h <;> decide

theorem toAddress_bare (u : Str) :
    specTrimmed (toAddress (u, [])) = { Name := [], Address := trimBy isSpace u } := by
  have h : Trim ([] : Str) = [] := rfl
  simp only [toAddress, h, if_true, specTrimmed, trimSpace_Trim]
  rfl

theorem toAddress_named (u A : Str) (hne : ∃ c ∈ A, isSpace c = false) :
    specTrimmed (toAddress (u, A.dropWhile isSpace))
      = { Name := trimBy isSpace u, Address := trimBy isSpace A } := by
  have hd : A.dropWhile isSpace ≠ [] := by
    rw [Ne, List.dropWhile_eq_nil_iff]
    push_neg
    obtain ⟨c, hc, hs⟩ := hne
    exact ⟨c, hc, by simp [hs]⟩
  obtain ⟨y, ys, hy⟩ := List.exists_cons_of_ne_nil hd
  have hysp : isSpace y = false := by
    have := List.head_dropWhile_not isSpace A hd
    simpa [hy] using this
  have hyb : isBlank y = false := by
    cases hb : isBlank y with
    | false => rfl
    | true =>
      rw [isBlank_isSpace y hb] at hysp
      exact absurd hysp (by simp)
  have hT : Trim (A.dropWhile isSpace) ≠ [] := by
    rw [hy]
    exact trimBy_cons_ne_nil isBlank y ys hyb
  simp only [toAddress, hT, if_false, specTrimmed, trimSpace_Trim, trimBy_dropWhile]

theorem step_entry (x : EmailAddress) (T w s : Str)
    (hname : ∀ c ∈ x.Name, notSep c = true) (haddr : ∀ c ∈ x.Address, notSep c = true)
    (hne : ∃ c ∈ x.Address, isSpace c = false) (hT : T = [] ∨ ∃ F, T = ',' :: F)
    (hw : ∀ c ∈ w, isSpace c = true) (hs : x.StringFormat ++ T = w ++ s) :
    ∃ n a, matchAddress s = (n, a, matchComma T) ∧
      specTrimmed (toAddress (n, a)) = specTrimmed x ∧ T.length < s.length := by
  by_cases hN : x.Name = []
  · have hfmt : x.StringFormat = x.Address := by simp [EmailAddress.StringFormat, hN]
    rw [hfmt] at hs
    obtain ⟨c0, hc0, hc0s⟩ := hne
    obtain ⟨u, hu, hsu⟩ : ∃ u, x.Address = w ++ u ∧ s = u ++ T := by
      rcases List.append_eq_append_iff.1 hs with ⟨a, ha, _⟩ | ⟨a, ha, hb⟩
      · have : c0 ∈ w := by rw [ha]; simp [hc0]
        rw [hw c0 this] at hc0s
        exact absurd hc0s (by simp)
      · exact ⟨a, ha, hb⟩
    have hc0u : c0 ∈ u := by
      rw [hu] at hc0
      rcases List.mem_append.1 hc0 with h | h
      · rw [hw c0 h] at hc0s
        exact absurd hc0s (by simp)
      · exact h
    have hunot : ∀ c ∈ u, notSep c = true := fun c hc => haddr c (by rw [hu]; simp [hc])
    refine ⟨u, [], ?_, ?_, ?_⟩
    · rw [hsu]
      exact matchAddress_bare u T hunot hT
    · rw [toAddress_bare, specTrimmed, hN, hu, trimBy_append_left isSpace w u hw]
      rfl
    · rw [hsu, List.length_append]
      have := List.length_pos_of_mem hc0u
      omega
  · have hfmt : x.StringFormat ++ T
        = (x.Name ++ [' ']) ++ '<' :: (x.Address ++ '>' :: T) := by
      simp [EmailAddress.StringFormat, hN]
    rw [hfmt] at hs
    obtain ⟨u, hu, hsu⟩ : ∃ u, x.Name ++ [' '] = w ++ u ∧
        s = u ++ '<' :: (x.Address ++ '>' :: T) := by
      rcases List.append_eq_append_iff.1 hs with ⟨a, ha, hb⟩ | ⟨a, ha, hb⟩
      · cases a with
        | nil => exact ⟨[], by simpa using ha.symm, by simpa using hb.symm⟩
        | cons h t =>
          simp only [List.cons_append, List.cons.injEq] at hb
          have : '<' ∈ w := by rw [ha, ← hb.1]; simp
          exact absurd (hw _ this) (by decide)
      · exact ⟨a, ha, hb⟩
    have hunot : ∀ c ∈ u, notSep c = true := by
      intro c hc
      have : c ∈ x.Name ++ [' '] := by rw [hu]; simp [hc]
      rcases List.mem_append.1 this with h | h
      · exact hname c h
      · simp only [List.mem_singleton] at h
        subst h
        decide
    refine ⟨u, x.Address.dropWhile isSpace, ?_, ?_, ?_⟩
    · rw [hsu]
      exact matchAddress_named u x.Address T hunot haddr hne
    · rw [toAddress_named u x.Address hne, specTrimmed]
      have h1 : trimBy isSpace u = trimBy isSpace x.Name := by
        rw [← trimBy_append_left isSpace w u hw, ← hu]
        exact trimBy_append_right isSpace x.Name [' '] (by decide)
      rw [h1]
    · rw [hsu]
      simp only [List.length_append, List.length_cons]
      omega

theorem allMatchesAux_step (fuel : Nat) (prev : Bool) (s n a r : Str)
    (hm : matchAddress s = (n, a, r)) (hlen : r.length < s.length) :
    allMatchesAux (fuel + 1) prev s = (n, a) :: allMatchesAux fuel true r := by
  have hne : ¬ r.length = s.length := by omega
  simp only [allMatchesAux, hm, hne, if_false]

theorem allMatchesAux_nil_true (fuel : Nat) : allMatchesAux fuel true [] = [] := by
  cases fuel with
  | zero => rfl
  | succ k => rfl

theorem parse_format_aux (l : List EmailAddress) (hl : l ≠ [])
    (hname : ∀ x ∈ l, ∀ c ∈ x.Name, notSep c = true)
    (haddr : ∀ x ∈ l, ∀ c ∈ x.Address, notSep c = true)
    (hne : ∀ x ∈ l, ∃ c ∈ x.Address, isSpace c = false) :
    ∀ (fuel : Nat) (prev : Bool) (w s : Str), FormatAddresses l = w ++ s →
      (∀ c ∈ w, isSpace c = true) → s.length < fuel →
      ((allMatchesAux fuel prev s).map toAddress).map specTrimmed = l.map specTrimmed := by
  induction l with
  | nil => exact absurd rfl hl
  | cons x rest ih =>
    intro fuel prev w s hs hw hfuel
    cases fuel with
    | zero => omega
    | succ k =>
      cases rest with
      | nil =>
        rw [FormatAddresses_singleton] at hs
        obtain ⟨n, a, hm, htr, hlen⟩ := step_entry x [] w s
          (hname x (by simp)) (haddr x (by simp)) (hne x (by simp)) (Or.inl rfl) hw
          (by simpa using hs)
        have hmc : matchComma ([] : Str) = [] := rfl
        rw [hmc] at hm
        rw [allMatchesAux_step k prev s n a [] hm hlen, allMatchesAux_nil_true]
        simp [htr]
      | cons y rest2 =>
        rw [FormatAddresses_cons_cons] at hs
        obtain ⟨n, a, hm, htr, hlen⟩ := step_entry x (',' :: FormatAddresses (y :: rest2)) w s
          (hname x (by simp)) (haddr x (by simp)) (hne x (by simp))
          (Or.inr ⟨_, rfl⟩) hw hs
        have hmc : matchComma (',' :: FormatAddresses (y :: rest2))
            = (FormatAddresses (y :: rest2)).dropWhile isSpace := rfl
        rw [hmc] at hm
        have hdl : ((FormatAddresses (y :: rest2)).dropWhile isSpace).length
            ≤ (FormatAddresses (y :: rest2)).length :=
          (List.dropWhile_suffix isSpace).length_le
        simp only [List.length_cons] at hlen
        rw [allMatchesAux_step k prev s n a _ hm (by omega)]
        have hrec := ih (by simp)
          (fun z hz => hname z (List.mem_cons_of_mem _ hz))
          (fun z hz => haddr z (List.mem_cons_of_mem _ hz))
          (fun z hz => hne z (List.mem_cons_of_mem _ hz))
          k true ((FormatAddresses (y :: rest2)).takeWhile isSpace)
          ((FormatAddresses (y :: rest2)).dropWhile isSpace)
          (List.takeWhile_append_dropWhile _ _).symm
          (fun c hc => List.mem_takeWhile_imp hc) (by omega)
        simp only [List.map_cons, htr, hrec]

/-! ## Rendering -/

theorem GetMessage_eq_specLayout (e : Email) (f t : EmailAddress) (ts : List EmailAddress)
    (hf : e.From = some f) (hfa : f.Address ≠ []) (ht : e.To = t :: ts)
    (hta : t.Address ≠ []) : GetMessage e = some (specLayout e f) := by
  unfold GetMessage specLayout
  simp only [hf, ht, hfa, hta, if_false, FormatAddresses_eq_specFormatList,
    StringFormat_eq_specFormat]
  by_cases hr : e.ReplyTo = [] <;> by_cases hc : e.CC = [] <;>
    by_cases hx : e.ExtraHeaders = [] <;> simp [hr, hc, hx, List.append_assoc]

theorem GetMessage_none_iff (e : Email) :
    GetMessage e = none ↔
      (e.From = none ∨ (∃ f, e.From = some f ∧ f.Address = []) ∨ e.To = [] ∨
        ∃ t ts, e.To = t :: ts ∧ t.Address = []) := by
  unfold GetMessage
  cases hf : e.From with
  | none => simp
  | some f =>
    by_cases hfa : f.Address = []
    · simp [hfa]
    · cases ht : e.To with
      | nil => simp [hfa]
      | cons t ts =>
        by_cases hta : t.Address = [] <;> simp [hfa, hta]

/-- C6. For every message whose sender is set with a non-empty address and whose first
recipient has a non-empty address, `GetMessage` returns exactly the layout of the
specification: the `From`, `Sender`, optional `Reply-To`, `To`, optional `CC` and `Subject`
lines, each ended by CR-LF, the extra headers verbatim, one CR-LF, and the body. -/
theorem C6_rendered_layout (e : Email) (f t : EmailAddress) (ts : List EmailAddress)
    (hf : e.From = some f) (hfa : f.Address ≠ []) (ht : e.To = t :: ts)
    (hta : t.Address ≠ []) : GetMessage e = some (specLayout e f) :=
  GetMessage_eq_specLayout e f t ts hf hfa ht hta

/-- C7. `GetMessage` fails exactly when the sender is unset, or has an empty address, or the
recipient list is empty, or its first entry has an empty address; otherwise it returns a
text. -/
theorem C7_composition_preconditions (e : Email) :
    (GetMessage e = none ↔
      (e.From = none ∨ (∃ f, e.From = some f ∧ f.Address = []) ∨ e.To = [] ∨
        ∃ t ts, e.To = t :: ts ∧ t.Address = [])) ∧
    (GetMessage e ≠ none → ∃ text, GetMessage e = some text) := by
  refine ⟨GetMessage_none_iff e, fun h => ?_⟩
  cases hg : GetMessage e with
  | none => exact absurd hg h
  | some text => exact ⟨text, rfl⟩

/-- C3. The rendered text does not depend on the blind-copy list: two messages that differ
only in `BCC` both fail or both give the same text. -/
theorem C3_bcc_never_rendered (e : Email) (bcc1 bcc2 : List EmailAddress) :
    GetMessage { e with BCC := bcc1 } = GetMessage { e with BCC := bcc2 } := rfl

/-- C2, counterexample. A message whose recipient is also its blind-copy recipient renders
a text in which the blind-copy address occurs. -/
theorem C2_counterexample :
    ({ fresh 0 with
        From := some ⟨[], "a@x.org".toList⟩,
        To := [⟨[], "b@x.org".toList⟩],
        BCC := [⟨[], "b@x.org".toList⟩] } : Email).BCC ≠ [] ∧
    GetMessage { fresh 0 with
        From := some ⟨[], "a@x.org".toList⟩,
        To := [⟨[], "b@x.org".toList⟩],
        BCC := [⟨[], "b@x.org".toList⟩] }
      = some "From: a@x.org\r\nSender: a@x.org\r\nTo: b@x.org\r\nSubject: \r\n\r\n".toList ∧
    "b@x.org".toList <:+:
      "From: a@x.org\r\nSender: a@x.org\r\nTo: b@x.org\r\nSubject: \r\n\r\n".toList := by
  refine ⟨by decide, by decide, ?_⟩
  exact ⟨"From: a@x.org\r\nSender: a@x.org\r\nTo: ".toList, "\r\nSubject: \r\n\r\n".toList,
    by decide⟩

/-- C2, amended. For every message with a non-empty blind-copy list on which `GetMessage`
succeeds, the text is the one `GetMessage` returns for the same message with the blind-copy
list emptied; so a blind-copy address occurs in the text only if it occurs in the text rendered
without any blind copy. -/
theorem C2_bcc_adds_nothing (e : Email) (text : Str) (_hb : e.BCC ≠ [])
    (hm : GetMessage e = some text) :
    GetMessage { e with BCC := [] } = some text ∧
    ∀ a ∈ e.BCC, a.Address <:+: text →
      ∃ plain, GetMessage { e with BCC := [] } = some plain ∧ a.Address <:+: plain := by
  have h0 : GetMessage { e with BCC := [] } = some text := hm
  exact ⟨h0, fun a _ hin => ⟨text, h0, hin⟩⟩

/-! ## Argument interpretation -/

theorem PopulateFromArgs_To_of_mem (e : Email) (args : List Str)
    (h : "-t".toList ∈ args) : (PopulateFromArgs e args).To = e.To := by
  have hany : args.any (fun v => decide (v = "-t".toList)) = true := by
    simp only [List.any_eq_true, decide_eq_true_eq]
    exact ⟨_, h, rfl⟩
  unfold PopulateFromArgs
  simp only [hany, if_true]
  cases (FindAllSender (Join args)).getLast? <;> rfl

/-- C8. When a token is exactly `-t`, `PopulateFromArgs` leaves the recipient list as it
was, whatever the other tokens are. -/
theorem C8_body_flag_suppression (e : Email) (args : List Str)
    (h : "-t".toList ∈ args) : (PopulateFromArgs e args).To = e.To := by
  have hto := PopulateFromArgs_To_of_mem e args h
  rw [hto]

theorem matchEmail_isSome_iff (s : Str) :
    (matchEmail s).isSome = true ↔
      ∃ u t, u ≠ [] ∧ (∀ c ∈ u, notAtSpace c = true) ∧ s = u ++ '@' :: t ∧
        (t.takeWhile notAtSpace) ≠ [] := by
  constructor
  · intro h
    unfold matchEmail at h
    split at h
    · rename_i t hd
      by_cases hu : s.takeWhile notAtSpace = [] ∨ t.takeWhile notAtSpace = []
      · rw [if_pos hu] at h
        simp at h
      · push_neg at hu
        refine ⟨s.takeWhile notAtSpace, t, hu.1, ?_, ?_, hu.2⟩
        · intro c hc
          exact List.mem_takeWhile_imp hc
        · rw [← hd, List.takeWhile_append_dropWhile]
    · simp at h
  · rintro ⟨u, t, hu, hall, rfl, ht⟩
    have h1 : (u ++ '@' :: t).takeWhile notAtSpace = u := by
      rw [List.takeWhile_append_of_pos hall]
      simp [List.takeWhile, notAtSpace]
    have h2 : (u ++ '@' :: t).dropWhile notAtSpace = '@' :: t := by
      rw [List.dropWhile_append_of_pos hall]
      simp [List.dropWhile, notAtSpace]
    unfold matchEmail
    simp [h1, h2, hu, ht]

theorem emailRegexMatch_append (p s : Str) (h : emailRegexMatch s = true) :
    emailRegexMatch (p ++ s) = true := by
  induction p with
  | nil => simpa using h
  | cons c p ih => simp [emailRegexMatch, ih]

theorem emailRegexMatch_iff (v : Str) :
    emailRegexMatch v = true ↔
      ∃ p a b q, v = p ++ a :: '@' :: b :: q ∧ notAtSpace a = true ∧ notAtSpace b = true := by
  constructor
  · intro h
    induction v with
    | nil => simp [emailRegexMatch] at h
    | cons c t ih =>
      simp only [emailRegexMatch, Bool.or_eq_true] at h
      rcases h with h | h
      · obtain ⟨u, r, hu, hall, hs, hr⟩ := (matchEmail_isSome_iff _).1 h
        obtain ⟨u0, a, rfl⟩ : ∃ u0 a, u = u0 ++ [a] :=
          ⟨u.dropLast, u.getLast hu, (List.dropLast_append_getLast hu).symm⟩
        cases r with
        | nil => simp at hr
        | cons b q =>
          have hb : notAtSpace b = true := by
            by_contra hb
            simp [List.takeWhile, hb] at hr
          exact ⟨u0, a, b, q, by simp [hs], hall a (by simp), hb⟩
      · obtain ⟨p, a, b, q, rfl, ha, hb⟩ := ih h
        exact ⟨c :: p, a, b, q, rfl, ha, hb⟩
  · rintro ⟨p, a, b, q, rfl, ha, hb⟩
    apply emailRegexMatch_append
    have : (matchEmail (a :: '@' :: b :: q)).isSome = true := by
      rw [matchEmail_isSome_iff]
      refine ⟨[a], b :: q, by simp, by simpa using ha, rfl, ?_⟩
      simp [List.takeWhile, hb]
    simp [emailRegexMatch, this]

theorem foldl_recipientStep (args : List Str) (tos : List EmailAddress) :
    args.foldl recipientStep tos
      = tos ++ (args.filter
          (fun v => decide (v.head? ≠ some '-') && emailRegexMatch v)).map
          (fun v => ({ Name := [], Address := v } : EmailAddress)) := by
  induction args generalizing tos with
  | nil => simp
  | cons v rest ih =>
    rw [List.foldl_cons, ih]
    by_cases hm : emailRegexMatch v = true
    · have hne : v.length ≠ 0 := by
        intro h0
        rw [List.length_eq_zero] at h0
        subst h0
        simp [emailRegexMatch] at hm
      by_cases hd : v.head? = some '-'
      · simp [recipientStep, hd, List.filter_cons]
      · simp [recipientStep, hd, hm, hne, List.filter_cons]
    · simp [recipientStep, hm, List.filter_cons]

theorem PopulateFromArgs_To_of_not_mem (e : Email) (args : List Str)
    (h : "-t".toList ∉ args) :
    (PopulateFromArgs e args).To = args.foldl recipientStep e.To := by
  have hany : args.any (fun v => decide (v = "-t".toList)) = false := by
    rw [Bool.eq_false_iff]
    intro hc
    simp only [List.any_eq_true, decide_eq_true_eq] at hc
    obtain ⟨v, hv, rfl⟩ := hc
    exact h hv
  unfold PopulateFromArgs
  simp only [hany]
  cases (FindAllSender (Join args)).getLast? <;> rfl

/-- C9, counterexample. The token `a@@b` has the shape `nonspace+ "@" nonspace+`, does not
start with `-`, and no token is `-t`; yet `PopulateFromArgs` appends nothing for it. -/
theorem C9_counterexample :
    specLooseShape "a@@b".toList ∧ "a@@b".toList.head? ≠ some '-' ∧
    "-t".toList ∉ ["a@@b".toList] ∧
    (PopulateFromArgs (fresh 0) ["a@@b".toList]).To = [] := by
  refine ⟨⟨"a".toList, "@b".toList, by decide, by decide, by decide, by decide, by decide⟩,
    by decide, by decide, by decide⟩

/-- C9, amended. When no token is `-t`, `PopulateFromArgs` appends to the recipient list, in
token order, one address with empty name and the whole token as address for each token that
does not start with `-` and contains an `@` standing between two characters that are neither
whitespace nor `@`; it appends nothing for any other token. -/
theorem C9_bare_recipients (e : Email) (args : List Str) (h : "-t".toList ∉ args) :
    (PopulateFromArgs e args).To
      = e.To ++ (args.filter
          (fun v => decide (v.head? ≠ some '-') && emailRegexMatch v)).map
          (fun v => ({ Name := [], Address := v } : EmailAddress)) ∧
    ∀ v : Str, emailRegexMatch v = true ↔
      ∃ p a b q, v = p ++ a :: '@' :: b :: q ∧ notAtSpace a = true ∧ notAtSpace b = true := by
  refine ⟨?_, emailRegexMatch_iff⟩
  rw [PopulateFromArgs_To_of_not_mem e args h, foldl_recipientStep]

theorem matchEmail_eq_some_iff (s m rest : Str) :
    matchEmail s = some (m, rest) ↔
      ∃ u d, u ≠ [] ∧ d ≠ [] ∧ (∀ x ∈ u, notAtSpace x = true) ∧
        (∀ x ∈ d, notAtSpace x = true) ∧ m = u ++ '@' :: d ∧ s = m ++ rest ∧
        (∀ x, rest.head? = some x → notAtSpace x = false) := by
  constructor
  · intro h
    unfold matchEmail at h
    split at h
    · rename_i t hd
      by_cases hu : s.takeWhile notAtSpace = [] ∨ t.takeWhile notAtSpace = []
      · rw [if_pos hu] at h
        simp at h
      · rw [if_neg hu] at h
        push_neg at hu
        simp only [Option.some.injEq, Prod.mk.injEq] at h
        obtain ⟨hm, hr⟩ := h
        refine ⟨s.takeWhile notAtSpace, t.takeWhile notAtSpace, hu.1, hu.2,
          fun x hx => List.mem_takeWhile_imp hx, fun x hx => List.mem_takeWhile_imp hx,
          hm.symm, ?_, ?_⟩
        · rw [← hm, ← hr]
          have h1 := List.takeWhile_append_dropWhile notAtSpace s
          have h2 := List.takeWhile_append_dropWhile notAtSpace t
          rw [hd] at h1
          simp only [List.append_assoc, List.cons_append, h2]
          exact h1.symm
        · intro x hx
          rw [← hr] at hx
          cases hdt : List.dropWhile notAtSpace t with
          | nil => rw [hdt] at hx; simp at hx
          | cons y ys =>
            have hne : List.dropWhile notAtSpace t ≠ [] := by simp [hdt]
            have hh := List.head_dropWhile_not notAtSpace t hne
            rw [hdt] at hx
            simp only [List.head?_cons, Option.some.injEq] at hx
            subst hx
            simpa [hdt] using hh
    · simp at h
  · rintro ⟨u, d, hu, hd, hau, had, rfl, rfl, hrest⟩
    have h1 : (u ++ '@' :: (d ++ rest)).takeWhile notAtSpace = u := by
      rw [List.takeWhile_append_of_pos hau]
      simp [List.takeWhile, notAtSpace]
    have h2 : (u ++ '@' :: (d ++ rest)).dropWhile notAtSpace = '@' :: (d ++ rest) := by
      rw [List.dropWhile_append_of_pos hau]
      simp [List.dropWhile, notAtSpace]
    have h3 : (d ++ rest).takeWhile notAtSpace = d := by
      rw [List.takeWhile_append_of_pos had]
      cases rest with
      | nil => simp
      | cons y ys => simp [List.takeWhile, hrest y rfl]
    have h4 : (d ++ rest).dropWhile notAtSpace = rest := by
      rw [List.dropWhile_append_of_pos had]
      cases rest with
      | nil => simp
      | cons y ys => simp [List.dropWhile, hrest y rfl]
    have hno : ¬ (u = [] ∨ d = []) := by simp [hu, hd]
    simp only [List.append_assoc, List.cons_append]
    unfold matchEmail
    simp only [h1, h2, h3, h4, if_neg hno]

theorem matchSender_eq_some_iff (s m rest : Str) :
    matchSender s = some (m, rest) ↔ s = m ++ rest ∧ specSenderFlag m rest := by
  constructor
  · intro h
    unfold matchSender at h
    split at h
    · rename_i c t
      by_cases hc : c = 'f' ∨ c = 'r'
      · rw [if_pos hc] at h
        cases hme : matchEmail t with
        | none => simp [hme] at h
        | some mr =>
          obtain ⟨m1, r1⟩ := mr
          simp only [hme, Option.some.injEq, Prod.mk.injEq] at h
          obtain ⟨hm, hr⟩ := h
          subst hr
          obtain ⟨u, d, hu, hd, hau, had, hm1, ht, hrest⟩ :=
            (matchEmail_eq_some_iff t m1 r1).1 hme
          refine ⟨by rw [← hm, ht]; rfl, c, u, d, hc, hu, hd, hau, had, ?_, hrest⟩
          rw [← hm, hm1]
      · rw [if_neg hc] at h
        simp at h
    · simp at h
  · rintro ⟨rfl, c, u, d, hc, hu, hd, hau, had, rfl, hrest⟩
    have hme : matchEmail (u ++ '@' :: d ++ rest) = some (u ++ '@' :: d, rest) :=
      (matchEmail_eq_some_iff _ _ _).2 ⟨u, d, hu, hd, hau, had, rfl, rfl, hrest⟩
    simp only [List.cons_append, matchSender, if_pos hc, hme]

theorem specSenderFlag_ne_nil {m rest : Str} (h : specSenderFlag m rest) : m ≠ [] := by
  obtain ⟨c, u, d, _, _, _, _, _, rfl, _⟩ := h
  simp

theorem specSenderFlag_head {m rest : Str} (h : specSenderFlag m rest) : '-' ∈ m := by
  obtain ⟨c, u, d, _, _, _, _, _, rfl, _⟩ := h
  simp

theorem findAllSenderAux_eq_nil (fuel : Nat) (s : Str)
    (h : ∀ pre m rest, s = pre ++ (m ++ rest) → ¬ specSenderFlag m rest) :
    findAllSenderAux fuel s = [] := by
  induction fuel generalizing s with
  | zero => simp [findAllSenderAux]
  | succ fuel ih =>
    cases s with
    | nil => simp [findAllSenderAux]
    | cons c t =>
      cases hm : matchSender (c :: t) with
      | some mr =>
        obtain ⟨m, rest⟩ := mr
        obtain ⟨hs, hf⟩ := (matchSender_eq_some_iff _ _ _).1 hm
        exact absurd hf (h [] m rest (by simpa using hs))
      | none =>
        simp only [findAllSenderAux, hm]
        apply ih
        intro pre m rest hs
        exact h (c :: pre) m rest (by simp [hs])

theorem findAllSenderAux_ne_nil (fuel : Nat) (s pre m rest : Str) (hfuel : s.length ≤ fuel)
    (hs : s = pre ++ (m ++ rest)) (hf : specSenderFlag m rest) :
    findAllSenderAux fuel s ≠ [] := by
  induction fuel generalizing s pre with
  | zero =>
    have : s = [] := List.length_eq_zero.1 (Nat.le_zero.1 hfuel)
    rw [this] at hs
    have hm : m = [] := by
      have := congrArg List.length hs
      simp at this
      exact List.length_eq_zero.1 (by omega)
    exact absurd hm (specSenderFlag_ne_nil hf)
  | succ fuel ih =>
    cases s with
    | nil =>
      have hm : m = [] := by
        have := congrArg List.length hs
        simp at this
        exact List.length_eq_zero.1 (by omega)
      exact absurd hm (specSenderFlag_ne_nil hf)
    | cons c t =>
      cases hmt : matchSender (c :: t) with
      | some mr => simp [findAllSenderAux, hmt]
      | none =>
        simp only [findAllSenderAux, hmt]
        cases pre with
        | nil =>
          have : matchSender (c :: t) = some (m, rest) :=
            (matchSender_eq_some_iff _ _ _).2 ⟨by simpa using hs, hf⟩
          rw [this] at hmt
          exact absurd hmt (by simp)
        | cons c2 pre2 =>
          simp only [List.cons_append, List.cons.injEq] at hs
          exact ih t pre2 (by simpa using hfuel) hs.2

theorem findAllSenderAux_mem (fuel : Nat) (s x : Str) (hx : x ∈ findAllSenderAux fuel s) :
    ∃ pre rest, s = pre ++ (x ++ rest) ∧ specSenderFlag x rest := by
  induction fuel generalizing s with
  | zero => simp [findAllSenderAux] at hx
  | succ fuel ih =>
    cases s with
    | nil => simp [findAllSenderAux] at hx
    | cons c t =>
      cases hmt : matchSender (c :: t) with
      | some mr =>
        obtain ⟨m, rest⟩ := mr
        obtain ⟨hs, hf⟩ := (matchSender_eq_some_iff _ _ _).1 hmt
        simp only [findAllSenderAux, hmt, List.mem_cons] at hx
        rcases hx with rfl | hx
        · exact ⟨[], rest, by simpa using hs, hf⟩
        · obtain ⟨pre, r2, hr, hf2⟩ := ih rest hx
          exact ⟨m ++ pre, r2, by rw [hs, hr]; simp, hf2⟩
      | none =>
        simp only [findAllSenderAux, hmt] at hx
        obtain ⟨pre, r2, hr, hf2⟩ := ih t hx
        exact ⟨c :: pre, r2, by simp [hr], hf2⟩

theorem findAllSenderAux_cons_none (fuel : Nat) (c : Char) (t : Str)
    (h : matchSender (c :: t) = none) :
    findAllSenderAux (fuel + 1) (c :: t) = findAllSenderAux fuel t := by
  simp [findAllSenderAux, h]

theorem findAllSenderAux_cons_some (fuel : Nat) (c : Char) (t m rest : Str)
    (h : matchSender (c :: t) = some (m, rest)) :
    findAllSenderAux (fuel + 1) (c :: t) = m :: findAllSenderAux fuel rest := by
  simp [findAllSenderAux, h]

theorem findAllSenderAux_fuel (f1 f2 : Nat) (s : Str) (h1 : s.length ≤ f1)
    (h2 : s.length ≤ f2) : findAllSenderAux f1 s = findAllSenderAux f2 s := by
  induction f1 generalizing f2 s with
  | zero =>
    have hs : s = [] := List.length_eq_zero.1 (Nat.le_zero.1 h1)
    subst hs
    cases f2 <;> simp [findAllSenderAux]
  | succ k ih =>
    cases s with
    | nil => cases f2 <;> simp [findAllSenderAux]
    | cons c t =>
      cases f2 with
      | zero => simp at h2
      | succ j =>
        simp only [List.length_cons] at h1 h2
        cases hm : matchSender (c :: t) with
        | none =>
          rw [findAllSenderAux_cons_none _ _ _ hm, findAllSenderAux_cons_none _ _ _ hm]
          exact ih j t (by omega) (by omega)
        | some mr =>
          obtain ⟨m, rest⟩ := mr
          obtain ⟨hs, hf⟩ := (matchSender_eq_some_iff _ _ _).1 hm
          have hlen : rest.length < t.length + 1 := by
            have h3 := congrArg List.length hs
            have h4 : 0 < m.length := List.length_pos.2 (specSenderFlag_ne_nil hf)
            simp only [List.length_cons, List.length_append] at h3
            omega
          rw [findAllSenderAux_cons_some _ _ _ _ _ hm, findAllSenderAux_cons_some _ _ _ _ _ hm,
            ih j rest (by omega) (by omega)]

theorem findAllSenderAux_getLast (fuel : Nat) (pre m rest : Str)
    (hfuel : (pre ++ (m ++ rest)).length ≤ fuel) (hf : specSenderFlag m rest)
    (hlast : ∀ x m2 r2, x ≠ [] → m ++ rest = x ++ (m2 ++ r2) → ¬ specSenderFlag m2 r2)
    (hfree : ∀ p1 p2 m2 r2, pre = p1 ++ p2 → p2 ≠ [] → p2 ++ (m ++ rest) = m2 ++ r2 →
      specSenderFlag m2 r2 → m2.length ≤ p2.length) :
    (findAllSenderAux fuel (pre ++ (m ++ rest))).getLast? = some m := by
  induction fuel generalizing pre with
  | zero =>
    have h0 : pre ++ (m ++ rest) = [] := List.length_eq_zero.1 (Nat.le_zero.1 hfuel)
    have hm : m = [] := by
      simp only [List.append_eq_nil] at h0
      exact h0.2.1
    exact absurd hm (specSenderFlag_ne_nil hf)
  | succ fuel ih =>
    cases pre with
    | nil =>
      have hmatch : matchSender (m ++ rest) = some (m, rest) :=
        (matchSender_eq_some_iff _ _ _).2 ⟨rfl, hf⟩
      have htail : findAllSenderAux fuel rest = [] := by
        apply findAllSenderAux_eq_nil
        intro p m2 r2 hr
        exact hlast (m ++ p) m2 r2 (by simp [specSenderFlag_ne_nil hf]) (by simp [hr])
      obtain ⟨c, t, hct⟩ : ∃ c t, m ++ rest = c :: t := by
        cases hmr : m ++ rest with
        | nil => simp [specSenderFlag_ne_nil hf] at hmr
        | cons c t => exact ⟨c, t, rfl⟩
      simp only [List.nil_append]
      rw [hct] at hmatch ⊢
      rw [findAllSenderAux_cons_some _ _ _ _ _ hmatch, htail]
      rfl
    | cons c p =>
      cases hmt : matchSender (c :: (p ++ (m ++ rest))) with
      | none =>
        rw [List.cons_append, findAllSenderAux_cons_none _ _ _ hmt]
        apply ih p (by simpa using hfuel)
        intro p1 p2 m2 r2 hp hp2
        exact hfree (c :: p1) p2 m2 r2 (by simp [hp]) hp2
      | some mr =>
        obtain ⟨m2, r2⟩ := mr
        obtain ⟨hs, hf2⟩ := (matchSender_eq_some_iff _ _ _).1 hmt
        have hlen : m2.length ≤ (c :: p).length :=
          hfree [] (c :: p) m2 r2 rfl (by simp) (by simpa using hs) hf2
        obtain ⟨q, hq, hr2⟩ : ∃ q, c :: p = m2 ++ q ∧ r2 = q ++ (m ++ rest) := by
          have hs2 : (c :: p) ++ (m ++ rest) = m2 ++ r2 := by simpa using hs
          rcases List.append_eq_append_iff.1 hs2 with ⟨a, ha, hb⟩ | ⟨a, ha, hb⟩
          · have ha0 : a = [] := by
              have := congrArg List.length ha
              simp at this
              simp at hlen
              exact List.length_eq_zero.1 (by omega)
            subst ha0
            exact ⟨[], by simpa using ha.symm, by simpa using hb.symm⟩
          · exact ⟨a, ha, hb⟩
        have hm2 : m2 ≠ [] := specSenderFlag_ne_nil hf2
        have hrec : (findAllSenderAux fuel (q ++ (m ++ rest))).getLast? = some m := by
          apply ih q
          · have h1 := congrArg List.length hq
            simp at h1 hfuel
            have h2 : 0 < m2.length := List.length_pos.2 hm2
            simp
            omega
          · intro p1 p2 m3 r3 hp hp2
            exact hfree (m2 ++ p1) p2 m3 r3 (by rw [hq, hp]; simp) hp2
        rw [List.cons_append, findAllSenderAux_cons_some _ _ _ _ _ hmt, hr2]
        cases hl : findAllSenderAux fuel (q ++ (m ++ rest)) with
        | nil => rw [hl] at hrec; simp at hrec
        | cons y ys =>
          rw [hl] at hrec
          rw [List.getLast?_cons_cons]
          exact hrec

theorem PopulateFromArgs_From (e : Email) (args : List Str) :
    (PopulateFromArgs e args).From
      = match (FindAllSender (Join args)).getLast? with
        | some m => some { Name := [], Address := m.drop 2 }
        | none => e.From := by
  unfold PopulateFromArgs
  by_cases hany : args.any (fun v => decide (v = "-t".toList)) = true <;>
    simp only [hany] <;>
    cases (FindAllSender (Join args)).getLast? <;> rfl

/-- C10, counterexample. In the single token `-f-rx@y` the last occurrence of a sender flag
followed by an address-shaped fragment is `-r` with the fragment `x@y`, yet the sender is set
to the fragment of the earlier occurrence `-f`, which swallows it. -/
theorem C10_counterexample :
    Join ["-f-rx@y".toList] = "-f".toList ++ ("-rx@y".toList ++ []) ∧
    specSenderFlag "-rx@y".toList [] ∧
    (∀ x m2 r2 : Str, x ≠ [] → "-rx@y".toList ++ [] = x ++ (m2 ++ r2) →
      ¬ specSenderFlag m2 r2) ∧
    (PopulateFromArgs (fresh 0) ["-f-rx@y".toList]).From
      = some { Name := [], Address := "-rx@y".toList } ∧
    (PopulateFromArgs (fresh 0) ["-f-rx@y".toList]).From
      ≠ some { Name := [], Address := ("-rx@y".toList).drop 2 } := by
  refine ⟨by decide, ?_, ?_, by decide, by decide⟩
  · exact ⟨'r', "x".toList, "y".toList, by decide, by decide, by decide, by decide,
      by decide, by decide, by simp⟩
  · intro x m2 r2 hx hs hf
    have hmem : '-' ∈ m2 := specSenderFlag_head hf
    cases x with
    | nil => exact hx rfl
    | cons c x2 =>
      have h2 : "rx@y".toList = x2 ++ (m2 ++ r2) := by
        have := hs
        simp only [String.toList, List.append_nil, List.cons_append] at this
        exact (List.cons.inj this).2
      have h3 : '-' ∈ "rx@y".toList := by
        rw [h2]
        simp [hmem]
      exact absurd h3 (by decide)

/-- The sender is the fragment of the last sender-flag occurrence in the space-joined tokens
when no earlier occurrence, flag and fragment together, reaches into that last one; when
there is no occurrence at all, the sender is left unchanged. -/
theorem sender_last_occurrence (e : Email) (args : List Str) :
    (∀ pre m rest : Str, Join args = pre ++ (m ++ rest) → specSenderFlag m rest →
      (∀ x m2 r2 : Str, x ≠ [] → m ++ rest = x ++ (m2 ++ r2) → ¬ specSenderFlag m2 r2) →
      (∀ p1 p2 m2 r2 : Str, pre = p1 ++ p2 → p2 ≠ [] → p2 ++ (m ++ rest) = m2 ++ r2 →
        specSenderFlag m2 r2 → m2.length ≤ p2.length) →
      (PopulateFromArgs e args).From = some { Name := [], Address := m.drop 2 }) ∧
    ((∀ pre m rest : Str, Join args = pre ++ (m ++ rest) → ¬ specSenderFlag m rest) →
      (PopulateFromArgs e args).From = e.From) := by
  constructor
  · intro pre m rest hs hf hlast hfree
    rw [PopulateFromArgs_From, FindAllSender, hs,
      findAllSenderAux_getLast _ pre m rest (le_refl _) hf hlast hfree]
  · intro hnone
    rw [PopulateFromArgs_From, FindAllSender, findAllSenderAux_eq_nil _ _ hnone]
    rfl

theorem specScan_cons (c : Char) (t : Str) (ms : List Str)
    (hm : matchSender (c :: t) = none) (h : specScan t ms) : specScan (c :: t) ms := by
  cases h with
  | done _ h0 =>
    apply specScan.done
    intro pre m rest hs hf
    cases pre with
    | nil =>
      have h1 : matchSender (c :: t) = some (m, rest) :=
        (matchSender_eq_some_iff _ _ _).2 ⟨by simpa using hs, hf⟩
      rw [hm] at h1
      exact absurd h1 (by simp)
    | cons x pre2 =>
      simp only [List.cons_append, List.cons.injEq] at hs
      exact h0 pre2 m rest hs.2 hf
  | found pre m rest ms2 hf hfirst hrest =>
    have h1 : specScan ((c :: pre) ++ (m ++ rest)) (m :: ms2) := by
      apply specScan.found (c :: pre) m rest ms2 hf _ hrest
      intro p1 p2 m2 r2 hp hp2 hs hf2
      cases p1 with
      | nil =>
        simp only [List.nil_append] at hp
        subst hp
        have h2 : matchSender (c :: (pre ++ (m ++ rest))) = some (m2, r2) :=
          (matchSender_eq_some_iff _ _ _).2 ⟨by simpa using hs, hf2⟩
        rw [hm] at h2
        exact absurd h2 (by simp)
      | cons x p3 =>
        simp only [List.cons_append, List.cons.injEq] at hp
        exact hfirst p3 p2 m2 r2 hp.2 hp2 hs hf2
    exact h1

theorem no_occurrence_nil (pre m rest : Str) (h : ([] : Str) = pre ++ (m ++ rest)) :
    ¬ specSenderFlag m rest := by
  intro hf
  have h1 := congrArg List.length h
  simp only [List.length_nil, List.length_append] at h1
  have h2 : 0 < m.length := List.length_pos.2 (specSenderFlag_ne_nil hf)
  omega

theorem specScan_findAllSenderAux (fuel : Nat) (s : Str) (hfuel : s.length ≤ fuel) :
    specScan s (findAllSenderAux fuel s) := by
  induction fuel generalizing s with
  | zero =>
    have hs : s = [] := List.length_eq_zero.1 (Nat.le_zero.1 hfuel)
    subst hs
    rw [findAllSenderAux_eq_nil _ _ no_occurrence_nil]
    exact specScan.done _ no_occurrence_nil
  | succ fuel ih =>
    cases s with
    | nil =>
      rw [findAllSenderAux_eq_nil _ _ no_occurrence_nil]
      exact specScan.done _ no_occurrence_nil
    | cons c t =>
      cases hmt : matchSender (c :: t) with
      | none =>
        rw [findAllSenderAux_cons_none _ _ _ hmt]
        exact specScan_cons c t _ hmt (ih t (by simpa using hfuel))
      | some mr =>
        obtain ⟨m, rest⟩ := mr
        obtain ⟨hs, hf⟩ := (matchSender_eq_some_iff _ _ _).1 hmt
        have hlen : rest.length ≤ fuel := by
          have h3 := congrArg List.length hs
          have h4 : 0 < m.length := List.length_pos.2 (specSenderFlag_ne_nil hf)
          simp only [List.length_cons, List.length_append] at h3 hfuel
          omega
        rw [findAllSenderAux_cons_some _ _ _ _ _ hmt, hs]
        have h1 : specScan ([] ++ (m ++ rest)) (m :: findAllSenderAux fuel rest) := by
          apply specScan.found [] m rest _ hf _ (ih rest hlen)
          intro p1 p2 m2 r2 hp hp2
          simp only [List.nil_eq, List.append_eq_nil] at hp
          exact absurd hp.2 hp2
        exact h1

theorem FindAllSender_first (pre m rest : Str) (hf : specSenderFlag m rest)
    (hfirst : ∀ p1 p2 m2 r2 : Str, pre = p1 ++ p2 → p2 ≠ [] →
      p2 ++ (m ++ rest) = m2 ++ r2 → ¬ specSenderFlag m2 r2) :
    FindAllSender (pre ++ (m ++ rest)) = m :: FindAllSender rest := by
  induction pre with
  | nil =>
    have hmatch : matchSender (m ++ rest) = some (m, rest) :=
      (matchSender_eq_some_iff _ _ _).2 ⟨rfl, hf⟩
    obtain ⟨c, t, hct⟩ : ∃ c t, m ++ rest = c :: t := by
      cases hmr : m ++ rest with
      | nil => simp [specSenderFlag_ne_nil hf] at hmr
      | cons c t => exact ⟨c, t, rfl⟩
    have hlen : rest.length ≤ t.length := by
      have h3 := congrArg List.length hct
      have h4 : 0 < m.length := List.length_pos.2 (specSenderFlag_ne_nil hf)
      simp only [List.length_cons, List.length_append] at h3
      omega
    simp only [List.nil_append]
    rw [hct] at hmatch ⊢
    unfold FindAllSender
    rw [List.length_cons, findAllSenderAux_cons_some _ _ _ _ _ hmatch]
    rw [findAllSenderAux_fuel t.length rest.length rest hlen (le_refl _)]
  | cons c p ih =>
    have hmt : matchSender (c :: (p ++ (m ++ rest))) = none := by
      cases hmt : matchSender (c :: (p ++ (m ++ rest))) with
      | none => rfl
      | some mr =>
        obtain ⟨m2, r2⟩ := mr
        obtain ⟨hs, hf2⟩ := (matchSender_eq_some_iff _ _ _).1 hmt
        exact absurd hf2 (hfirst [] (c :: p) m2 r2 rfl (by simp) (by simpa using hs))
    have hrec := ih (fun p1 p2 m2 r2 hp hp2 => hfirst (c :: p1) p2 m2 r2 (by simp [hp]) hp2)
    rw [← hrec]
    unfold FindAllSender
    rw [List.cons_append, List.length_cons, findAllSenderAux_cons_none _ _ _ hmt]

theorem specScan_eq (s : Str) (ms : List Str) (h : specScan s ms) :
    ms = FindAllSender s := by
  induction h with
  | done s h0 =>
    unfold FindAllSender
    rw [findAllSenderAux_eq_nil _ _ h0]
  | found pre m rest ms hf hfirst _ ih =>
    rw [FindAllSender_first pre m rest hf hfirst, ih]

/-- C10, amended. The occurrences of a sender flag followed by an address-shaped fragment are
found in the space-joined tokens by a scan from left to right: the first occurrence by
starting place, then the first one in the text after the end of the occurrence found, and so
on. For every token list this scan has exactly one result; the result is empty exactly when
the joined tokens hold no occurrence at all, and then `PopulateFromArgs` leaves the sender
unchanged; otherwise `PopulateFromArgs` sets the sender to an address with empty name whose
address is the fragment of the last occurrence found (its text without the two flag
characters). -/
theorem C10_sender_flag_scan (e : Email) (args : List Str) :
    ∃ ms : List Str, specScan (Join args) ms ∧
      (∀ ms2, specScan (Join args) ms2 → ms2 = ms) ∧
      (ms = [] ↔
        ∀ pre m rest : Str, Join args = pre ++ (m ++ rest) → ¬ specSenderFlag m rest) ∧
      (ms = [] → (PopulateFromArgs e args).From = e.From) ∧
      (∀ m, ms.getLast? = some m →
        (PopulateFromArgs e args).From = some { Name := [], Address := m.drop 2 }) := by
  refine ⟨FindAllSender (Join args), specScan_findAllSenderAux _ _ (le_refl _),
    fun ms2 h => specScan_eq _ _ h, ⟨?_, ?_⟩, ?_, ?_⟩
  · intro h0 pre m rest hj hf
    exact findAllSenderAux_ne_nil (Join args).length (Join args) pre m rest (le_refl _) hj hf
      h0
  · intro h0
    exact findAllSenderAux_eq_nil _ _ h0
  · intro h0
    rw [PopulateFromArgs_From, h0]
    rfl
  · intro m hm
    rw [PopulateFromArgs_From, hm]

/-! ## Reading the message -/

theorem headerStep_From (e e1 : Email) (v name val : Str) (f : EmailAddress)
    (hf : e.From = some f) (h : headerStep e v name val = some e1) : e1.From = some f := by
  unfold headerStep at h
  simp only [hf] at h
  split_ifs at h <;> simp only [Option.some.injEq] at h <;> subst h <;> first
    | exact hf
    | rfl

theorem rowsLoop_From (content : Str) (i : Nat) (e e1 : Email) (rows : List Str)
    (f : EmailAddress) (hf : e.From = some f) (h : rowsLoop content i e rows = some e1) :
    e1.From = some f := by
  induction rows generalizing i e with
  | nil =>
    simp only [rowsLoop, Option.some.injEq] at h
    subst h
    exact hf
  | cons v rest ih =>
    unfold rowsLoop at h
    cases hc : Cut ":".toList v with
    | none =>
      simp only [hc] at h
      split_ifs at h
      simp only [Option.some.injEq] at h
      subst h
      exact hf
    | some nr =>
      obtain ⟨name, raw⟩ := nr
      simp only [hc] at h
      cases hh : headerStep e v name (Trim raw) with
      | none => simp [hh] at h
      | some e2 =>
        simp only [hh] at h
        exact ih (i + 1) e2 (headerStep_From e e2 v name _ f hf hh) h

theorem PopulateFromStdin_From (e e1 : Email) (b : Str) (f : EmailAddress)
    (hf : e.From = some f) (h : PopulateFromStdin e b = some e1) : e1.From = some f := by
  unfold PopulateFromStdin at h
  simp only at h
  split at h
  · simp only [Option.some.injEq] at h
    subst h
    exact hf
  · exact rowsLoop_From _ _ _ e1 _ f (by exact hf) h

theorem GetMessage_prefix (e : Email) (a text : Str) (hf : e.From = some ⟨[], a⟩)
    (hg : GetMessage e = some text) :
    ("From: ".toList ++ a ++ "\r\n".toList) <+: text := by
  have hne : GetMessage e ≠ none := by simp [hg]
  rw [Ne, GetMessage_none_iff] at hne
  push_neg at hne
  obtain ⟨_, hfa, hto, hta⟩ := hne
  obtain ⟨t, ts, ht⟩ := List.exists_cons_of_ne_nil hto
  have hl := GetMessage_eq_specLayout e ⟨[], a⟩ t ts hf (hfa _ hf) ht (hta t ts ht)
  rw [hg, Option.some.injEq] at hl
  have hsf : specFormat ⟨[], a⟩ = a := by simp [specFormat]
  rw [hl]
  unfold specLayout
  rw [hsf]
  simp only [List.append_assoc]
  exact (List.prefix_append_right_inj _).2
    ((List.prefix_append_right_inj _).2 (List.prefix_append _ _))

/-- C5, counterexample. With the flag and the address as two separate tokens no sender is
captured: the address becomes a bare recipient, `From` stays unset after both passes, the `To`
header is ignored, and `GetMessage` fails. -/
theorem C5_counterexample :
    (PopulateFromStdin
        (PopulateFromArgs (fresh 0) ["-f".toList, "alice@example.com".toList])
        "To: Bob <bob@example.com>\nSubject: Hi\n\nHello".toList).map
      (fun e => (e.From, e.To, e.Body, GetMessage e))
      = some (none, [⟨[], "alice@example.com".toList⟩], "Hello".toList, none) := by
  decide

/-- C5, amended. With the flag and the address in one token `-falice@example.com` and the
stdin text of the scenario, the two passes give the sender address `alice@example.com` and
the body `Hello`, and `GetMessage` succeeds with a text that contains the `To` line and the
`Subject` line of the scenario. -/
theorem C5_scenario_one_token :
    (PopulateFromStdin
        (PopulateFromArgs (fresh 0) ["-falice@example.com".toList])
        "To: Bob <bob@example.com>\nSubject: Hi\n\nHello".toList).map
      (fun e => (e.From.map (fun f => f.Address), e.Body, GetMessage e))
      = some (some "alice@example.com".toList, "Hello".toList,
          some ("From: alice@example.com\r\nSender: alice@example.com\r\n".toList
            ++ "To: Bob <bob@example.com>\r\n".toList ++ "Subject: Hi\r\n".toList
            ++ "\r\nHello".toList)) ∧
    "To: Bob <bob@example.com>\r\n".toList <:+:
      ("From: alice@example.com\r\nSender: alice@example.com\r\n".toList
        ++ "To: Bob <bob@example.com>\r\n".toList ++ "Subject: Hi\r\n".toList
        ++ "\r\nHello".toList) ∧
    "Subject: Hi\r\n".toList <:+:
      ("From: alice@example.com\r\nSender: alice@example.com\r\n".toList
        ++ "To: Bob <bob@example.com>\r\n".toList ++ "Subject: Hi\r\n".toList
        ++ "\r\nHello".toList) := by
  refine ⟨by decide, ?_, ?_⟩
  · exact ⟨"From: alice@example.com\r\nSender: alice@example.com\r\n".toList,
      "Subject: Hi\r\n".toList ++ "\r\nHello".toList, by simp⟩
  · exact ⟨"From: alice@example.com\r\nSender: alice@example.com\r\n".toList
      ++ "To: Bob <bob@example.com>\r\n".toList, "\r\nHello".toList, by simp⟩

/-- A sender set by the arguments wins over a `From` header: when the joined tokens contain
a sender-flag occurrence, then whatever standard input holds, if `PopulateFromStdin` and
`GetMessage` succeed after `PopulateFromArgs` on a fresh message, the sender is still the one
the arguments set, the fragment of a sender-flag occurrence in the joined tokens, and the
text starts with the line `From: ` + that fragment + CR-LF. -/
theorem sender_of_args_kept (ts : Nat) (args : List Str) (stdin : Str) (e2 : Email)
    (text : Str)
    (hflag : ∃ pre m rest, Join args = pre ++ (m ++ rest) ∧ specSenderFlag m rest)
    (hs : PopulateFromStdin (PopulateFromArgs (fresh ts) args) stdin = some e2)
    (hg : GetMessage e2 = some text) :
    ∃ pre m rest, Join args = pre ++ (m ++ rest) ∧ specSenderFlag m rest ∧
      (PopulateFromArgs (fresh ts) args).From = some { Name := [], Address := m.drop 2 } ∧
      e2.From = some { Name := [], Address := m.drop 2 } ∧
      ("From: ".toList ++ m.drop 2 ++ "\r\n".toList) <+: text := by
  obtain ⟨pre, m, rest, hj, hf⟩ := hflag
  have hne := findAllSenderAux_ne_nil (Join args).length (Join args) pre m rest (le_refl _)
    hj hf
  cases hl : (FindAllSender (Join args)).getLast? with
  | none =>
    rw [List.getLast?_eq_none_iff] at hl
    exact absurd hl hne
  | some x =>
    have hx : x ∈ FindAllSender (Join args) := List.mem_of_getLast?_eq_some hl
    obtain ⟨p, r, hp, hfx⟩ := findAllSenderAux_mem _ _ _ hx
    have hfrom : (PopulateFromArgs (fresh ts) args).From
        = some { Name := [], Address := x.drop 2 } := by
      rw [PopulateFromArgs_From, hl]
    have h2 := PopulateFromStdin_From _ _ _ _ hfrom hs
    exact ⟨p, x, r, hp, hfx, hfrom, h2, GetMessage_prefix e2 _ text h2 hg⟩

/-- C4, the code at the failing input. The tokens are the sender flag `-fa@b` and the bare
recipient `no-reply@x.com`, the only token that starts with `-` is the flag, and standard
input holds a `From` header. Both passes and `GetMessage` succeed, but the text starts with
the line `From: eply@x.com`, the tail of the recipient token, and not with the line
`From: a@b` of the flag: the sender pattern is searched anywhere in the joined tokens and
finds `-reply@x.com` after the flag. -/
theorem C4_failing_input :
    (["-fa@b".toList, "no-reply@x.com".toList].filter (fun tok => tok.head? = some '-')
      = ["-fa@b".toList]) ∧
    matchSender "-fa@b".toList = some ("-fa@b".toList, []) ∧
    (PopulateFromArgs (fresh 0) ["-fa@b".toList, "no-reply@x.com".toList]).From
      = some { Name := [], Address := "eply@x.com".toList } ∧
    (PopulateFromStdin
        (PopulateFromArgs (fresh 0) ["-fa@b".toList, "no-reply@x.com".toList])
        "From: h@h\nSubject: s\n\nbody".toList).bind GetMessage
      = some ("From: eply@x.com\r\nSender: eply@x.com\r\n".toList
          ++ "To: no-reply@x.com\r\nSubject: s\r\n\r\nbody".toList) ∧
    ¬ ("From: a@b\r\n".toList <+:
        ("From: eply@x.com\r\nSender: eply@x.com\r\n".toList
          ++ "To: no-reply@x.com\r\nSubject: s\r\n\r\nbody".toList)) := by
  refine ⟨by decide, by decide, by decide, by decide, by decide⟩

/-! ## The round trip of the address list -/

/-- C1, counterexample. The empty list comes back as one entry with empty fields; an address
with a comma comes back as two entries; a last address made of one space is lost. -/
theorem C1_counterexample :
    ParseAddresses (FormatAddresses []) = [⟨[], []⟩] ∧
    ParseAddresses (FormatAddresses [⟨[], "a,b".toList⟩])
      = [⟨[], "a".toList⟩, ⟨[], "b".toList⟩] ∧
    ParseAddresses (FormatAddresses [⟨[], "a".toList⟩, ⟨[], " ".toList⟩])
      = [⟨[], "a".toList⟩] := by
  refine ⟨by decide, by decide, by decide⟩

/-- C1, amended. For every non-empty list of addresses in which no name and no address
contains a comma or an angle bracket and every address has a character that is not
whitespace, parsing the formatted list gives a list of the same length whose entries have,
position by position, the same name and the same address up to surrounding whitespace. -/
theorem C1_round_trip (l : List EmailAddress) (hl : l ≠ [])
    (hname : ∀ x ∈ l, ∀ c ∈ x.Name, notSep c = true)
    (haddr : ∀ x ∈ l, ∀ c ∈ x.Address, notSep c = true)
    (hne : ∀ x ∈ l, ∃ c ∈ x.Address, isSpace c = false) :
    (ParseAddresses (FormatAddresses l)).length = l.length ∧
    (ParseAddresses (FormatAddresses l)).map specTrimmed = l.map specTrimmed := by
  have h := parse_format_aux l hl hname haddr hne ((FormatAddresses l).length + 1) false []
    (FormatAddresses l) rfl (by simp) (Nat.lt_succ_self _)
  have h2 : (ParseAddresses (FormatAddresses l)).map specTrimmed = l.map specTrimmed := h
  refine ⟨?_, h2⟩
  have := congrArg List.length h2
  simpa using this

/-! ## The theorems at concrete inputs -/

theorem C1_round_trip_witness :
    ([⟨"Bob".toList, " bob@example.com".toList⟩, ⟨[], "a@b.c".toList⟩]
        : List EmailAddress) ≠ [] ∧
    (ParseAddresses (FormatAddresses
        [⟨"Bob".toList, " bob@example.com".toList⟩, ⟨[], "a@b.c".toList⟩])).length = 2 ∧
    (ParseAddresses (FormatAddresses
        [⟨"Bob".toList, " bob@example.com".toList⟩, ⟨[], "a@b.c".toList⟩])).map specTrimmed
      = [⟨"Bob".toList, "bob@example.com".toList⟩, ⟨[], "a@b.c".toList⟩] := by
  have h := C1_round_trip
    [⟨"Bob".toList, " bob@example.com".toList⟩, ⟨[], "a@b.c".toList⟩]
    (by decide) (by decide) (by decide) (by decide)
  refine ⟨by decide, h.1, ?_⟩
  rw [h.2]
  decide

theorem C2_bcc_adds_nothing_witness :
    GetMessage { fresh 0 with
        From := some ⟨[], "a@x.org".toList⟩,
        To := [⟨[], "b@x.org".toList⟩],
        BCC := [] }
      = some "From: a@x.org\r\nSender: a@x.org\r\nTo: b@x.org\r\nSubject: \r\n\r\n".toList :=
  (C2_bcc_adds_nothing
    { fresh 0 with
        From := some ⟨[], "a@x.org".toList⟩,
        To := [⟨[], "b@x.org".toList⟩],
        BCC := [⟨[], "c@x.org".toList⟩] }
    "From: a@x.org\r\nSender: a@x.org\r\nTo: b@x.org\r\nSubject: \r\n\r\n".toList
    (by decide) (by decide)).1

theorem sender_of_args_kept_example :
    ∃ pre m rest, Join ["-fa@b.c".toList] = pre ++ (m ++ rest) ∧ specSenderFlag m rest ∧
      (PopulateFromArgs (fresh 0) ["-fa@b.c".toList]).From
        = some { Name := [], Address := m.drop 2 } ∧
      (some ⟨[], "a@b.c".toList⟩ : Option EmailAddress)
        = some { Name := [], Address := m.drop 2 } ∧
      ("From: ".toList ++ m.drop 2 ++ "\r\n".toList) <+:
        "From: a@b.c\r\nSender: a@b.c\r\nTo: q@r.s\r\nSubject: \r\n\r\nhi".toList :=
  sender_of_args_kept 0 ["-fa@b.c".toList] "From: x@y.z\nTo: q@r.s\n\nhi".toList
    { Timestamp := 0, From := some ⟨[], "a@b.c".toList⟩, ReplyTo := [],
      To := [⟨[], "q@r.s".toList⟩], CC := [], BCC := [], Subject := [], ExtraHeaders := [],
      Body := "hi".toList }
    "From: a@b.c\r\nSender: a@b.c\r\nTo: q@r.s\r\nSubject: \r\n\r\nhi".toList
    ⟨[], "-fa@b.c".toList, [], by decide,
      'f', "a".toList, "b.c".toList, by decide, by decide, by decide, by decide, by decide,
      by decide, by simp⟩
    (by decide) (by decide)

theorem C6_rendered_layout_witness :
    GetMessage { fresh 0 with
        From := some ⟨"Al".toList, "a@x.org".toList⟩,
        To := [⟨[], "b@x.org".toList⟩, ⟨"Cy".toList, "c@x.org".toList⟩],
        CC := [⟨[], "d@x.org".toList⟩],
        BCC := [⟨[], "e@x.org".toList⟩],
        Subject := "Hi".toList, ExtraHeaders := "X-A: 1\r\n".toList, Body := "text".toList }
      = some ("From: Al <a@x.org>\r\nSender: Al <a@x.org>\r\n".toList
          ++ "To: b@x.org,Cy <c@x.org>\r\nCC: d@x.org\r\nSubject: Hi\r\n".toList
          ++ "X-A: 1\r\n\r\ntext".toList) := by
  rw [C6_rendered_layout _ ⟨"Al".toList, "a@x.org".toList⟩ ⟨[], "b@x.org".toList⟩
    [⟨"Cy".toList, "c@x.org".toList⟩] rfl (by decide) rfl (by decide)]
  decide

theorem C8_body_flag_suppression_witness :
    "-t".toList ∈ ["-t".toList, "carol@example.com".toList] ∧
    (PopulateFromArgs (fresh 0) ["-t".toList, "carol@example.com".toList]).To = [] :=
  ⟨by decide,
    C8_body_flag_suppression (fresh 0) ["-t".toList, "carol@example.com".toList] (by decide)⟩

theorem C9_bare_recipients_witness :
    "-t".toList ∉ ["carol@example.com".toList, "-x@y".toList, "nobody".toList,
      "dave@example.com".toList] ∧
    (PopulateFromArgs (fresh 0) ["carol@example.com".toList, "-x@y".toList, "nobody".toList,
      "dave@example.com".toList]).To
      = [⟨[], "carol@example.com".toList⟩, ⟨[], "dave@example.com".toList⟩] := by
  refine ⟨by decide, ?_⟩
  rw [(C9_bare_recipients (fresh 0) ["carol@example.com".toList, "-x@y".toList,
    "nobody".toList, "dave@example.com".toList] (by decide)).1]
  decide

theorem C10_sender_flag_scan_witness :
    (∃ ms, specScan (Join ["-fa@b-rc@d-fe@g".toList]) ms ∧
      ms = ["-fa@b-rc".toList, "-fe@g".toList]) ∧
    (PopulateFromArgs (fresh 0) ["-fa@b-rc@d-fe@g".toList]).From
      = some { Name := [], Address := "e@g".toList } ∧
    (∃ ms, specScan (Join ["-fno-reply@example.com".toList]) ms ∧
      ms = ["-fno-reply@example.com".toList]) ∧
    (PopulateFromArgs (fresh 0) ["-fno-reply@example.com".toList]).From
      = some { Name := [], Address := "no-reply@example.com".toList } ∧
    (∃ ms, specScan (Join ["-fa@b".toList, "-rc@d".toList]) ms ∧
      ms = ["-fa@b".toList, "-rc@d".toList]) ∧
    (PopulateFromArgs (fresh 0) ["-fa@b".toList, "-rc@d".toList]).From
      = some { Name := [], Address := "c@d".toList } ∧
    specScan (Join ["a@b".toList]) [] ∧
    (PopulateFromArgs (fresh 0) ["a@b".toList]).From = none := by
  obtain ⟨ms1, hs1, _, _, _, hl1⟩ := C10_sender_flag_scan (fresh 0) ["-fa@b-rc@d-fe@g".toList]
  obtain ⟨ms2, hs2, _, _, _, hl2⟩ :=
    C10_sender_flag_scan (fresh 0) ["-fno-reply@example.com".toList]
  obtain ⟨ms3, hs3, _, _, _, hl3⟩ :=
    C10_sender_flag_scan (fresh 0) ["-fa@b".toList, "-rc@d".toList]
  obtain ⟨ms4, hs4, _, _, hn4, _⟩ := C10_sender_flag_scan (fresh 0) ["a@b".toList]
  have h1 : ms1 = ["-fa@b-rc".toList, "-fe@g".toList] :=
    (specScan_eq _ _ hs1).trans (by decide)
  have h2 : ms2 = ["-fno-reply@example.com".toList] :=
    (specScan_eq _ _ hs2).trans (by decide)
  have h3 : ms3 = ["-fa@b".toList, "-rc@d".toList] :=
    (specScan_eq _ _ hs3).trans (by decide)
  have h4 : ms4 = [] := (specScan_eq _ _ hs4).trans (by decide)
  subst h1 h2 h3 h4
  exact ⟨⟨_, hs1, rfl⟩, hl1 _ rfl, ⟨_, hs2, rfl⟩, hl2 _ rfl, ⟨_, hs3, rfl⟩, hl3 _ rfl, hs4,
    hn4 rfl⟩

theorem sender_last_occurrence_example :
    (PopulateFromArgs (fresh 0) ["-fa@b".toList, "-rc@d".toList]).From
      = some { Name := [], Address := "c@d".toList } ∧
    (PopulateFromArgs (fresh 0) ["a@b".toList]).From = none := by
  have h := sender_last_occurrence (fresh 0) ["-fa@b".toList, "-rc@d".toList]
  have h2 := sender_last_occurrence (fresh 0) ["a@b".toList]
  refine ⟨?_, ?_⟩
  · refine h.1 "-fa@b ".toList "-rc@d".toList [] (by decide)
      ⟨'r', "c".toList, "d".toList, by decide, by decide, by decide, by decide, by decide,
        by decide, by simp⟩ ?_ ?_
    · intro x m2 r2 hx hs hf
      have hmem : '-' ∈ m2 := specSenderFlag_head hf
      cases x with
      | nil => exact hx rfl
      | cons c x2 =>
        have h3 : "rc@d".toList = x2 ++ (m2 ++ r2) := by
          have := hs
          simp only [String.toList, List.append_nil, List.cons_append] at this
          exact (List.cons.inj this).2
        have h4 : '-' ∈ "rc@d".toList := by
          rw [h3]
          simp [hmem]
        exact absurd h4 (by decide)
    · intro p1 p2 m2 r2 hp hp2 hs hf
      have hk : p2 = ("-fa@b ".toList).drop p1.length := by rw [hp]; simp
      have hlen : p1.length ≤ 6 := by
        have := congrArg List.length hp
        simp at this
        omega
      have hms : matchSender (p2 ++ ("-rc@d".toList ++ [])) = some (m2, r2) :=
        (matchSender_eq_some_iff _ _ _).2 ⟨hs, hf⟩
      rw [hk] at hms hp2 ⊢
      generalize p1.length = k at hms hlen hp2 ⊢
      interval_cases k
      · have h0 : matchSender (List.drop 0 "-fa@b ".toList ++ ("-rc@d".toList ++ []))
            = some ("-fa@b".toList, " -rc@d".toList) := by decide
        rw [h0] at hms
        simp only [Option.some.injEq, Prod.mk.injEq] at hms
        rw [← hms.1]
        decide
      · have h0 : matchSender (List.drop 1 "-fa@b ".toList ++ ("-rc@d".toList ++ []))
            = none := by decide
        rw [h0] at hms
        exact absurd hms (by simp)
      · have h0 : matchSender (List.drop 2 "-fa@b ".toList ++ ("-rc@d".toList ++ []))
            = none := by decide
        rw [h0] at hms
        exact absurd hms (by simp)
      · have h0 : matchSender (List.drop 3 "-fa@b ".toList ++ ("-rc@d".toList ++ []))
            = none := by decide
        rw [h0] at hms
        exact absurd hms (by simp)
      · have h0 : matchSender (List.drop 4 "-fa@b ".toList ++ ("-rc@d".toList ++ []))
            = none := by decide
        rw [h0] at hms
        exact absurd hms (by simp)
      · have h0 : matchSender (List.drop 5 "-fa@b ".toList ++ ("-rc@d".toList ++ []))
            = none := by decide
        rw [h0] at hms
        exact absurd hms (by simp)
      · exact absurd (by decide) hp2
  · refine h2.2 ?_
    intro pre m rest hs hf
    have hmem : '-' ∈ m := specSenderFlag_head hf
    have h4 : '-' ∈ Join ["a@b".toList] := by
      rw [hs]
      simp [hmem]
    exact absurd h4 (by decide)

/-! ## The address list parser on any text -/

theorem allMatchesAux_false_ne_nil (fuel : Nat) (s : Str) :
    allMatchesAux (fuel + 1) false s ≠ [] := by
  by_cases hm : (matchAddress s).2.2.length = s.length
  · cases s with
    | nil => simp [allMatchesAux, hm]
    | cons c t => simp [allMatchesAux, hm]
  · simp [allMatchesAux, hm]

/-- C19. `ParseAddresses` never returns an empty list, whatever the text, and for the empty
text it returns exactly one entry whose name and address are both empty. -/
theorem C19_parse_never_empty :
    (∀ s : Str, ParseAddresses s ≠ [] ∧ 1 ≤ (ParseAddresses s).length) ∧
    ParseAddresses [] = [⟨[], []⟩] ∧
    ParseAddresses ",,".toList ≠ [] ∧ ParseAddresses " \t ".toList ≠ [] := by
  have hne : ∀ s : Str, ParseAddresses s ≠ [] := by
    intro s
    unfold ParseAddresses FindAllStringSubmatch
    simp only [Ne, List.map_eq_nil_iff]
    exact allMatchesAux_false_ne_nil _ s
  refine ⟨fun s => ⟨hne s, ?_⟩, by decide, hne _, hne _⟩
  exact List.length_pos.2 (hne s)

theorem Trim_getLast (x : Str) : (Trim x).getLast? ≠ some ' ' := by
  intro h
  have hne : (x.dropWhile isBlank).rdropWhile isBlank ≠ [] := by
    intro h0
    unfold Trim trimBy at h
    rw [h0] at h
    simp at h
  have hl := List.rdropWhile_last_not isBlank (x.dropWhile isBlank) hne
  unfold Trim trimBy at h
  rw [List.getLast?_eq_getLast _ hne, Option.some.injEq] at h
  rw [h] at hl
  exact hl (by decide)

theorem Trim_head (x : Str) : (Trim x).head? ≠ some ' ' := by
  intro h
  obtain ⟨t, ht⟩ := List.rdropWhile_prefix isBlank (l := x.dropWhile isBlank)
  unfold Trim trimBy at h
  cases hr : (x.dropWhile isBlank).rdropWhile isBlank with
  | nil => rw [hr] at h; simp at h
  | cons c r =>
    rw [hr] at h ht
    simp only [List.head?_cons, Option.some.injEq] at h
    subst h
    have hd : x.dropWhile isBlank ≠ [] := by
      rw [← ht]
      simp
    have hh := List.head_dropWhile_not isBlank x hd
    have : (x.dropWhile isBlank).head hd = ' ' := by
      simp [← ht]
    rw [this] at hh
    exact absurd hh (by decide)

theorem toAddress_fields (m : Str × Str) :
    ((toAddress m).Name = [] ∨ ∃ x, (toAddress m).Name = Trim x) ∧
    ((toAddress m).Address = [] ∨ ∃ x, (toAddress m).Address = Trim x) := by
  unfold toAddress
  by_cases h : Trim m.2 = []
  · rw [if_pos h]
    exact ⟨Or.inl rfl, Or.inr ⟨m.1, rfl⟩⟩
  · rw [if_neg h]
    exact ⟨Or.inr ⟨m.1, rfl⟩, Or.inr ⟨m.2, rfl⟩⟩

/-- C17, counterexample. A tab, a CR or a LF at the start or at the end of the text stays at
the start or at the end of the parsed address, and a tab before the angle bracket stays at
the end of the parsed name. -/
theorem C17_counterexample :
    ParseAddresses "\ta@b.c".toList = [⟨[], "\ta@b.c".toList⟩] ∧
    ("\ta@b.c".toList).head? = some '\t' ∧
    ParseAddresses "\ra@b.c".toList = [⟨[], "\ra@b.c".toList⟩] ∧
    ("\ra@b.c".toList).head? = some '\r' ∧
    ParseAddresses "a@b.c\n".toList = [⟨[], "a@b.c\n".toList⟩] ∧
    ("a@b.c\n".toList).getLast? = some '\n' ∧
    ParseAddresses "Bob\t<a@b.c>".toList = [⟨"Bob\t".toList, "a@b.c".toList⟩] ∧
    ("Bob\t".toList).getLast? = some '\t' := by
  refine ⟨by decide, by decide, by decide, by decide, by decide, by decide, by decide,
    by decide⟩

/-- C17, amended. For every input text, no entry returned by `ParseAddresses` has a name or
an address that begins or ends with a space character (U+0020). -/
theorem C17_trimming_of_spaces (s : Str) (a : EmailAddress) (ha : a ∈ ParseAddresses s) :
    a.Name.head? ≠ some ' ' ∧ a.Name.getLast? ≠ some ' ' ∧
    a.Address.head? ≠ some ' ' ∧ a.Address.getLast? ≠ some ' ' := by
  unfold ParseAddresses at ha
  obtain ⟨m, _, rfl⟩ := List.mem_map.1 ha
  obtain ⟨hn, had⟩ := toAddress_fields m
  have key : ∀ y : Str, (y = [] ∨ ∃ x, y = Trim x) →
      y.head? ≠ some ' ' ∧ y.getLast? ≠ some ' ' := by
    intro y hy
    rcases hy with rfl | ⟨x, rfl⟩
    · simp
    · exact ⟨Trim_head x, Trim_getLast x⟩
  exact ⟨(key _ hn).1, (key _ hn).2, (key _ had).1, (key _ had).2⟩

theorem C17_trimming_of_spaces_witness :
    (⟨"Bob".toList, "bob@example.com".toList⟩ : EmailAddress)
      ∈ ParseAddresses "  Bob  <  bob@example.com >".toList ∧
    ("Bob".toList).head? ≠ some ' ' ∧ ("Bob".toList).getLast? ≠ some ' ' ∧
    ("bob@example.com".toList).head? ≠ some ' ' ∧
    ("bob@example.com".toList).getLast? ≠ some ' ' :=
  ⟨by decide,
    C17_trimming_of_spaces "  Bob  <  bob@example.com >".toList
      ⟨"Bob".toList, "bob@example.com".toList⟩ (by decide)⟩

/-! ## The delivery envelope -/

theorem foldl_append_address (l : List EmailAddress) (x : List Str) :
    l.foldl (fun acc v => acc ++ [v.Address]) x = x ++ l.map (fun v => v.Address) := by
  induction l generalizing x with
  | nil => simp
  | cons v rest ih => simp [ih]

theorem allRecAddrs_eq (e : Email) :
    allRecAddrs e
      = e.To.map (fun v => v.Address) ++ e.CC.map (fun v => v.Address)
        ++ e.BCC.map (fun v => v.Address) := by
  simp [allRecAddrs, foldl_append_address]

/-- C15. When `SendMail` reaches the transport, the recipient list it hands over is the
addresses of `To`, then of `CC`, then of `BCC`, each in list order with duplicates kept, so
every blind-copy address is in it, and the envelope sender is the address of `From`. -/
theorem C15_delivery_envelope (serverOk : Bool) (e : Email) (sender : Str)
    (recs : List Str) (msg : Str) (h : SendMail serverOk e = some (sender, recs, msg)) :
    recs = e.To.map (fun v => v.Address) ++ e.CC.map (fun v => v.Address)
        ++ e.BCC.map (fun v => v.Address) ∧
    allRecAddrs e = recs ∧
    (∀ a ∈ e.BCC, a.Address ∈ recs) ∧
    (∃ f, e.From = some f ∧ sender = f.Address) ∧
    GetMessage e = some msg := by
  unfold SendMail at h
  cases serverOk with
  | false => simp at h
  | true =>
    simp only [Bool.true_eq_false, if_false] at h
    cases hg : GetMessage e with
    | none => simp [hg] at h
    | some m =>
      cases hf : e.From with
      | none => simp [hg, hf] at h
      | some f =>
        simp only [hg, hf, Option.some.injEq, Prod.mk.injEq] at h
        obtain ⟨h1, h2, h3⟩ := h
        have hr : recs = e.To.map (fun v => v.Address) ++ e.CC.map (fun v => v.Address)
            ++ e.BCC.map (fun v => v.Address) := by
          rw [← h2, allRecAddrs_eq]
        refine ⟨hr, h2, ?_, ⟨f, rfl, h1.symm⟩, by rw [h3]⟩
        intro a ha
        rw [hr]
        exact List.mem_append_right _ (List.mem_map.2 ⟨a, ha, rfl⟩)

theorem C15_delivery_envelope_witness :
    SendMail true { fresh 0 with
        From := some ⟨[], "a@x.org".toList⟩,
        To := [⟨[], "b@x.org".toList⟩],
        CC := [⟨[], "c@x.org".toList⟩, ⟨[], "b@x.org".toList⟩],
        BCC := [⟨[], "d@x.org".toList⟩] }
      = some ("a@x.org".toList,
          ["b@x.org".toList, "c@x.org".toList, "b@x.org".toList, "d@x.org".toList],
          "From: a@x.org\r\nSender: a@x.org\r\nTo: b@x.org\r\nCC: c@x.org,b@x.org\r\nSubject: \r\n\r\n".toList) ∧
    ["b@x.org".toList, "c@x.org".toList, "b@x.org".toList, "d@x.org".toList]
      = ["b@x.org".toList] ++ ["c@x.org".toList, "b@x.org".toList] ++ ["d@x.org".toList] := by
  have h : SendMail true { fresh 0 with
        From := some ⟨[], "a@x.org".toList⟩,
        To := [⟨[], "b@x.org".toList⟩],
        CC := [⟨[], "c@x.org".toList⟩, ⟨[], "b@x.org".toList⟩],
        BCC := [⟨[], "d@x.org".toList⟩] }
      = some ("a@x.org".toList,
          ["b@x.org".toList, "c@x.org".toList, "b@x.org".toList, "d@x.org".toList],
          "From: a@x.org\r\nSender: a@x.org\r\nTo: b@x.org\r\nCC: c@x.org,b@x.org\r\nSubject: \r\n\r\n".toList) := by
    decide
  exact ⟨h, (C15_delivery_envelope true _ _ _ _ h).1⟩

/-! ## Tokens that do not start with a dash -/

theorem specSenderFlag_no_blank {m rest : Str} (h : specSenderFlag m rest) : ' ' ∉ m := by
  obtain ⟨c, u, d, hc, _, _, hu, hd, rfl, _⟩ := h
  intro hm
  simp only [List.mem_cons, List.mem_append] at hm
  rcases hm with h1 | h1 | h1 | h1 | h1
  · exact absurd h1 (by decide)
  · rcases hc with rfl | rfl <;> exact absurd h1 (by decide)
  · exact absurd (hu _ h1) (by decide)
  · exact absurd h1 (by decide)
  · exact absurd (hd _ h1) (by decide)

theorem specSenderFlag_rest {m rest rest2 : Str} (h : specSenderFlag m rest)
    (h2 : ∀ x, rest2.head? = some x → notAtSpace x = false) : specSenderFlag m rest2 := by
  obtain ⟨c, u, d, hc, hu0, hd0, hu, hd, hm, _⟩ := h
  exact ⟨c, u, d, hc, hu0, hd0, hu, hd, hm, h2⟩

theorem Join_occurrence (args : List Str) (pre m rest : Str)
    (hj : Join args = pre ++ (m ++ rest)) (hf : specSenderFlag m rest) :
    ∃ tok ∈ args, ∃ p r, tok = p ++ (m ++ r) ∧ specSenderFlag m r := by
  have hm0 : m ≠ [] := specSenderFlag_ne_nil hf
  have hsp : ' ' ∉ m := specSenderFlag_no_blank hf
  induction args generalizing pre with
  | nil =>
    simp only [Join] at hj
    have := congrArg List.length hj
    simp at this
    exact absurd (List.length_eq_zero.1 (by omega)) hm0
  | cons a rest1 ih =>
    cases rest1 with
    | nil =>
      simp only [Join] at hj
      exact ⟨a, by simp, pre, rest, hj, hf⟩
    | cons b rest2 =>
      simp only [Join] at hj
      rcases List.append_eq_append_iff.1 hj with ⟨a1, hpre, hJ⟩ | ⟨c1, ha, hmr⟩
      · cases a1 with
        | nil =>
          simp only [List.nil_append] at hJ
          cases m with
          | nil => exact absurd rfl hm0
          | cons x m2 =>
            simp only [List.cons_append, List.cons.injEq] at hJ
            exact absurd (by rw [← hJ.1]; simp) hsp
        | cons x a2 =>
          simp only [List.cons_append, List.cons.injEq] at hJ
          obtain ⟨tok, htok, p, r, hp, hr⟩ := ih a2 hJ.2
          exact ⟨tok, List.mem_cons_of_mem _ htok, p, r, hp, hr⟩
      · rcases List.append_eq_append_iff.1 hmr with ⟨a2, hc1, hrest⟩ | ⟨c2, hm, hJ⟩
        · refine ⟨a, by simp, pre, a2, by rw [ha, hc1], specSenderFlag_rest hf ?_⟩
          intro x hx
          cases a2 with
          | nil => simp at hx
          | cons y ys =>
            simp only [List.head?_cons, Option.some.injEq] at hx
            subst hx
            obtain ⟨_, _, _, _, _, _, _, _, _, hh⟩ := hf
            exact hh y (by rw [hrest]; rfl)
        · cases c2 with
          | nil =>
            simp only [List.append_nil] at hm
            refine ⟨a, by simp, pre, [], by rw [ha, hm]; simp, specSenderFlag_rest hf ?_⟩
            intro x hx
            simp at hx
          | cons x c3 =>
            simp only [List.cons_append, List.cons.injEq] at hJ
            exact absurd (by rw [hm, ← hJ.1]; simp) hsp

theorem no_flag_of_drop (tok : Str)
    (h : ∀ k, k ≤ tok.length → matchSender (tok.drop k) = none) :
    ∀ p m r, tok = p ++ (m ++ r) → ¬ specSenderFlag m r := by
  intro p m r ht hf
  have h1 : matchSender (m ++ r) = some (m, r) := (matchSender_eq_some_iff _ _ _).2 ⟨rfl, hf⟩
  have h2 : tok.drop p.length = m ++ r := by rw [ht]; simp
  have h3 := h p.length (by rw [ht]; simp)
  rw [h2, h1] at h3
  exact absurd h3 (by simp)

/-- A token list in which no token contains, at any place, a sender flag followed by an
address-shaped fragment leaves the sender as it was. -/
theorem sender_unchanged_without_occurrence (e : Email) (args : List Str)
    (h : ∀ tok ∈ args, ∀ p m r : Str, tok = p ++ (m ++ r) → ¬ specSenderFlag m r) :
    (PopulateFromArgs e args).From = e.From := by
  rw [PopulateFromArgs_From, FindAllSender, findAllSenderAux_eq_nil]
  · rfl
  · intro pre m rest hj hf
    obtain ⟨tok, htok, p, r, hp, hr⟩ := Join_occurrence args pre m rest hj hf
    exact h tok htok p m r hp hr

theorem sender_unchanged_without_occurrence_example :
    (PopulateFromArgs (fresh 0) ["a-b@c".toList, "-f".toList, "d@e".toList]).From = none := by
  apply sender_unchanged_without_occurrence (fresh 0)
    ["a-b@c".toList, "-f".toList, "d@e".toList]
  intro tok htok
  simp only [List.mem_cons, List.mem_singleton, List.not_mem_nil, or_false] at htok
  rcases htok with rfl | rfl | rfl
  · exact no_flag_of_drop _ (by decide)
  · exact no_flag_of_drop _ (by decide)
  · exact no_flag_of_drop _ (by decide)

/-! ## Sender flags at the start of tokens -/

theorem occurrence_in_token (p2 S m2 r2 : Str) (hS : ∀ x, S.head? = some x → x = ' ')
    (hs : p2 ++ S = m2 ++ r2) (hf : specSenderFlag m2 r2) :
    ∃ r3, p2 = m2 ++ r3 ∧ specSenderFlag m2 r3 := by
  have hsp : ' ' ∉ m2 := specSenderFlag_no_blank hf
  rcases List.append_eq_append_iff.1 hs with ⟨a, hm, hS2⟩ | ⟨c, hp, hr⟩
  · cases a with
    | nil =>
      refine ⟨[], by simpa using hm.symm, specSenderFlag_rest hf ?_⟩
      intro x hx
      simp at hx
    | cons x a2 =>
      have hx : x = ' ' := hS x (by rw [hS2]; rfl)
      subst hx
      exact absurd (by rw [hm]; simp) hsp
  · refine ⟨c, hp, specSenderFlag_rest hf ?_⟩
    intro x hx
    cases c with
    | nil => simp at hx
    | cons y ys =>
      simp only [List.head?_cons, Option.some.injEq] at hx
      subst hx
      obtain ⟨_, _, _, _, _, _, _, _, _, hh⟩ := hf
      exact hh y (by rw [hr]; rfl)

theorem FindAllSender_skip (x y : Str)
    (h : ∀ p1 p2 m2 r2 : Str, x = p1 ++ p2 → p2 ≠ [] → p2 ++ y = m2 ++ r2 →
      ¬ specSenderFlag m2 r2) :
    FindAllSender (x ++ y) = FindAllSender y := by
  induction x with
  | nil => rfl
  | cons c p ih =>
    have hmt : matchSender (c :: (p ++ y)) = none := by
      cases hmt : matchSender (c :: (p ++ y)) with
      | none => rfl
      | some mr =>
        obtain ⟨m2, r2⟩ := mr
        obtain ⟨hs, hf2⟩ := (matchSender_eq_some_iff _ _ _).1 hmt
        exact absurd hf2 (h [] (c :: p) m2 r2 rfl (by simp) (by simpa using hs))
    have hrec := ih (fun p1 p2 m2 r2 hp hp2 => h (c :: p1) p2 m2 r2 (by simp [hp]) hp2)
    rw [← hrec]
    unfold FindAllSender
    rw [List.cons_append, List.length_cons, findAllSenderAux_cons_none _ _ _ hmt]

theorem FindAllSender_token (a S : Str) (hS : ∀ x, S.head? = some x → x = ' ')
    (hstart : ∀ p m r : Str, a = p ++ (m ++ r) → specSenderFlag m r → p = []) :
    FindAllSender (a ++ S)
      = (match matchSender a with
        | some mr => [mr.1]
        | none => []) ++ FindAllSender S := by
  have hinner : ∀ q p1 p2 m2 r2 : Str, q ≠ [] ∨ p1 ≠ [] → a = q ++ (p1 ++ p2) →
      p2 ++ S = m2 ++ r2 → ¬ specSenderFlag m2 r2 := by
    intro q p1 p2 m2 r2 hq ha hs hf
    obtain ⟨r3, hp2, hf3⟩ := occurrence_in_token p2 S m2 r2 hS hs hf
    have h0 := hstart (q ++ p1) m2 r3 (by rw [ha, hp2]; simp) hf3
    simp only [List.append_eq_nil] at h0
    rcases hq with hq | hq
    · exact hq h0.1
    · exact hq h0.2
  cases hm : matchSender a with
  | none =>
    simp only [List.nil_append]
    apply FindAllSender_skip
    intro p1 p2 m2 r2 hp hp2 hs hf
    by_cases h1 : p1 = []
    · subst h1
      simp only [List.nil_append] at hp
      subst hp
      obtain ⟨r3, ha, hf3⟩ := occurrence_in_token a S m2 r2 hS hs hf
      have h2 : matchSender a = some (m2, r3) := (matchSender_eq_some_iff _ _ _).2 ⟨ha, hf3⟩
      rw [hm] at h2
      exact absurd h2 (by simp)
    · exact hinner [] p1 p2 m2 r2 (Or.inr h1) (by simpa using hp) hs hf
  | some mr =>
    obtain ⟨m, r⟩ := mr
    obtain ⟨ha, hf⟩ := (matchSender_eq_some_iff _ _ _).1 hm
    have hf2 : specSenderFlag m (r ++ S) := by
      apply specSenderFlag_rest hf
      intro x hx
      cases r with
      | nil =>
        simp only [List.nil_append] at hx
        rw [hS x hx]
        rfl
      | cons y ys =>
        simp only [List.cons_append, List.head?_cons, Option.some.injEq] at hx
        subst hx
        obtain ⟨_, _, _, _, _, _, _, _, _, hh⟩ := hf
        exact hh y rfl
    have h1 : FindAllSender ([] ++ (m ++ (r ++ S))) = m :: FindAllSender (r ++ S) := by
      apply FindAllSender_first [] m (r ++ S) hf2
      intro p1 p2 m2 r2 hp hp2
      simp only [List.nil_eq, List.append_eq_nil] at hp
      exact absurd hp.2 hp2
    have h2 : FindAllSender (r ++ S) = FindAllSender S := by
      apply FindAllSender_skip
      intro p1 p2 m2 r2 hp hp2 hs hf3
      exact hinner m p1 p2 m2 r2 (Or.inl (specSenderFlag_ne_nil hf)) (by rw [ha, hp]) hs hf3
    rw [ha, List.append_assoc]
    rw [List.nil_append] at h1
    rw [h1, h2]
    rfl

theorem FindAllSender_blank (J : Str) : FindAllSender (' ' :: J) = FindAllSender J := by
  have h := FindAllSender_skip [' '] J (by
    intro p1 p2 m2 r2 hp hp2 hs hf
    have hmem : '-' ∈ m2 := specSenderFlag_head hf
    obtain ⟨c, u, d, _, _, _, _, _, hm, _⟩ := hf
    have hp2' : p2 = [' '] := by
      cases p1 with
      | nil => simpa using hp.symm
      | cons x p3 =>
        simp only [List.cons_append, List.cons.injEq] at hp
        have := hp.2
        simp only [List.nil_eq, List.append_eq_nil] at this
        exact absurd this.2 hp2
    rw [hp2', hm] at hs
    simp only [List.cons_append, List.nil_append, List.cons.injEq] at hs
    exact absurd hs.1 (by decide))
  simpa using h

theorem FindAllSender_Join (args : List Str)
    (hstart : ∀ tok ∈ args, ∀ p m r : Str, tok = p ++ (m ++ r) → specSenderFlag m r →
      p = []) :
    FindAllSender (Join args)
      = args.filterMap (fun tok => (matchSender tok).map Prod.fst) := by
  induction args with
  | nil => rfl
  | cons a rest ih =>
    cases rest with
    | nil =>
      have h := FindAllSender_token a [] (by simp) (hstart a (by simp))
      simp only [List.append_nil] at h
      have h0 : FindAllSender [] = [] := rfl
      simp only [Join]
      rw [h, h0]
      cases hm : matchSender a <;> simp [List.filterMap_cons, hm]
    | cons b rest2 =>
      have h := FindAllSender_token a (' ' :: Join (b :: rest2)) (by simp)
        (hstart a (by simp))
      have hrec := ih (fun tok htok => hstart tok (List.mem_cons_of_mem _ htok))
      simp only [Join]
      rw [h, FindAllSender_blank, hrec]
      cases hm : matchSender a <;> simp [List.filterMap_cons, hm]

/-- When every sender-flag occurrence stands at the start of a token, the sender that
`PopulateFromArgs` sets is the fragment of the last token that starts with a sender flag, and
a `From` header of standard input does not replace it: if both passes and `GetMessage`
succeed, the text starts with the line `From: ` + that fragment + CR-LF. -/
theorem sender_of_last_flag_token (ts : Nat) (args : List Str) (stdin : Str) (e2 : Email)
    (text m : Str)
    (hstart : ∀ tok ∈ args, ∀ p m r : Str, tok = p ++ (m ++ r) → specSenderFlag m r →
      p = [])
    (hlast : (args.filterMap (fun tok => (matchSender tok).map Prod.fst)).getLast? = some m)
    (hs : PopulateFromStdin (PopulateFromArgs (fresh ts) args) stdin = some e2)
    (hg : GetMessage e2 = some text) :
    (PopulateFromArgs (fresh ts) args).From = some { Name := [], Address := m.drop 2 } ∧
    e2.From = some { Name := [], Address := m.drop 2 } ∧
    ("From: ".toList ++ m.drop 2 ++ "\r\n".toList) <+: text := by
  have hfrom : (PopulateFromArgs (fresh ts) args).From
      = some { Name := [], Address := m.drop 2 } := by
    rw [PopulateFromArgs_From, FindAllSender_Join args hstart, hlast]
  have h2 := PopulateFromStdin_From _ _ _ _ hfrom hs
  exact ⟨hfrom, h2, GetMessage_prefix e2 _ text h2 hg⟩

theorem flag_at_start_of_drop (tok : Str)
    (h : ∀ k, k < tok.length → matchSender (tok.drop (k + 1)) = none) :
    ∀ p m r : Str, tok = p ++ (m ++ r) → specSenderFlag m r → p = [] := by
  intro p m r ht hf
  cases p with
  | nil => rfl
  | cons c p2 =>
    have h1 : matchSender (m ++ r) = some (m, r) :=
      (matchSender_eq_some_iff _ _ _).2 ⟨rfl, hf⟩
    have h2 : tok.drop (p2.length + 1) = m ++ r := by rw [ht]; simp
    have h4 : 0 < m.length := List.length_pos.2 (specSenderFlag_ne_nil hf)
    have h3 := h p2.length (by rw [ht]; simp; omega)
    rw [h2, h1] at h3
    exact absurd h3 (by simp)

theorem sender_of_last_flag_token_example :
    ("From: ".toList ++ ("-rc@d".toList).drop 2 ++ "\r\n".toList) <+:
      "From: c@d\r\nSender: c@d\r\nTo: x@y\r\nSubject: s\r\n\r\nbody".toList :=
  (sender_of_last_flag_token 0 ["-fa@b".toList, "-rc@d".toList, "x@y".toList]
    "From: h@h\nSubject: s\n\nbody".toList
    { Timestamp := 0, From := some ⟨[], "c@d".toList⟩, ReplyTo := [],
      To := [⟨[], "x@y".toList⟩], CC := [], BCC := [], Subject := "s".toList,
      ExtraHeaders := [], Body := "body".toList }
    "From: c@d\r\nSender: c@d\r\nTo: x@y\r\nSubject: s\r\n\r\nbody".toList
    "-rc@d".toList
    (by
      intro tok htok
      simp only [List.mem_cons, List.mem_singleton, List.not_mem_nil, or_false] at htok
      rcases htok with rfl | rfl | rfl
      · exact flag_at_start_of_drop _ (by decide)
      · exact flag_at_start_of_drop _ (by decide)
      · exact flag_at_start_of_drop _ (by decide))
    (by decide) (by decide) (by decide)).2.2

/-- C20, the code at the failing input. No token of `[x-fa@b]` or of `[no-reply@example.com]`
starts with `-`, so neither list holds a `-f` or `-r` argument; the sender of the fresh
message is unset; yet `PopulateFromArgs` sets the sender to `a@b`, respectively to
`eply@example.com`, because the sender pattern is searched anywhere in the joined tokens. The
same token is also taken as a recipient. -/
theorem C20_failing_input :
    (∀ tok ∈ ["x-fa@b".toList], tok.head? ≠ some '-') ∧
    (fresh 0).From = none ∧
    (PopulateFromArgs (fresh 0) ["x-fa@b".toList]).From
      = some { Name := [], Address := "a@b".toList } ∧
    (PopulateFromArgs (fresh 0) ["x-fa@b".toList]).To
      = [{ Name := [], Address := "x-fa@b".toList }] ∧
    (∀ tok ∈ ["no-reply@example.com".toList], tok.head? ≠ some '-') ∧
    (PopulateFromArgs (fresh 0) ["no-reply@example.com".toList]).From
      = some { Name := [], Address := "eply@example.com".toList } ∧
    (PopulateFromArgs (fresh 0) ["no-reply@example.com".toList]).To
      = [{ Name := [], Address := "no-reply@example.com".toList }] := by
  refine ⟨by decide, rfl, by decide, by decide, by decide, by decide, by decide⟩

/-! ## Reading the header block -/

theorem Cut_spec (sep s a b : Str) (h : Cut sep s = some (a, b)) : s = a ++ (sep ++ b) := by
  induction s generalizing a with
  | nil =>
    unfold Cut at h
    split_ifs at h with h0
    simp only [Option.some.injEq, Prod.mk.injEq] at h
    rw [← h.1, ← h.2, h0]
    rfl
  | cons c t ih =>
    unfold Cut at h
    by_cases hp : sep.isPrefixOf (c :: t) = true
    · rw [if_pos hp] at h
      simp only [Option.some.injEq, Prod.mk.injEq] at h
      rw [← h.1, ← h.2]
      obtain ⟨r, hr⟩ := List.isPrefixOf_iff_prefix.1 hp
      rw [← hr]
      simp
    · rw [if_neg hp] at h
      cases hc : Cut sep t with
      | none => simp [hc] at h
      | some ab =>
        obtain ⟨a2, b2⟩ := ab
        simp only [hc, Option.some.injEq, Prod.mk.injEq] at h
        obtain ⟨h1, h2⟩ := h
        subst h2
        rw [← h1, List.cons_append, ← ih a2 hc]

theorem Cut_char_none_iff (c : Char) (v : Str) : Cut [c] v = none ↔ c ∉ v := by
  induction v with
  | nil => simp [Cut]
  | cons d t ih =>
    unfold Cut
    by_cases hd : c = d
    · subst hd
      simp [List.isPrefixOf]
    · have hp : List.isPrefixOf [c] (d :: t) = false := by
        simp [List.isPrefixOf, hd]
      rw [hp]
      simp only [Bool.false_eq_true, if_false, List.mem_cons, not_or]
      cases hc : Cut [c] t with
      | none =>
        simp only [true_iff]
        exact ⟨hd, ih.1 hc⟩
      | some ab =>
        constructor
        · intro h
          simp at h
        · intro h
          have := ih.2 h.2
          rw [hc] at this
          exact absurd this (by simp)

theorem Split_eq (sep s : Str) (hsep : sep ≠ []) :
    Split sep s
      = match Cut sep s with
        | some (a, b) => a :: Split sep b
        | none => [s] := by
  unfold Split
  cases hs : s.length with
  | zero =>
    have : s = [] := List.length_eq_zero.1 hs
    subst this
    simp [SplitAux, Cut, hsep]
  | succ n =>
    cases hc : Cut sep s with
    | none => simp [SplitAux, hc]
    | some ab =>
      obtain ⟨a, b⟩ := ab
      have hlt := Cut_length sep s a b hsep hc
      simp only [SplitAux, hc]
      rw [SplitAux_fuel sep hsep n b.length b (by omega) (le_refl _)]

theorem Split_crlf_cons (headers : Str) :
    ∃ rest, Split "\r\n".toList headers = specFirstLine headers :: rest := by
  rw [Split_eq _ _ (by decide)]
  unfold specFirstLine
  cases Cut "\r\n".toList headers with
  | none => exact ⟨[], rfl⟩
  | some ab => exact ⟨_, rfl⟩

theorem PopulateFromStdin_eq (e : Email) (b : Str) :
    PopulateFromStdin e b
      = match Cut "\r\n\r\n".toList (specNormalized b) with
        | none => some { e with Body := specNormalized b }
        | some (headers, body) =>
          rowsLoop (specNormalized b) 0 { e with Body := body }
            (Split "\r\n".toList headers) := by
  have hn : (if (!Contains b "\r\n".toList) = true then ReplaceLF b else b)
      = specNormalized b := by
    unfold specNormalized
    cases Contains b "\r\n".toList <;> rfl
  unfold PopulateFromStdin
  simp only [hn]

theorem ReplaceLF_eq_self (b : Str) (h : '\n' ∉ b) : ReplaceLF b = b := by
  induction b with
  | nil => rfl
  | cons c t ih =>
    simp only [List.mem_cons, not_or] at h
    have hc : c ≠ '\n' := fun hc => h.1 hc.symm
    simp [ReplaceLF, hc, ih h.2]

/-- C11, counterexample. A text without blank line that holds a line feed is not kept as it
is: the body is the text with the line feed replaced by CR-LF. -/
theorem C11_counterexample :
    Cut "\r\n\r\n".toList (specNormalized "a\nb".toList) = none ∧
    PopulateFromStdin (fresh 0) "a\nb".toList
      = some { fresh 0 with Body := "a\r\nb".toList } ∧
    "a\r\nb".toList ≠ "a\nb".toList := by
  refine ⟨by decide, by decide, by decide⟩

/-- C11, amended. When the normalised input has no blank-line separator, or the first line of
its header block has no colon, `PopulateFromStdin` does not fail, sets the body to the whole
normalised input and leaves every other field unchanged; the normalised input is the input
itself when the input contains a CR-LF pair or no line feed at all. -/
theorem C11_header_less (e : Email) (b : Str)
    (h : Cut "\r\n\r\n".toList (specNormalized b) = none ∨
      ∃ headers body, Cut "\r\n\r\n".toList (specNormalized b) = some (headers, body) ∧
        ':' ∉ specFirstLine headers) :
    PopulateFromStdin e b = some { e with Body := specNormalized b } ∧
    ((Contains b "\r\n".toList = true ∨ '\n' ∉ b) → specNormalized b = b) := by
  constructor
  · rw [PopulateFromStdin_eq]
    rcases h with h | ⟨headers, body, hc, hcolon⟩
    · rw [h]
    · rw [hc]
      obtain ⟨rest, hrows⟩ := Split_crlf_cons headers
      have hcut : Cut ":".toList (specFirstLine headers) = none :=
        (Cut_char_none_iff ':' _).2 hcolon
      simp only [hrows, rowsLoop, hcut]
      rfl
  · intro hb
    unfold specNormalized
    rcases hb with hb | hb
    · rw [if_pos hb]
    · by_cases hc : Contains b "\r\n".toList = true
      · rw [if_pos hc]
      · rw [if_neg hc, ReplaceLF_eq_self b hb]

theorem C11_header_less_witness :
    PopulateFromStdin (fresh 0) "just a body, no headers".toList
      = some { fresh 0 with Body := "just a body, no headers".toList } ∧
    PopulateFromStdin (fresh 0) "no colon here\r\nTo: a@b\r\n\r\ntext".toList
      = some { fresh 0 with Body := "no colon here\r\nTo: a@b\r\n\r\ntext".toList } := by
  have h1 := C11_header_less (fresh 0) "just a body, no headers".toList
    (Or.inl (by decide))
  have h2 := C11_header_less (fresh 0) "no colon here\r\nTo: a@b\r\n\r\ntext".toList
    (Or.inr ⟨"no colon here\r\nTo: a@b".toList, "text".toList, by decide, by decide⟩)
  constructor
  · rw [h1.1, h1.2 (Or.inr (by decide))]
  · rw [h2.1, h2.2 (Or.inl (by decide))]

theorem headerStep_from_cases (e e1 : Email) (val : Str)
    (h : (match e.From with
      | some _ => some e
      | none =>
        match ParseAddresses val with
        | [a] => some { e with From := some a }
        | _ => none) = some e1) :
    (e1.ReplyTo = e.ReplyTo ∧ e1.To = e.To ∧ e1.CC = e.CC ∧ e1.BCC = e.BCC ∧
      e1.Subject = e.Subject ∧ e1.ExtraHeaders = e.ExtraHeaders ∧ e1.Body = e.Body) ∧
    e1.From = (if e.From = none then (ParseAddresses val).head? else e.From) ∧
    (e.From = none → ∃ a, ParseAddresses val = [a]) := by
  cases hf : e.From with
  | some f =>
    simp only [hf, Option.some.injEq] at h
    subst h
    exact ⟨⟨rfl, rfl, rfl, rfl, rfl, rfl, rfl⟩, by simp [hf], by simp⟩
  | none =>
    simp only [hf] at h
    split at h
    · rename_i a hp
      simp only [Option.some.injEq] at h
      subst h
      exact ⟨⟨rfl, rfl, rfl, rfl, rfl, rfl, rfl⟩, by simp [hp], fun _ => ⟨a, hp⟩⟩
    · simp at h

theorem headerStep_lists (e e1 : Email) (v name val : Str)
    (h : headerStep e v name val = some e1) :
    e1.ReplyTo = (if ToLower name = "reply-to".toList ∧ e.ReplyTo = [] then ParseAddresses val
        else e.ReplyTo) ∧
    e1.To = (if ToLower name = "to".toList ∧ e.To = [] then ParseAddresses val else e.To) ∧
    e1.CC = (if ToLower name = "cc".toList ∧ e.CC = [] then ParseAddresses val else e.CC) ∧
    e1.BCC = (if ToLower name = "bcc".toList ∧ e.BCC = [] then ParseAddresses val
        else e.BCC) ∧
    e1.Subject = (if ToLower name = "subject".toList then val else e.Subject) ∧
    e1.ExtraHeaders = (if ToLower name ∈ specRecognized then e.ExtraHeaders
        else e.ExtraHeaders ++ v ++ "\r\n".toList) ∧
    e1.Body = e.Body := by
  unfold headerStep at h
  generalize ToLower name = n at h ⊢
  by_cases h1 : n = "from".toList
  · subst h1
    simp only [if_true] at h
    obtain ⟨⟨a1, a2, a3, a4, a5, a6, a7⟩, _, _⟩ := headerStep_from_cases e e1 val h
    simp [a1, a2, a3, a4, a5, a6, a7, specRecognized]
  rw [if_neg h1] at h
  by_cases h2 : n = "sender".toList
  · subst h2
    rw [if_pos rfl] at h
    have h' := Option.some.inj h
    subst h'
    simp [specRecognized]
  rw [if_neg h2] at h
  by_cases h3 : n = "reply-to".toList
  · subst h3
    rw [if_pos rfl] at h
    have h' := Option.some.inj h
    subst h'
    by_cases h0 : e.ReplyTo = [] <;> simp [h0, specRecognized]
  rw [if_neg h3] at h
  by_cases h4 : n = "to".toList
  · subst h4
    rw [if_pos rfl] at h
    have h' := Option.some.inj h
    subst h'
    by_cases h0 : e.To = [] <;> simp [h0, specRecognized]
  rw [if_neg h4] at h
  by_cases h5 : n = "cc".toList
  · subst h5
    rw [if_pos rfl] at h
    have h' := Option.some.inj h
    subst h'
    by_cases h0 : e.CC = [] <;> simp [h0, specRecognized]
  rw [if_neg h5] at h
  by_cases h6 : n = "bcc".toList
  · subst h6
    rw [if_pos rfl] at h
    have h' := Option.some.inj h
    subst h'
    by_cases h0 : e.BCC = [] <;> simp [h0, specRecognized]
  rw [if_neg h6] at h
  by_cases h7 : n = "subject".toList
  · subst h7
    rw [if_pos rfl] at h
    have h' := Option.some.inj h
    subst h'
    simp [specRecognized]
  rw [if_neg h7] at h
  have h' := Option.some.inj h
  subst h'
  simp only [String.toList] at h1 h2 h3 h4 h5 h6 h7
  simp [specRecognized, h1, h2, h3, h4, h5, h6, h7]

theorem headerStep_sender (e e1 : Email) (v name val : Str)
    (h : headerStep e v name val = some e1) :
    e1.From = (if ToLower name = "from".toList ∧ e.From = none
        then (ParseAddresses val).head? else e.From) ∧
    (ToLower name = "from".toList → e.From = none → ∃ a, ParseAddresses val = [a]) := by
  by_cases h1 : ToLower name = "from".toList
  · have h2 := h
    unfold headerStep at h2
    simp only [h1, if_true] at h2
    obtain ⟨_, hfrom, hex⟩ := headerStep_from_cases e e1 val h2
    refine ⟨?_, fun _ => hex⟩
    rw [hfrom]
    by_cases h0 : e.From = none
    · rw [if_pos h0, if_pos ⟨h1, h0⟩]
    · rw [if_neg h0, if_neg (fun hh => h0 hh.2)]
  · refine ⟨?_, fun hh => absurd hh h1⟩
    rw [if_neg (fun hh => h1 hh.1)]
    unfold headerStep at h
    simp only [h1, if_false] at h
    split_ifs at h <;> (have h' := Option.some.inj h; subst h'; rfl)

theorem rowsLoop_cons_some (content : Str) (i : Nat) (e : Email) (v : Str)
    (rest : List Str) (name raw : Str) (hc : Cut ":".toList v = some (name, raw)) :
    rowsLoop content i e (v :: rest)
      = match headerStep e v name (Trim raw) with
        | some e1 => rowsLoop content (i + 1) e1 rest
        | none => none := by
  simp only [rowsLoop, hc]

theorem rowsLoop_cons_none (content : Str) (i : Nat) (e : Email) (v : Str)
    (rest : List Str) (hc : Cut ":".toList v = none) :
    rowsLoop content i e (v :: rest)
      = if i ≠ 0 then none else some { e with Body := content } := by
  simp only [rowsLoop, hc]

theorem rowsLoop_colon (content : Str) (i : Nat) (e e2 : Email) (rows : List Str)
    (h : rowsLoop content (i + 1) e rows = some e2) :
    ∀ r ∈ rows, ∃ name raw, Cut ":".toList r = some (name, raw) := by
  induction rows generalizing i e with
  | nil => simp
  | cons v rest ih =>
    cases hc : Cut ":".toList v with
    | none =>
      rw [rowsLoop_cons_none _ _ _ _ _ hc] at h
      simp at h
    | some nr =>
      obtain ⟨name, raw⟩ := nr
      rw [rowsLoop_cons_some _ _ _ _ _ _ _ hc] at h
      cases hh : headerStep e v name (Trim raw) with
      | none => simp [hh] at h
      | some e1 =>
        simp only [hh] at h
        intro r hr
        rcases List.mem_cons.1 hr with rfl | hr
        · exact ⟨name, raw, hc⟩
        · exact ih (i + 1) e1 h r hr

theorem stdin_processed (e e2 : Email) (b headers body : Str)
    (hcut : Cut "\r\n\r\n".toList (specNormalized b) = some (headers, body))
    (hfirst : ':' ∈ specFirstLine headers) (hs : PopulateFromStdin e b = some e2) :
    (∀ r ∈ Split "\r\n".toList headers, ∃ name raw, Cut ":".toList r = some (name, raw)) ∧
    rowsLoop (specNormalized b) 0 { e with Body := body } (Split "\r\n".toList headers)
      = some e2 := by
  rw [PopulateFromStdin_eq] at hs
  simp only [hcut] at hs
  refine ⟨?_, hs⟩
  obtain ⟨rest, hrows⟩ := Split_crlf_cons headers
  rw [hrows] at hs ⊢
  cases hc : Cut ":".toList (specFirstLine headers) with
  | none => exact absurd hfirst ((Cut_char_none_iff ':' _).1 hc)
  | some nr =>
    obtain ⟨name, raw⟩ := nr
    rw [rowsLoop_cons_some _ _ _ _ _ _ _ hc] at hs
    cases hh : headerStep { e with Body := body } (specFirstLine headers) name (Trim raw) with
    | none => simp [hh] at hs
    | some e1 =>
      simp only [hh] at hs
      intro r hr
      rcases List.mem_cons.1 hr with rfl | hr
      · exact ⟨name, raw, hc⟩
      · exact rowsLoop_colon _ 0 e1 e2 rest hs r hr

theorem ParseAddresses_ne_nil (s : Str) : ParseAddresses s ≠ [] := by
  unfold ParseAddresses FindAllStringSubmatch
  simp only [Ne, List.map_eq_nil_iff]
  exact allMatchesAux_false_ne_nil _ s

theorem rowsLoop_field (get : Email → List EmailAddress) (kind : Str)
    (hstep : ∀ (e e1 : Email) (v name val : Str), headerStep e v name val = some e1 →
      get e1 = if ToLower name = kind ∧ get e = [] then ParseAddresses val else get e)
    (content : Str) (rows : List Str) :
    ∀ (i : Nat) (e e2 : Email),
      (∀ r ∈ rows, ∃ name raw, Cut ":".toList r = some (name, raw)) →
      rowsLoop content i e rows = some e2 →
      get e2 = specFirstWriter (get e) (specFirstValue kind rows) := by
  induction rows with
  | nil =>
    intro i e e2 _ h
    simp only [rowsLoop, Option.some.injEq] at h
    subst h
    unfold specFirstWriter specFirstValue
    split_ifs <;> rfl
  | cons v rest ih =>
    intro i e e2 hcol h
    obtain ⟨name, raw, hc⟩ := hcol v (by simp)
    rw [rowsLoop_cons_some _ _ _ _ _ _ _ hc] at h
    cases hh : headerStep e v name (Trim raw) with
    | none => simp [hh] at h
    | some e1 =>
      simp only [hh] at h
      have hrec := ih (i + 1) e1 e2 (fun r hr => hcol r (List.mem_cons_of_mem _ hr)) h
      have h1 := hstep e e1 v name (Trim raw) hh
      rw [hrec, h1]
      simp only [specFirstValue, hc]
      by_cases hk : ToLower name = kind
      · by_cases h0 : get e = []
        · have hp : ParseAddresses (Trim raw) ≠ [] := ParseAddresses_ne_nil _
          simp only [hk, h0, and_self, if_true]
          unfold specFirstWriter
          simp [hp]
        · simp only [hk, h0, and_false, if_false, if_true]
          unfold specFirstWriter
          simp [h0]
      · simp only [hk, false_and, if_false]

theorem rowsLoop_sender (content : Str) (rows : List Str) :
    ∀ (i : Nat) (e e2 : Email),
      (∀ r ∈ rows, ∃ name raw, Cut ":".toList r = some (name, raw)) →
      rowsLoop content i e rows = some e2 →
      e2.From = specFirstWriterFrom e.From (specFirstValue "from".toList rows) ∧
      (e.From = none → ∀ val, specFirstValue "from".toList rows = some val →
        ∃ a, ParseAddresses val = [a]) := by
  induction rows with
  | nil =>
    intro i e e2 _ h
    simp only [rowsLoop, Option.some.injEq] at h
    subst h
    refine ⟨?_, by simp [specFirstValue]⟩
    unfold specFirstWriterFrom specFirstValue
    cases e.From <;> rfl
  | cons v rest ih =>
    intro i e e2 hcol h
    obtain ⟨name, raw, hc⟩ := hcol v (by simp)
    rw [rowsLoop_cons_some _ _ _ _ _ _ _ hc] at h
    cases hh : headerStep e v name (Trim raw) with
    | none => simp [hh] at h
    | some e1 =>
      simp only [hh] at h
      obtain ⟨hrec, hrec2⟩ :=
        ih (i + 1) e1 e2 (fun r hr => hcol r (List.mem_cons_of_mem _ hr)) h
      obtain ⟨h1, h2⟩ := headerStep_sender e e1 v name (Trim raw) hh
      simp only [specFirstValue, hc]
      by_cases hk : ToLower name = "from".toList
      · simp only [hk, if_true]
        cases hf : e.From with
        | some f =>
          have he1 : e1.From = some f := by
            rw [h1, if_neg (fun hx => by rw [hf] at hx; exact absurd hx.2 (by simp)), hf]
          refine ⟨?_, by simp⟩
          rw [hrec, he1]
          rfl
        | none =>
          obtain ⟨a, ha⟩ := h2 hk hf
          have he1 : e1.From = some a := by
            rw [h1, if_pos ⟨hk, hf⟩, ha]
            rfl
          refine ⟨?_, ?_⟩
          · rw [hrec, he1]
            simp [specFirstWriterFrom, ha]
          · intro _ val hval
            simp only [Option.some.injEq] at hval
            subst hval
            exact ⟨a, ha⟩
      · have he1 : e1.From = e.From := by
          rw [h1, if_neg (fun hx => hk hx.1)]
        simp only [if_neg hk]
        rw [hrec, he1]
        exact ⟨rfl, fun hf => hrec2 (by rw [he1, hf])⟩

theorem rowsLoop_extra (content : Str) (rows : List Str) :
    ∀ (i : Nat) (e e2 : Email),
      (∀ r ∈ rows, ∃ name raw, Cut ":".toList r = some (name, raw)) →
      rowsLoop content i e rows = some e2 →
      e2.ExtraHeaders = e.ExtraHeaders
        ++ ((rows.filter specIsExtra).map (fun r => r ++ "\r\n".toList)).flatten := by
  induction rows with
  | nil =>
    intro i e e2 _ h
    simp only [rowsLoop, Option.some.injEq] at h
    subst h
    simp
  | cons v rest ih =>
    intro i e e2 hcol h
    obtain ⟨name, raw, hc⟩ := hcol v (by simp)
    rw [rowsLoop_cons_some _ _ _ _ _ _ _ hc] at h
    cases hh : headerStep e v name (Trim raw) with
    | none => simp [hh] at h
    | some e1 =>
      simp only [hh] at h
      have hrec := ih (i + 1) e1 e2 (fun r hr => hcol r (List.mem_cons_of_mem _ hr)) h
      have h1 := (headerStep_lists e e1 v name (Trim raw) hh).2.2.2.2.2.1
      rw [hrec, h1]
      have hx0 : specIsExtra v = decide (ToLower name ∉ specRecognized) := by
        simp only [specIsExtra, hc]
      by_cases hk : ToLower name ∈ specRecognized
      · have hx : specIsExtra v = false := by rw [hx0]; simp [hk]
        rw [List.filter_cons, hx, if_pos hk]
        simp
      · have hx : specIsExtra v = true := by rw [hx0]; simp [hk]
        rw [List.filter_cons, hx, if_neg hk]
        simp [List.append_assoc]

theorem rowsLoop_bad_from (content row name raw : Str) (post : List Str)
    (hrow : Cut ":".toList row = some (name, raw)) (hname : ToLower name = "from".toList)
    (hparse : (ParseAddresses (Trim raw)).length ≠ 1) (pre : List Str) :
    ∀ (i : Nat) (e : Email), e.From = none →
      (∀ r ∈ pre, ∃ n v, Cut ":".toList r = some (n, v) ∧ ToLower n ≠ "from".toList) →
      rowsLoop content i e (pre ++ row :: post) = none := by
  induction pre with
  | nil =>
    intro i e hf _
    rw [List.nil_append, rowsLoop_cons_some _ _ _ _ _ _ _ hrow]
    cases hh : headerStep e row name (Trim raw) with
    | none => rfl
    | some e1 =>
      obtain ⟨a, ha⟩ := (headerStep_sender e e1 row name (Trim raw) hh).2 hname hf
      rw [ha] at hparse
      exact absurd rfl hparse
  | cons r pre2 ih =>
    intro i e hf hpre
    obtain ⟨n, v, hc, hn⟩ := hpre r (by simp)
    rw [List.cons_append, rowsLoop_cons_some _ _ _ _ _ _ _ hc]
    cases hh : headerStep e r n (Trim v) with
    | none => rfl
    | some e1 =>
      have he1 : e1.From = none := by
        rw [(headerStep_sender e e1 r n (Trim v) hh).1, if_neg (fun hx => hn hx.1), hf]
      exact ih (i + 1) e1 he1 (fun r2 hr2 => hpre r2 (List.mem_cons_of_mem _ hr2))

/-- C12, counterexample. A `From` header with two addresses does not make `PopulateFromStdin`
fail when the sender is already set, by the message or by an earlier `From` header. -/
theorem C12_counterexample :
    (ParseAddresses "a@b, c@d".toList).length = 2 ∧
    PopulateFromStdin { fresh 0 with From := some ⟨[], "x@y".toList⟩ }
        "From: a@b, c@d\n\nhi".toList
      = some { fresh 0 with From := some ⟨[], "x@y".toList⟩, Body := "hi".toList } ∧
    PopulateFromStdin (fresh 0) "From: x@y\nFrom: a@b, c@d\n\nhi".toList
      = some { fresh 0 with From := some ⟨[], "x@y".toList⟩, Body := "hi".toList } := by
  refine ⟨by decide, by decide, by decide⟩

/-- When the sender is unset and the first `From` header of the block, every line before it
having a colon, has a value that `ParseAddresses` does not resolve to exactly one address,
`PopulateFromStdin` fails, whatever follows that header. -/
theorem stdin_fails_on_bad_first_from (e : Email) (b headers body : Str)
    (pre post : List Str) (row name raw : Str) (hfrom : e.From = none)
    (hcut : Cut "\r\n\r\n".toList (specNormalized b) = some (headers, body))
    (hrows : Split "\r\n".toList headers = pre ++ row :: post)
    (hpre : ∀ r ∈ pre, ∃ n v, Cut ":".toList r = some (n, v) ∧ ToLower n ≠ "from".toList)
    (hrow : Cut ":".toList row = some (name, raw)) (hname : ToLower name = "from".toList)
    (hparse : (ParseAddresses (Trim raw)).length ≠ 1) :
    PopulateFromStdin e b = none := by
  rw [PopulateFromStdin_eq]
  simp only [hcut, hrows]
  exact rowsLoop_bad_from _ row name raw post hrow hname hparse pre 0 _ hfrom hpre

theorem headerStep_of_ne_from (e : Email) (v name val : Str)
    (h : ToLower name ≠ "from".toList) :
    ∃ e1, headerStep e v name val = some e1 ∧ e1.From = e.From := by
  unfold headerStep
  simp only [h, if_false]
  split_ifs <;> exact ⟨_, rfl, rfl⟩

theorem headerStep_from_set (e : Email) (v name val : Str) (f : EmailAddress)
    (h : ToLower name = "from".toList) (hf : e.From = some f) :
    headerStep e v name val = some e := by
  unfold headerStep
  simp only [h, if_true, hf]

theorem headerStep_from_unset (e : Email) (v name val : Str)
    (h : ToLower name = "from".toList) (hf : e.From = none) :
    headerStep e v name val
      = match ParseAddresses val with
        | [a] => some { e with From := some a }
        | _ => none := by
  unfold headerStep
  simp only [h, if_true, hf]

theorem rowsLoop_none_iff (content : Str) (rows : List Str) :
    ∀ (i : Nat) (e : Email),
      (∀ r ∈ rows, ∃ name raw, Cut ":".toList r = some (name, raw)) →
      (rowsLoop content i e rows = none ↔
        e.From = none ∧ ∃ val, specFirstValue "from".toList rows = some val ∧
          (ParseAddresses val).length ≠ 1) := by
  induction rows with
  | nil =>
    intro i e _
    simp [rowsLoop, specFirstValue]
  | cons v rest ih =>
    intro i e hcol
    obtain ⟨name, raw, hc⟩ := hcol v (by simp)
    have hrest : ∀ r ∈ rest, ∃ name raw, Cut ":".toList r = some (name, raw) :=
      fun r hr => hcol r (List.mem_cons_of_mem _ hr)
    rw [rowsLoop_cons_some _ _ _ _ _ _ _ hc]
    simp only [specFirstValue, hc]
    by_cases hk : ToLower name = "from".toList
    · rw [if_pos hk]
      cases hf : e.From with
      | some f =>
        rw [headerStep_from_set e v name _ f hk hf]
        simp only [ih (i + 1) e hrest, hf]
        simp
      | none =>
        rw [headerStep_from_unset e v name _ hk hf]
        cases hp : ParseAddresses (Trim raw) with
        | nil => simp [hp]
        | cons a l =>
          cases l with
          | nil =>
            simp only [ih (i + 1) _ hrest]
            simp [hp]
          | cons a2 l2 => simp [hp]
    · rw [if_neg hk]
      obtain ⟨e1, he1, hfrom⟩ := headerStep_of_ne_from e v name (Trim raw) hk
      rw [he1]
      simp only [ih (i + 1) e1 hrest, hfrom]

/-- C12, amended. For every message and every input with a header block in which every line
has a colon, `PopulateFromStdin` fails exactly when the sender is unset before the call and
the first `From` header of the block has a value that `ParseAddresses` does not resolve to
exactly one address. So a `From` header met when the sender is already set cannot make it
fail: with the sender set before the call it succeeds and keeps that sender, and with the
sender unset and a first `From` header that resolves to exactly one address it succeeds with
that address as sender, whatever the later `From` headers hold. -/
theorem C12_from_single_address (e : Email) (b headers body : Str)
    (hcut : Cut "\r\n\r\n".toList (specNormalized b) = some (headers, body))
    (hcol : ∀ r ∈ Split "\r\n".toList headers, ':' ∈ r) :
    (PopulateFromStdin e b = none ↔
      e.From = none ∧
        ∃ val, specFirstValue "from".toList (Split "\r\n".toList headers) = some val ∧
          (ParseAddresses val).length ≠ 1) ∧
    (∀ f, e.From = some f → ∃ e2, PopulateFromStdin e b = some e2 ∧ e2.From = some f) ∧
    (∀ val a, e.From = none →
      specFirstValue "from".toList (Split "\r\n".toList headers) = some val →
      ParseAddresses val = [a] →
      ∃ e2, PopulateFromStdin e b = some e2 ∧ e2.From = some a) := by
  have hcol2 : ∀ r ∈ Split "\r\n".toList headers,
      ∃ name raw, Cut ":".toList r = some (name, raw) := by
    intro r hr
    cases hc : Cut ":".toList r with
    | none => exact absurd (hcol r hr) ((Cut_char_none_iff ':' r).1 hc)
    | some nr => exact ⟨nr.1, nr.2, rfl⟩
  have hiff : PopulateFromStdin e b = none ↔
      e.From = none ∧
        ∃ val, specFirstValue "from".toList (Split "\r\n".toList headers) = some val ∧
          (ParseAddresses val).length ≠ 1 := by
    rw [PopulateFromStdin_eq]
    simp only [hcut]
    exact rowsLoop_none_iff _ _ 0 { e with Body := body } hcol2
  refine ⟨hiff, ?_, ?_⟩
  · intro f hf
    cases hs : PopulateFromStdin e b with
    | none =>
      have h1 := (hiff.1 hs).1
      rw [hf] at h1
      exact absurd h1 (by simp)
    | some e2 => exact ⟨e2, rfl, PopulateFromStdin_From e e2 b f hf hs⟩
  · intro val a hf hval hp
    cases hs : PopulateFromStdin e b with
    | none =>
      obtain ⟨_, val2, hval2, hlen⟩ := hiff.1 hs
      rw [hval, Option.some.injEq] at hval2
      subst hval2
      rw [hp] at hlen
      exact absurd rfl hlen
    | some e2 =>
      refine ⟨e2, rfl, ?_⟩
      have hs2 := hs
      rw [PopulateFromStdin_eq] at hs2
      simp only [hcut] at hs2
      have h1 := (rowsLoop_sender _ _ 0 { e with Body := body } e2 hcol2 hs2).1
      rw [h1, hval]
      have hf2 : ({ e with Body := body } : Email).From = none := hf
      rw [hf2]
      simp [specFirstWriterFrom, hp]

theorem C12_from_single_address_witness :
    PopulateFromStdin (fresh 0) "Subject: x\nFROM: a@b, c@d\nTo: e@f\n\nhi".toList = none ∧
    (∃ e2, PopulateFromStdin { fresh 0 with From := some ⟨[], "x@y".toList⟩ }
        "Subject: x\nFROM: a@b, c@d\nTo: e@f\n\nhi".toList = some e2 ∧
      e2.From = some ⟨[], "x@y".toList⟩) ∧
    (∃ e2, PopulateFromStdin (fresh 0) "From: x@y\nFrom: a@b, c@d\n\nhi".toList = some e2 ∧
      e2.From = some ⟨[], "x@y".toList⟩) :=
  ⟨(C12_from_single_address (fresh 0) "Subject: x\nFROM: a@b, c@d\nTo: e@f\n\nhi".toList
      "Subject: x\r\nFROM: a@b, c@d\r\nTo: e@f".toList "hi".toList
      (by decide) (by decide)).1.2 ⟨rfl, "a@b, c@d".toList, by decide, by decide⟩,
    (C12_from_single_address { fresh 0 with From := some ⟨[], "x@y".toList⟩ }
      "Subject: x\nFROM: a@b, c@d\nTo: e@f\n\nhi".toList
      "Subject: x\r\nFROM: a@b, c@d\r\nTo: e@f".toList "hi".toList
      (by decide) (by decide)).2.1 ⟨[], "x@y".toList⟩ rfl,
    (C12_from_single_address (fresh 0) "From: x@y\nFrom: a@b, c@d\n\nhi".toList
      "From: x@y\r\nFrom: a@b, c@d".toList "hi".toList
      (by decide) (by decide)).2.2 "x@y".toList ⟨[], "x@y".toList⟩ rfl (by decide)
      (by decide)⟩

/-- C13, counterexample. The input has a header block whose second line is a `To` header,
but its first line has no colon: `PopulateFromStdin` succeeds, takes the whole input as body
and leaves `To` empty, though the first `To` header of the block parses to one address. -/
theorem C13_counterexample :
    Cut "\r\n\r\n".toList (specNormalized "no colon\r\nTo: a@b\r\n\r\nhi".toList)
      = some ("no colon\r\nTo: a@b".toList, "hi".toList) ∧
    specFirstValue "to".toList (Split "\r\n".toList "no colon\r\nTo: a@b".toList)
      = some "a@b".toList ∧
    ParseAddresses "a@b".toList = [⟨[], "a@b".toList⟩] ∧
    PopulateFromStdin (fresh 0) "no colon\r\nTo: a@b\r\n\r\nhi".toList
      = some { fresh 0 with Body := "no colon\r\nTo: a@b\r\n\r\nhi".toList } ∧
    ({ fresh 0 with Body := "no colon\r\nTo: a@b\r\n\r\nhi".toList } : Email).To = [] := by
  refine ⟨by decide, by decide, by decide, by decide, rfl⟩

/-- C13, amended. On an input with a header block whose first line has a colon (so that the
input is not taken as header-less), when `PopulateFromStdin` succeeds each of `From`,
`ReplyTo`, `To`, `CC`, `BCC` keeps its value when it was already set and is otherwise the
parse of the value of the first header of its kind, when there is one; a later header of the
same kind changes nothing. -/
theorem C13_first_writer_wins (e e2 : Email) (b headers body : Str)
    (hcut : Cut "\r\n\r\n".toList (specNormalized b) = some (headers, body))
    (hfirst : ':' ∈ specFirstLine headers) (hs : PopulateFromStdin e b = some e2) :
    e2.From = specFirstWriterFrom e.From
        (specFirstValue "from".toList (Split "\r\n".toList headers)) ∧
    (e.From = none → ∀ val,
        specFirstValue "from".toList (Split "\r\n".toList headers) = some val →
        ∃ a, ParseAddresses val = [a] ∧ e2.From = some a) ∧
    e2.ReplyTo = specFirstWriter e.ReplyTo
        (specFirstValue "reply-to".toList (Split "\r\n".toList headers)) ∧
    e2.To = specFirstWriter e.To
        (specFirstValue "to".toList (Split "\r\n".toList headers)) ∧
    e2.CC = specFirstWriter e.CC
        (specFirstValue "cc".toList (Split "\r\n".toList headers)) ∧
    e2.BCC = specFirstWriter e.BCC
        (specFirstValue "bcc".toList (Split "\r\n".toList headers)) := by
  obtain ⟨hcol, hloop⟩ := stdin_processed e e2 b headers body hcut hfirst hs
  obtain ⟨hF, hF2⟩ := rowsLoop_sender _ _ 0 { e with Body := body } e2 hcol hloop
  refine ⟨hF, ?_, ?_, ?_, ?_, ?_⟩
  · intro hnone val hval
    obtain ⟨a, ha⟩ := hF2 hnone val hval
    refine ⟨a, ha, ?_⟩
    rw [hF]
    have h0 : e.From = none := hnone
    simp only [specFirstWriterFrom, h0, hval, ha]
    rfl
  · exact rowsLoop_field (fun x => x.ReplyTo) "reply-to".toList
      (fun e e1 v name val h => (headerStep_lists e e1 v name val h).1) _ _ 0
      { e with Body := body } e2 hcol hloop
  · exact rowsLoop_field (fun x => x.To) "to".toList
      (fun e e1 v name val h => (headerStep_lists e e1 v name val h).2.1) _ _ 0
      { e with Body := body } e2 hcol hloop
  · exact rowsLoop_field (fun x => x.CC) "cc".toList
      (fun e e1 v name val h => (headerStep_lists e e1 v name val h).2.2.1) _ _ 0
      { e with Body := body } e2 hcol hloop
  · exact rowsLoop_field (fun x => x.BCC) "bcc".toList
      (fun e e1 v name val h => (headerStep_lists e e1 v name val h).2.2.2.1) _ _ 0
      { e with Body := body } e2 hcol hloop

/-- C14, counterexample. The input has a header block whose second line is an unrecognized
header, but its first line has no colon: `PopulateFromStdin` succeeds, takes the whole input
as body and leaves the extra headers empty. -/
theorem C14_counterexample :
    Cut "\r\n\r\n".toList (specNormalized "no colon\r\nX-A: 1\r\n\r\nhi".toList)
      = some ("no colon\r\nX-A: 1".toList, "hi".toList) ∧
    (Split "\r\n".toList "no colon\r\nX-A: 1".toList).filter specIsExtra
      = ["X-A: 1".toList] ∧
    PopulateFromStdin (fresh 0) "no colon\r\nX-A: 1\r\n\r\nhi".toList
      = some { fresh 0 with Body := "no colon\r\nX-A: 1\r\n\r\nhi".toList } ∧
    ({ fresh 0 with Body := "no colon\r\nX-A: 1\r\n\r\nhi".toList } : Email).ExtraHeaders
      = [] := by
  refine ⟨by decide, by decide, by decide, rfl⟩

/-- C14, amended. On an input with a header block whose first line has a colon (so that the
input is not taken as header-less), starting from empty extra headers, when
`PopulateFromStdin` succeeds the extra headers are the header lines whose lower-cased name is
not recognized, in their order, each with its text followed by CR-LF; recognized headers add
nothing. -/
theorem C14_extra_headers (e e2 : Email) (b headers body : Str)
    (hx : e.ExtraHeaders = [])
    (hcut : Cut "\r\n\r\n".toList (specNormalized b) = some (headers, body))
    (hfirst : ':' ∈ specFirstLine headers) (hs : PopulateFromStdin e b = some e2) :
    e2.ExtraHeaders
      = (((Split "\r\n".toList headers).filter specIsExtra).map
          (fun r => r ++ "\r\n".toList)).flatten := by
  obtain ⟨hcol, hloop⟩ := stdin_processed e e2 b headers body hcut hfirst hs
  have h := rowsLoop_extra _ _ 0 { e with Body := body } e2 hcol hloop
  rw [h]
  have h0 : ({ e with Body := body } : Email).ExtraHeaders = [] := hx
  rw [h0, List.nil_append]

theorem C13_first_writer_wins_witness :
    ∃ e2 : Email,
      PopulateFromStdin { fresh 0 with To := [⟨[], "carol@x".toList⟩] }
        "To: a@b\nCc: c@d\nCC: e@f\nFrom: g@h\n\nhi".toList = some e2 ∧
      e2.From = some ⟨[], "g@h".toList⟩ ∧ e2.To = [⟨[], "carol@x".toList⟩] ∧
      e2.CC = [⟨[], "c@d".toList⟩] ∧ e2.BCC = [] := by
  have h := C13_first_writer_wins { fresh 0 with To := [⟨[], "carol@x".toList⟩] }
    { fresh 0 with
        From := some ⟨[], "g@h".toList⟩,
        To := [⟨[], "carol@x".toList⟩],
        CC := [⟨[], "c@d".toList⟩],
        Body := "hi".toList }
    "To: a@b\nCc: c@d\nCC: e@f\nFrom: g@h\n\nhi".toList
    "To: a@b\r\nCc: c@d\r\nCC: e@f\r\nFrom: g@h".toList "hi".toList
    (by decide) (by decide) (by decide)
  refine ⟨{ fresh 0 with
      From := some ⟨[], "g@h".toList⟩,
      To := [⟨[], "carol@x".toList⟩],
      CC := [⟨[], "c@d".toList⟩],
      Body := "hi".toList }, by decide, ?_, ?_, ?_, ?_⟩
  · exact h.1.trans (by decide)
  · exact h.2.2.2.1.trans (by decide)
  · exact h.2.2.2.2.1.trans (by decide)
  · exact h.2.2.2.2.2.trans (by decide)

theorem C14_extra_headers_witness :
    ∃ e2 : Email,
      PopulateFromStdin (fresh 0)
        "X-A: 1\nTo: a@b\nSender: s@t\nX-B: 2\nBcc: c@d\n\nhi".toList = some e2 ∧
      e2.ExtraHeaders = "X-A: 1\r\nX-B: 2\r\n".toList := by
  have h := C14_extra_headers (fresh 0)
    { fresh 0 with
        To := [⟨[], "a@b".toList⟩],
        BCC := [⟨[], "c@d".toList⟩],
        ExtraHeaders := "X-A: 1\r\nX-B: 2\r\n".toList,
        Body := "hi".toList }
    "X-A: 1\nTo: a@b\nSender: s@t\nX-B: 2\nBcc: c@d\n\nhi".toList
    "X-A: 1\r\nTo: a@b\r\nSender: s@t\r\nX-B: 2\r\nBcc: c@d".toList "hi".toList
    rfl (by decide) (by decide) (by decide)
  refine ⟨{ fresh 0 with
      To := [⟨[], "a@b".toList⟩],
      BCC := [⟨[], "c@d".toList⟩],
      ExtraHeaders := "X-A: 1\r\nX-B: 2\r\n".toList,
      Body := "hi".toList }, by decide, ?_⟩
  exact h.trans (by decide)

/-! ## Addresses at composition -/

theorem rowsLoop_To_of_ne_nil (content : Str) (rows : List Str) :
    ∀ (i : Nat) (e e2 : Email), e.To ≠ [] → rowsLoop content i e rows = some e2 →
      e2.To = e.To := by
  induction rows with
  | nil =>
    intro i e e2 _ h
    simp only [rowsLoop, Option.some.injEq] at h
    subst h
    rfl
  | cons v rest ih =>
    intro i e e2 hne h
    cases hc : Cut ":".toList v with
    | none =>
      rw [rowsLoop_cons_none _ _ _ _ _ hc] at h
      split_ifs at h
      have h' := Option.some.inj h
      subst h'
      rfl
    | some nr =>
      obtain ⟨name, raw⟩ := nr
      rw [rowsLoop_cons_some _ _ _ _ _ _ _ hc] at h
      cases hh : headerStep e v name (Trim raw) with
      | none => simp [hh] at h
      | some e1 =>
        simp only [hh] at h
        have h1 : e1.To = e.To := by
          rw [(headerStep_lists e e1 v name (Trim raw) hh).2.1, if_neg (fun hx => hne hx.2)]
        rw [ih (i + 1) e1 e2 (by rw [h1]; exact hne) h, h1]

theorem PopulateFromStdin_To_of_ne_nil (e e2 : Email) (b : Str) (hne : e.To ≠ [])
    (hs : PopulateFromStdin e b = some e2) : e2.To = e.To := by
  rw [PopulateFromStdin_eq] at hs
  cases hc : Cut "\r\n\r\n".toList (specNormalized b) with
  | none =>
    simp only [hc] at hs
    have h' := Option.some.inj hs
    subst h'
    rfl
  | some hb =>
    obtain ⟨headers, body⟩ := hb
    simp only [hc] at hs
    exact rowsLoop_To_of_ne_nil _ _ 0 { e with Body := body } e2 hne hs

theorem PopulateFromArgs_fresh_To (ts : Nat) (args : List Str) :
    ∀ a ∈ (PopulateFromArgs (fresh ts) args).To,
      a.Name = [] ∧ a.Address ∈ args ∧ emailRegexMatch a.Address = true := by
  intro a ha
  by_cases ht : "-t".toList ∈ args
  · rw [PopulateFromArgs_To_of_mem (fresh ts) args ht] at ha
    simp [fresh] at ha
  · rw [PopulateFromArgs_To_of_not_mem (fresh ts) args ht, foldl_recipientStep] at ha
    simp only [fresh, List.nil_append, List.mem_map, List.mem_filter, Bool.and_eq_true] at ha
    obtain ⟨v, ⟨hv, _, hm⟩, rfl⟩ := ha
    exact ⟨rfl, hv, hm⟩

theorem emailRegexMatch_ne_nil (v : Str) (h : emailRegexMatch v = true) : v ≠ [] := by
  intro h0
  subst h0
  simp [emailRegexMatch] at h

/-- C16, counterexample. A `Cc:` header with an empty value gives one copy recipient with an
empty address, and a `To:` header with a trailing double comma gives a second recipient with
an empty address; `GetMessage` succeeds all the same and the envelope holds empty
recipients. -/
theorem C16_counterexample :
    (PopulateFromStdin (PopulateFromArgs (fresh 0) [])
        "From: a@b\nTo: c@d,,\nCc:\n\nhi".toList).map
      (fun e => (e.To, e.CC, (GetMessage e).isSome, allRecAddrs e))
      = some ([⟨[], "c@d".toList⟩, ⟨[], []⟩], [⟨[], []⟩], true,
          ["c@d".toList, [], []]) := by
  decide

/-- C16, amended. When the two passes on a fresh message and then `GetMessage` succeed, the
sender and the first entry of `To` have a non-empty address, and when `To` was filled from
the tokens every entry of `To` has a non-empty address; nothing is checked for the other
entries that come from headers (`ReplyTo`, `CC`, `BCC`, later entries of a `To` header). -/
theorem C16_checked_addresses (ts : Nat) (args : List Str) (stdin : Str) (e2 : Email)
    (text : Str)
    (hs : PopulateFromStdin (PopulateFromArgs (fresh ts) args) stdin = some e2)
    (hg : GetMessage e2 = some text) :
    (∃ f, e2.From = some f ∧ f.Address ≠ []) ∧
    (∃ t rest, e2.To = t :: rest ∧ t.Address ≠ []) ∧
    ((PopulateFromArgs (fresh ts) args).To ≠ [] → ∀ a ∈ e2.To, a.Address ≠ []) := by
  have hne : GetMessage e2 ≠ none := by simp [hg]
  rw [Ne, GetMessage_none_iff] at hne
  push_neg at hne
  obtain ⟨hf, hfa, hto, hta⟩ := hne
  obtain ⟨f, hf2⟩ := Option.ne_none_iff_exists'.1 hf
  obtain ⟨t, rest, ht⟩ := List.exists_cons_of_ne_nil hto
  refine ⟨⟨f, hf2, hfa f hf2⟩, ⟨t, rest, ht, hta t rest ht⟩, ?_⟩
  intro hargs a ha
  rw [PopulateFromStdin_To_of_ne_nil _ e2 stdin hargs hs] at ha
  exact emailRegexMatch_ne_nil _ (PopulateFromArgs_fresh_To ts args a ha).2.2

theorem C16_checked_addresses_witness :
    (∃ f, (⟨0, some ⟨[], "a@b".toList⟩, [], [⟨[], "x@y".toList⟩], [⟨[], []⟩], [], [], [],
        "hi".toList⟩ : Email).From = some f ∧ f.Address ≠ []) ∧
    (∃ t rest, (⟨0, some ⟨[], "a@b".toList⟩, [], [⟨[], "x@y".toList⟩], [⟨[], []⟩], [], [],
        [], "hi".toList⟩ : Email).To = t :: rest ∧ t.Address ≠ []) ∧
    ((PopulateFromArgs (fresh 0) ["x@y".toList]).To ≠ [] →
      ∀ a ∈ (⟨0, some ⟨[], "a@b".toList⟩, [], [⟨[], "x@y".toList⟩], [⟨[], []⟩], [], [], [],
        "hi".toList⟩ : Email).To, a.Address ≠ []) :=
  C16_checked_addresses 0 ["x@y".toList] "From: a@b\nTo: c@d,,\nCc:\n\nhi".toList
    ⟨0, some ⟨[], "a@b".toList⟩, [], [⟨[], "x@y".toList⟩], [⟨[], []⟩], [], [], [],
      "hi".toList⟩
    "From: a@b\r\nSender: a@b\r\nTo: x@y\r\nCC: \r\nSubject: \r\n\r\nhi".toList
    (by decide) (by decide)

/-! ## The blank line of the rendered text -/

theorem NoCRLF_nil : NoCRLF [] := by
  intro p q h
  have := congrArg List.length h
  simp at this
  omega

theorem NoCRLF_of_part {s t : Str} (hs : NoCRLF s) (ht : t <:+: s) : NoCRLF t := by
  intro p q h
  obtain ⟨a, b, hab⟩ := ht
  exact hs (a ++ p) (q ++ b) (by rw [← hab, h]; simp)

theorem NoCRLF_append_sep {a b : Str} {c : Char} (ha : NoCRLF a) (hb : NoCRLF b)
    (hc1 : c ≠ '\r') (hc2 : c ≠ '\n') : NoCRLF (a ++ c :: b) := by
  intro p q h
  rcases List.append_eq_append_iff.1 h with ⟨a1, hp, hcb⟩ | ⟨c1, hap, hq⟩
  · cases a1 with
    | nil =>
      simp only [List.nil_append, List.cons.injEq] at hcb
      exact hc1 hcb.1
    | cons x a2 =>
      simp only [List.cons_append, List.cons.injEq] at hcb
      exact hb a2 q hcb.2
  · cases c1 with
    | nil =>
      simp only [List.nil_append, List.cons.injEq] at hq
      exact hc1 hq.1.symm
    | cons x c2 =>
      cases c2 with
      | nil =>
        simp only [List.cons_append, List.nil_append, List.cons.injEq] at hq
        exact hc2 hq.2.1.symm
      | cons y c3 =>
        simp only [List.cons_append, List.cons.injEq] at hq
        exact ha p c3 (by rw [hap, ← hq.1, ← hq.2.1])

theorem NoCRLF_of_chars {s : Str} (h : ∀ c ∈ s, c ≠ '\n') : NoCRLF s := by
  intro p q hs
  exact h '\n' (by rw [hs]; simp) rfl

theorem NoCRLF_tail {c : Char} {t : Str} (h : NoCRLF (c :: t)) : NoCRLF t :=
  NoCRLF_of_part h ⟨[c], [], by simp⟩

theorem Contains_crlf_false {s : Str} (h : Contains s "\r\n".toList = false) : NoCRLF s := by
  induction s with
  | nil => exact NoCRLF_nil
  | cons c t ih =>
    unfold Contains at h
    rw [Bool.or_eq_false_iff] at h
    intro p q hs
    cases p with
    | nil =>
      rw [hs] at h
      exact absurd h.1 (by simp [List.isPrefixOf])
    | cons x p2 =>
      simp only [List.cons_append, List.cons.injEq] at hs
      exact ih h.2 p2 q hs.2

theorem sep4_no_match (c : Char) (L R : Str) (hL : NoCRLF (c :: L)) :
    List.isPrefixOf "\r\n\r\n".toList (c :: (L ++ '\r' :: '\n' :: R)) = false := by
  rw [Bool.eq_false_iff]
  intro h
  obtain ⟨r, hr⟩ := List.isPrefixOf_iff_prefix.1 h
  simp only [String.toList, List.cons_append, List.nil_append, List.cons.injEq] at hr
  obtain ⟨h1, h2⟩ := hr
  cases L with
  | nil =>
    simp only [List.nil_append, List.cons.injEq] at h2
    exact absurd h2.1 (by decide)
  | cons d L2 =>
    simp only [List.cons_append, List.cons.injEq] at h2
    exact hL [] L2 (by rw [← h1, ← h2.1]; rfl)

theorem Cut_cons_skip (sep : Str) (c : Char) (t : Str)
    (h : sep.isPrefixOf (c :: t) = false) :
    Cut sep (c :: t)
      = match Cut sep t with
        | some (a, b) => some (c :: a, b)
        | none => none := by
  conv_lhs => unfold Cut
  rw [h]
  simp only [Bool.false_eq_true, if_false]

theorem Cut4_last_line (L body : Str) (hL : NoCRLF L) :
    Cut "\r\n\r\n".toList (L ++ '\r' :: '\n' :: '\r' :: '\n' :: body) = some (L, body) := by
  induction L with
  | nil => simp [Cut, List.isPrefixOf]
  | cons c L2 ih =>
    have hp := sep4_no_match c L2 ('\r' :: '\n' :: body) hL
    rw [List.cons_append, Cut_cons_skip _ _ _ hp, ih (NoCRLF_tail hL)]

theorem Cut4_skip_line (L R : Str) (hL : NoCRLF L) (hR : ∀ q, R ≠ '\r' :: '\n' :: q) :
    Cut "\r\n\r\n".toList (L ++ '\r' :: '\n' :: R)
      = match Cut "\r\n\r\n".toList R with
        | some (a, b) => some (L ++ '\r' :: '\n' :: a, b)
        | none => none := by
  induction L with
  | nil =>
    have h1 : List.isPrefixOf "\r\n\r\n".toList ('\r' :: '\n' :: R) = false := by
      rw [Bool.eq_false_iff]
      intro h
      obtain ⟨r, hr⟩ := List.isPrefixOf_iff_prefix.1 h
      simp only [String.toList, List.cons_append, List.nil_append, List.cons.injEq,
        true_and] at hr
      exact hR r hr.symm
    have h2 : List.isPrefixOf "\r\n\r\n".toList ('\n' :: R) = false := by
      simp [List.isPrefixOf]
    rw [List.nil_append, Cut_cons_skip _ _ _ h1, Cut_cons_skip _ _ _ h2]
    cases Cut "\r\n\r\n".toList R with
    | none => rfl
    | some ab => rfl
  | cons c L2 ih =>
    have hp := sep4_no_match c L2 R hL
    rw [List.cons_append, Cut_cons_skip _ _ _ hp, ih (NoCRLF_tail hL)]
    cases Cut "\r\n\r\n".toList R with
    | none => rfl
    | some ab => rfl

theorem line_not_crlf (L R : Str) (hne : L ≠ []) (hL : NoCRLF L) :
    ∀ q, L ++ '\r' :: '\n' :: R ≠ '\r' :: '\n' :: q := by
  intro q h
  cases L with
  | nil => exact hne rfl
  | cons c L2 =>
    simp only [List.cons_append, List.cons.injEq] at h
    cases L2 with
    | nil =>
      simp only [List.nil_append, List.cons.injEq] at h
      exact absurd h.2.1 (by decide)
    | cons d L3 =>
      simp only [List.cons_append, List.cons.injEq] at h
      exact hL [] L3 (by rw [h.1, h.2.1]; rfl)

theorem Cut_lines (body : Str) (lines : List Str) (hne : lines ≠ [])
    (hl : ∀ r ∈ lines, r ≠ [] ∧ NoCRLF r) :
    ∃ hdr, Cut "\r\n\r\n".toList
      ((lines.map (fun r => r ++ ['\r', '\n'])).flatten ++ '\r' :: '\n' :: body)
        = some (hdr, body) := by
  induction lines with
  | nil => exact absurd rfl hne
  | cons L rest ih =>
    cases rest with
    | nil =>
      refine ⟨L, ?_⟩
      have := Cut4_last_line L body (hl L (by simp)).2
      simpa using this
    | cons L2 rest2 =>
      obtain ⟨hdr, hcut⟩ := ih (by simp) (fun r hr => hl r (List.mem_cons_of_mem _ hr))
      have hR : ∀ q, ((L2 :: rest2).map (fun r => r ++ ['\r', '\n'])).flatten
          ++ '\r' :: '\n' :: body ≠ '\r' :: '\n' :: q := by
        intro q
        have := line_not_crlf L2
          ((rest2.map (fun r => r ++ ['\r', '\n'])).flatten ++ '\r' :: '\n' :: body)
          (hl L2 (by simp)).1 (hl L2 (by simp)).2 q
        simpa using this
      have h := Cut4_skip_line L _ (hl L (by simp)).2 hR
      rw [hcut] at h
      refine ⟨L ++ '\r' :: '\n' :: hdr, ?_⟩
      have h2 : (List.map (fun r => r ++ ['\r', '\n']) (L :: L2 :: rest2)).flatten
          ++ '\r' :: '\n' :: body
          = L ++ '\r' :: '\n' :: ((List.map (fun r => r ++ ['\r', '\n'])
              (L2 :: rest2)).flatten ++ '\r' :: '\n' :: body) := by
        simp
      rw [h2, h]

theorem matchComma_suffix (s : Str) : matchComma s <:+ s := by
  unfold matchComma
  split
  · rename_i t
    exact (List.dropWhile_suffix isSpace).trans (List.suffix_cons _ _)
  · exact List.suffix_refl _

theorem matchBracket_parts (s a r : Str) (h : matchBracket s = some (a, r)) :
    a <:+: s ∧ r <:+ s := by
  unfold matchBracket at h
  split at h
  · rename_i t hd
    split at h
    · rename_i rest hr
      simp only at h
      split_ifs at h
      simp only [Option.some.injEq, Prod.mk.injEq] at h
      have ht : t <:+ s := by
        have h1 : ('<' :: t) <:+ s := by
          rw [← hd]
          exact List.dropWhile_suffix isSpace
        exact (List.suffix_cons _ _).trans h1
      constructor
      · rw [← h.1]
        exact ((List.drop_suffix _ _).isInfix.trans
          (List.takeWhile_prefix notSep).isInfix).trans ht.isInfix
      · rw [← h.2]
        have h2 : ('>' :: rest) <:+ t := by
          rw [← hr]
          exact List.dropWhile_suffix notSep
        exact ((List.suffix_cons _ _).trans h2).trans ht
    · simp at h
  · simp at h

theorem matchAddress_parts (s : Str) :
    (matchAddress s).1 <:+: s ∧ (matchAddress s).2.1 <:+: s ∧ (matchAddress s).2.2 <:+ s := by
  have hn : s.takeWhile notSep <:+: s := (List.takeWhile_prefix notSep).isInfix
  have hd : s.dropWhile notSep <:+ s := List.dropWhile_suffix notSep
  unfold matchAddress
  cases hb : matchBracket (s.dropWhile notSep) with
  | none =>
    simp only [hb]
    exact ⟨hn, List.nil_infix, (matchComma_suffix _).trans hd⟩
  | some ar =>
    obtain ⟨a, r⟩ := ar
    obtain ⟨h1, h2⟩ := matchBracket_parts _ a r hb
    simp only [hb]
    exact ⟨hn, h1.trans hd.isInfix, (matchComma_suffix _).trans (h2.trans hd)⟩

theorem allMatchesAux_parts (fuel : Nat) :
    ∀ (prev : Bool) (s : Str) (m : Str × Str), m ∈ allMatchesAux fuel prev s →
      m.1 <:+: s ∧ m.2 <:+: s := by
  induction fuel with
  | zero =>
    intro prev s m hm
    simp [allMatchesAux] at hm
  | succ k ih =>
    intro prev s m hm
    obtain ⟨h1, h2, h3⟩ := matchAddress_parts s
    by_cases hlen : (matchAddress s).2.2.length = s.length
    · have hout : ∀ x ∈ (if prev = true then ([] : List (Str × Str))
          else [((matchAddress s).1, (matchAddress s).2.1)]), x.1 <:+: s ∧ x.2 <:+: s := by
        intro x hx
        split_ifs at hx
        · simp at hx
        · rw [List.mem_singleton] at hx
          subst hx
          exact ⟨h1, h2⟩
      cases s with
      | nil =>
        simp only [allMatchesAux, hlen, if_true] at hm
        exact hout m hm
      | cons c t =>
        simp only [allMatchesAux, hlen, if_true, List.mem_append] at hm
        rcases hm with hm | hm
        · exact hout m hm
        · obtain ⟨g1, g2⟩ := ih false t m hm
          exact ⟨g1.trans (List.suffix_cons c t).isInfix,
            g2.trans (List.suffix_cons c t).isInfix⟩
    · simp only [allMatchesAux, hlen, if_false, List.mem_cons] at hm
      rcases hm with rfl | hm
      · exact ⟨h1, h2⟩
      · obtain ⟨g1, g2⟩ := ih true _ m hm
        exact ⟨g1.trans h3.isInfix, g2.trans h3.isInfix⟩

theorem trimBy_part (p : Char → Bool) (s : Str) : trimBy p s <:+: s := by
  unfold trimBy
  exact (List.rdropWhile_prefix p _).isInfix.trans (List.dropWhile_suffix p).isInfix

theorem ParseAddresses_parts (s : Str) (a : EmailAddress) (ha : a ∈ ParseAddresses s) :
    a.Name <:+: s ∧ a.Address <:+: s := by
  unfold ParseAddresses at ha
  obtain ⟨m, hm, rfl⟩ := List.mem_map.1 ha
  obtain ⟨g1, g2⟩ := allMatchesAux_parts _ _ _ _ hm
  have t1 : Trim m.1 <:+: s := (trimBy_part isBlank m.1).trans g1
  have t2 : Trim m.2 <:+: s := (trimBy_part isBlank m.2).trans g2
  unfold toAddress
  by_cases h : Trim m.2 = []
  · rw [if_pos h]
    exact ⟨List.nil_infix, t1⟩
  · rw [if_neg h]
    exact ⟨t1, t2⟩

theorem ParseAddresses_clean (s : Str) (hs : NoCRLF s) (a : EmailAddress)
    (ha : a ∈ ParseAddresses s) : CleanAddress a :=
  ⟨NoCRLF_of_part hs (ParseAddresses_parts s a ha).1,
    NoCRLF_of_part hs (ParseAddresses_parts s a ha).2⟩

theorem Cut_crlf_left (s a b : Str) (h : Cut "\r\n".toList s = some (a, b)) : NoCRLF a := by
  induction s generalizing a with
  | nil => simp [Cut] at h
  | cons c t ih =>
    by_cases hp : List.isPrefixOf "\r\n".toList (c :: t) = true
    · unfold Cut at h
      rw [if_pos hp] at h
      simp only [Option.some.injEq, Prod.mk.injEq] at h
      rw [← h.1]
      exact NoCRLF_nil
    · have hp2 : List.isPrefixOf "\r\n".toList (c :: t) = false :=
        Bool.eq_false_iff.2 hp
      rw [Cut_cons_skip _ _ _ hp2] at h
      cases hc : Cut "\r\n".toList t with
      | none =>
        rw [hc] at h
        simp at h
      | some ab =>
        obtain ⟨a2, b2⟩ := ab
        rw [hc] at h
        simp only [Option.some.injEq, Prod.mk.injEq] at h
        obtain ⟨h1, h2⟩ := h
        subst h2
        have ht := Cut_spec _ _ _ _ hc
        have ha2 := ih a2 hc
        rw [← h1]
        intro p q hpq
        cases p with
        | nil =>
          simp only [List.nil_append, List.cons.injEq] at hpq
          apply hp
          rw [List.isPrefixOf_iff_prefix, ht, hpq.1, hpq.2]
          exact ⟨q ++ ("\r\n".toList ++ b2), by simp⟩
        | cons x p2 =>
          simp only [List.cons_append, List.cons.injEq] at hpq
          exact ha2 p2 q hpq.2

theorem Cut_crlf_none (s : Str) (h : Cut "\r\n".toList s = none) : NoCRLF s := by
  induction s with
  | nil => exact NoCRLF_nil
  | cons c t ih =>
    by_cases hp : List.isPrefixOf "\r\n".toList (c :: t) = true
    · unfold Cut at h
      rw [if_pos hp] at h
      simp at h
    · have hp2 : List.isPrefixOf "\r\n".toList (c :: t) = false :=
        Bool.eq_false_iff.2 hp
      rw [Cut_cons_skip _ _ _ hp2] at h
      cases hc : Cut "\r\n".toList t with
      | some ab =>
        rw [hc] at h
        simp at h
      | none =>
        have ht := ih hc
        intro p q hpq
        cases p with
        | nil =>
          apply hp
          rw [List.isPrefixOf_iff_prefix, hpq]
          exact ⟨q, by simp⟩
        | cons x p2 =>
          simp only [List.cons_append, List.cons.injEq] at hpq
          exact ht p2 q hpq.2

theorem SplitAux_crlf_clean (fuel : Nat) :
    ∀ s : Str, s.length ≤ fuel → ∀ r ∈ SplitAux "\r\n".toList fuel s, NoCRLF r := by
  induction fuel with
  | zero =>
    intro s hs r hr
    have : s = [] := List.length_eq_zero.1 (Nat.le_zero.1 hs)
    subst this
    simp only [SplitAux, List.mem_singleton] at hr
    rw [hr]
    exact NoCRLF_nil
  | succ k ih =>
    intro s hs r hr
    cases hc : Cut "\r\n".toList s with
    | none =>
      simp only [SplitAux, hc, List.mem_singleton] at hr
      rw [hr]
      exact Cut_crlf_none s hc
    | some ab =>
      obtain ⟨a, b⟩ := ab
      simp only [SplitAux, hc, List.mem_cons] at hr
      rcases hr with rfl | hr
      · exact Cut_crlf_left s r b hc
      · have hlt := Cut_length _ s a b (by decide) hc
        exact ih b (by omega) r hr

theorem Split_crlf_clean (s : Str) : ∀ r ∈ Split "\r\n".toList s, NoCRLF r :=
  SplitAux_crlf_clean _ s (le_refl _)

theorem headerStep_clean (e e1 : Email) (v name val : Str) (hv : NoCRLF v) (hv0 : v ≠ [])
    (hval : NoCRLF val) (he : CleanHeaders e) (h : headerStep e v name val = some e1) :
    CleanHeaders e1 := by
  obtain ⟨cF, cR, cT, cC, cS, lines, hx, hlines⟩ := he
  obtain ⟨l1, l2, l3, _, l5, l6, _⟩ := headerStep_lists e e1 v name val h
  obtain ⟨s1, _⟩ := headerStep_sender e e1 v name val h
  have hparse : ∀ a ∈ ParseAddresses val, CleanAddress a :=
    fun a ha => ParseAddresses_clean val hval a ha
  refine ⟨?_, ?_, ?_, ?_, ?_, ?_⟩
  · intro f hf
    rw [s1] at hf
    split_ifs at hf
    · exact hparse f (List.mem_of_mem_head? hf)
    · exact cF f hf
  · intro a ha
    rw [l1] at ha
    split_ifs at ha
    · exact hparse a ha
    · exact cR a ha
  · intro a ha
    rw [l2] at ha
    split_ifs at ha
    · exact hparse a ha
    · exact cT a ha
  · intro a ha
    rw [l3] at ha
    split_ifs at ha
    · exact hparse a ha
    · exact cC a ha
  · rw [l5]
    split_ifs
    · exact hval
    · exact cS
  · rw [l6]
    split_ifs
    · exact ⟨lines, hx, hlines⟩
    · refine ⟨lines ++ [v], ?_, ?_⟩
      · rw [hx]
        simp
      · intro r hr
        rcases List.mem_append.1 hr with hr | hr
        · exact hlines r hr
        · rw [List.mem_singleton] at hr
          subst hr
          exact ⟨hv0, hv⟩

theorem rowsLoop_clean (content : Str) (rows : List Str) :
    ∀ (i : Nat) (e e2 : Email), (∀ r ∈ rows, NoCRLF r) → CleanHeaders e →
      rowsLoop content i e rows = some e2 → CleanHeaders e2 := by
  induction rows with
  | nil =>
    intro i e e2 _ he h
    simp only [rowsLoop, Option.some.injEq] at h
    subst h
    exact he
  | cons v rest ih =>
    intro i e e2 hrows he h
    cases hc : Cut ":".toList v with
    | none =>
      rw [rowsLoop_cons_none _ _ _ _ _ hc] at h
      split_ifs at h
      have h' := Option.some.inj h
      subst h'
      exact he
    | some nr =>
      obtain ⟨name, raw⟩ := nr
      rw [rowsLoop_cons_some _ _ _ _ _ _ _ hc] at h
      cases hh : headerStep e v name (Trim raw) with
      | none => simp [hh] at h
      | some e1 =>
        simp only [hh] at h
        have hv : NoCRLF v := hrows v (by simp)
        have hspec := Cut_spec _ _ _ _ hc
        have hv0 : v ≠ [] := by
          rw [hspec]
          simp
        have hraw : raw <:+: v := ⟨name ++ ":".toList, [], by rw [hspec]; simp⟩
        have hval : NoCRLF (Trim raw) :=
          NoCRLF_of_part hv ((trimBy_part isBlank raw).trans hraw)
        exact ih (i + 1) e1 e2 (fun r hr => hrows r (List.mem_cons_of_mem _ hr))
          (headerStep_clean e e1 v name (Trim raw) hv hv0 hval he hh) h

theorem PopulateFromStdin_clean (e e2 : Email) (b : Str) (he : CleanHeaders e)
    (hs : PopulateFromStdin e b = some e2) : CleanHeaders e2 := by
  rw [PopulateFromStdin_eq] at hs
  cases hc : Cut "\r\n\r\n".toList (specNormalized b) with
  | none =>
    simp only [hc] at hs
    have h' := Option.some.inj hs
    subst h'
    exact he
  | some hb =>
    obtain ⟨headers, body⟩ := hb
    simp only [hc] at hs
    exact rowsLoop_clean _ _ 0 { e with Body := body } e2 (Split_crlf_clean headers) he hs

theorem PopulateFromArgs_other (e : Email) (args : List Str) :
    (PopulateFromArgs e args).ReplyTo = e.ReplyTo ∧ (PopulateFromArgs e args).CC = e.CC ∧
    (PopulateFromArgs e args).BCC = e.BCC ∧ (PopulateFromArgs e args).Subject = e.Subject ∧
    (PopulateFromArgs e args).ExtraHeaders = e.ExtraHeaders ∧
    (PopulateFromArgs e args).Body = e.Body := by
  unfold PopulateFromArgs
  by_cases hany : args.any (fun v => decide (v = "-t".toList)) = true <;>
    simp only [hany] <;>
    cases (FindAllSender (Join args)).getLast? <;>
    exact ⟨rfl, rfl, rfl, rfl, rfl, rfl⟩

theorem specSenderFlag_fragment_clean {m rest : Str} (h : specSenderFlag m rest) :
    NoCRLF (m.drop 2) := by
  obtain ⟨c, u, d, _, _, _, hu, hd, rfl, _⟩ := h
  apply NoCRLF_of_chars
  intro x hx
  simp only [List.drop_succ_cons, List.drop_zero, List.mem_append, List.mem_cons] at hx
  rcases hx with hx | hx | hx
  · intro hn
    rw [hn] at hx
    exact absurd (hu _ hx) (by decide)
  · rw [hx]
    decide
  · intro hn
    rw [hn] at hx
    exact absurd (hd _ hx) (by decide)

theorem PopulateFromArgs_clean (ts : Nat) (args : List Str)
    (htok : ∀ a ∈ (PopulateFromArgs (fresh ts) args).To, NoCRLF a.Address) :
    CleanHeaders (PopulateFromArgs (fresh ts) args) := by
  obtain ⟨o1, o2, _, o4, o5, _⟩ := PopulateFromArgs_other (fresh ts) args
  refine ⟨?_, ?_, ?_, ?_, ?_, ?_⟩
  · intro f hf
    rw [PopulateFromArgs_From] at hf
    cases hl : (FindAllSender (Join args)).getLast? with
    | none =>
      rw [hl] at hf
      simp [fresh] at hf
    | some m =>
      rw [hl] at hf
      simp only [Option.some.injEq] at hf
      subst hf
      obtain ⟨pre, rest, _, hflag⟩ :=
        findAllSenderAux_mem _ _ _ (List.mem_of_getLast?_eq_some hl)
      exact ⟨NoCRLF_nil, specSenderFlag_fragment_clean hflag⟩
  · intro a ha
    rw [o1] at ha
    simp [fresh] at ha
  · intro a ha
    refine ⟨?_, htok a ha⟩
    rw [(PopulateFromArgs_fresh_To ts args a ha).1]
    exact NoCRLF_nil
  · intro a ha
    rw [o2] at ha
    simp [fresh] at ha
  · rw [o4]
    exact NoCRLF_nil
  · exact ⟨[], by rw [o5]; rfl, by simp⟩

theorem specFormat_clean (a : EmailAddress) (ha : CleanAddress a) : NoCRLF (specFormat a) := by
  unfold specFormat
  split_ifs
  · exact ha.2
  · have h1 : NoCRLF ('<' :: a.Address) :=
      NoCRLF_append_sep (a := []) NoCRLF_nil ha.2 (by decide) (by decide)
    have h2 : NoCRLF (a.Name ++ ' ' :: '<' :: a.Address) :=
      NoCRLF_append_sep ha.1 h1 (by decide) (by decide)
    exact NoCRLF_append_sep h2 NoCRLF_nil (by decide) (by decide)

theorem specFormatList_clean (l : List EmailAddress) (hl : ∀ a ∈ l, CleanAddress a) :
    NoCRLF (specFormatList l) := by
  rw [← FormatAddresses_eq_specFormatList]
  induction l with
  | nil => exact NoCRLF_nil
  | cons x rest ih =>
    have hx : NoCRLF x.StringFormat := by
      rw [StringFormat_eq_specFormat]
      exact specFormat_clean x (hl x (by simp))
    cases rest with
    | nil =>
      rw [FormatAddresses_singleton]
      exact hx
    | cons y rest2 =>
      rw [FormatAddresses_cons_cons]
      exact NoCRLF_append_sep hx (ih (fun a ha => hl a (List.mem_cons_of_mem _ ha)))
        (by decide) (by decide)

theorem label_clean (lab x : Str) (hlab : ∀ c ∈ lab, c ≠ '\n') (hx : NoCRLF x) :
    lab ++ ' ' :: x ≠ [] ∧ NoCRLF (lab ++ ' ' :: x) :=
  ⟨by simp, NoCRLF_append_sep (NoCRLF_of_chars hlab) hx (by decide) (by decide)⟩

theorem GetMessage_lines (e : Email) (text : Str) (he : CleanHeaders e)
    (hg : GetMessage e = some text) :
    ∃ lines : List Str, lines ≠ [] ∧ (∀ r ∈ lines, r ≠ [] ∧ NoCRLF r) ∧
      text = (lines.map (fun r => r ++ ['\r', '\n'])).flatten ++ '\r' :: '\n' :: e.Body := by
  obtain ⟨cF, cR, cT, cC, cS, xlines, hx, hxl⟩ := he
  have hne : GetMessage e ≠ none := by simp [hg]
  rw [Ne, GetMessage_none_iff] at hne
  push_neg at hne
  obtain ⟨hf, hfa, hto, hta⟩ := hne
  obtain ⟨f, hf2⟩ := Option.ne_none_iff_exists'.1 hf
  obtain ⟨t, rest, ht⟩ := List.exists_cons_of_ne_nil hto
  have hl := GetMessage_eq_specLayout e f t rest hf2 (hfa f hf2) ht (hta t rest ht)
  rw [hg, Option.some.injEq] at hl
  have kF := label_clean "From:".toList (specFormat f) (by decide)
    (specFormat_clean f (cF f hf2))
  have kS := label_clean "Sender:".toList (specFormat f) (by decide)
    (specFormat_clean f (cF f hf2))
  have kR := label_clean "Reply-To:".toList (specFormatList e.ReplyTo) (by decide)
    (specFormatList_clean _ cR)
  have kT := label_clean "To:".toList (specFormatList e.To) (by decide)
    (specFormatList_clean _ cT)
  have kC := label_clean "CC:".toList (specFormatList e.CC) (by decide)
    (specFormatList_clean _ cC)
  have kJ := label_clean "Subject:".toList e.Subject (by decide) cS
  refine ⟨["From:".toList ++ ' ' :: specFormat f, "Sender:".toList ++ ' ' :: specFormat f]
      ++ (if e.ReplyTo = [] then [] else ["Reply-To:".toList ++ ' ' :: specFormatList e.ReplyTo])
      ++ ["To:".toList ++ ' ' :: specFormatList e.To]
      ++ (if e.CC = [] then [] else ["CC:".toList ++ ' ' :: specFormatList e.CC])
      ++ ["Subject:".toList ++ ' ' :: e.Subject] ++ xlines, by simp, ?_, ?_⟩
  · intro r hr
    simp only [List.mem_append, List.mem_cons, List.mem_singleton, List.not_mem_nil,
      or_false] at hr
    rcases hr with ((((hr | hr) | hr) | hr) | hr) | hr
    · rcases hr with rfl | rfl
      · exact kF
      · exact kS
    · split_ifs at hr
      · simp at hr
      · rw [List.mem_singleton] at hr
        rw [hr]
        exact kR
    · rw [hr]
      exact kT
    · split_ifs at hr
      · simp at hr
      · rw [List.mem_singleton] at hr
        rw [hr]
        exact kC
    · rw [hr]
      exact kJ
    · exact hxl r hr
  · rw [hl]
    unfold specLayout
    rw [hx]
    by_cases hr : e.ReplyTo = [] <;> by_cases hc : e.CC = [] <;>
      simp [hr, hc, List.append_assoc]

/-- C18, counterexample. A bare recipient token that holds CR-LF CR-LF is rendered as it is
in the `To` line: the text after the first CR-LF CR-LF of the rendered text is then the rest
of the token and of the headers, not the body. -/
theorem C18_counterexample :
    (PopulateFromStdin (PopulateFromArgs (fresh 0) ["-fa@b".toList, "x@y\r\n\r\nz".toList])
        "hi".toList).map (fun e => (e.Body, (GetMessage e).map (Cut "\r\n\r\n".toList)))
      = some ("hi".toList,
          some (some ("From: a@b\r\nSender: a@b\r\nTo: x@y".toList,
            "z\r\nSubject: \r\n\r\nhi".toList))) ∧
    "z\r\nSubject: \r\n\r\nhi".toList ≠ "hi".toList := by
  refine ⟨by decide, by decide⟩

/-- C18, amended. When no recipient taken from the tokens contains a CR-LF pair, then for
every stdin input on which the two passes on a fresh message and `GetMessage` succeed, the
header section of the rendered text holds no blank line: the text after the first CR-LF CR-LF
of the rendered text is exactly the body of the message. -/
theorem C18_header_body_delimiting (ts : Nat) (args : List Str) (stdin : Str) (e2 : Email)
    (text : Str)
    (htok : ∀ a ∈ (PopulateFromArgs (fresh ts) args).To,
      Contains a.Address "\r\n".toList = false)
    (hs : PopulateFromStdin (PopulateFromArgs (fresh ts) args) stdin = some e2)
    (hg : GetMessage e2 = some text) :
    ∃ hdr, Cut "\r\n\r\n".toList text = some (hdr, e2.Body) ∧
      text = hdr ++ ("\r\n\r\n".toList ++ e2.Body) := by
  have h1 : CleanHeaders (PopulateFromArgs (fresh ts) args) :=
    PopulateFromArgs_clean ts args (fun a ha => Contains_crlf_false (htok a ha))
  have h2 : CleanHeaders e2 := PopulateFromStdin_clean _ e2 stdin h1 hs
  obtain ⟨lines, hne, hl, htext⟩ := GetMessage_lines e2 text h2 hg
  obtain ⟨hdr, hcut⟩ := Cut_lines e2.Body lines hne hl
  rw [← htext] at hcut
  exact ⟨hdr, hcut, Cut_spec _ _ _ _ hcut⟩

theorem C18_header_body_delimiting_witness :
    ∃ hdr, Cut "\r\n\r\n".toList
        "From: a@b\r\nSender: a@b\r\nTo: x@y\r\nSubject: s\n\nt\r\nX-A: 1\r\n\r\nhi\r\n\r\nyo".toList
      = some (hdr, "hi\r\n\r\nyo".toList) ∧
      "From: a@b\r\nSender: a@b\r\nTo: x@y\r\nSubject: s\n\nt\r\nX-A: 1\r\n\r\nhi\r\n\r\nyo".toList
        = hdr ++ ("\r\n\r\n".toList ++ "hi\r\n\r\nyo".toList) :=
  C18_header_body_delimiting 0 ["-fa@b".toList, "x@y".toList]
    "Subject: s\n\nt\r\nX-A: 1\r\n\r\nhi\r\n\r\nyo".toList
    ⟨0, some ⟨[], "a@b".toList⟩, [], [⟨[], "x@y".toList⟩], [], [], "s\n\nt".toList,
      "X-A: 1\r\n".toList, "hi\r\n\r\nyo".toList⟩
    "From: a@b\r\nSender: a@b\r\nTo: x@y\r\nSubject: s\n\nt\r\nX-A: 1\r\n\r\nhi\r\n\r\nyo".toList
    (by decide) (by decide) (by decide)

end Shim
